import Mathlib

/-!
Shallow embedding of the clustering core of `hari_plotter` (file
`src/hari_plotter/hari_graph.py`, class `HariGraph`, which extends
`networkx.DiGraph`).

Modelling conventions:
* Node identifiers are integers, edge weights and opinions are rationals.
* A graph is a pair of association lists in insertion order, mirroring the
  insertion-ordered dictionaries used by `networkx`: one for node
  attribute records, one for edge records keyed by the ordered pair
  `(source, target)`.
* Attributes that Python accesses through `dict.get` with a default
  (`label`, `min_value`, `max_value`, `importance`) are modelled as
  `Option` fields together with the defaulting accessors used by the code
  (`labelD`, `minValueD`, `maxValueD`).  The `value` attribute is present
  on every node built by the constructors of the file and is accessed
  without a default by the merge code, so it is a plain field.
* `networkx.DiGraph.add_edge` silently creates missing endpoint nodes with
  an empty attribute dictionary; this is modelled by inserting `autoNode`.
  No operation studied here reads the attributes of such a node before
  they are assigned.
* `networkx.DiGraph.remove_node` raises on an absent node; in the code
  paths modelled here nodes are only removed while present, and the model
  uses a silent filter.
-/

set_option linter.unusedVariables false

namespace HariPlotter

/-- Attribute record of one graph node.  `value` is the opinion; `label`
is the provenance list of original identifiers; `min_value`, `max_value`
and `importance` are optional, read through defaults exactly where the
Python code uses `dict.get`. -/
structure NodeData where
  value : ℚ
  label : Option (List ℤ)
  min_value : Option ℚ
  max_value : Option ℚ
  importance : Option ℚ
deriving DecidableEq, Repr

/-- `node.get('label', [i])` for a node with identifier `i`. -/
def labelD (i : ℤ) (nd : NodeData) : List ℤ := nd.label.getD [i]

/-- `node.get('min_value', value)`. -/
def minValueD (nd : NodeData) : ℚ := nd.min_value.getD nd.value

/-- `node.get('max_value', value)`. -/
def maxValueD (nd : NodeData) : ℚ := nd.max_value.getD nd.value

/-- Attribute record that `networkx` gives to a node auto-created by
`add_edge`: an empty attribute dictionary.  The concrete field contents
are placeholders that no modelled operation reads before assigning. -/
def autoNode : NodeData :=
  { value := 0, label := none, min_value := none, max_value := none, importance := none }

/-- One directed edge: source, target, weight (`value` attribute). -/
abbrev Edge := ℤ × ℤ × ℚ

/-- First node record with the given key, mirroring a Python dict lookup
on the node dictionary. -/
def lookupNode : List (ℤ × NodeData) → ℤ → Option NodeData
  | [], _ => none
  | p :: ps, i => if p.1 = i then some p.2 else lookupNode ps i

/-- Insert or overwrite a node record, keeping the position of an
existing key, as a Python dict assignment does. -/
def setNode : List (ℤ × NodeData) → ℤ → NodeData → List (ℤ × NodeData)
  | [], i, nd => [(i, nd)]
  | p :: ps, i, nd => if p.1 = i then (i, nd) :: ps else p :: setNode ps i nd

/-- Weight of the edge with the given ordered endpoint pair, if present. -/
def lookupEdge : List Edge → ℤ → ℤ → Option ℚ
  | [], _, _ => none
  | e :: es, u, v => if e.1 = u ∧ e.2.1 = v then some e.2.2 else lookupEdge es u v

/-- Overwrite the weight at an existing ordered pair, keeping its
position (Python dict assignment on the adjacency dictionary). -/
def setEdge : List Edge → ℤ → ℤ → ℚ → List Edge
  | [], u, v, w => [(u, v, w)]
  | e :: es, u, v, w => if e.1 = u ∧ e.2.1 = v then (u, v, w) :: es else e :: setEdge es u v w

/-- The graph: insertion-ordered node and edge association lists. -/
structure HariGraph where
  nodes : List (ℤ × NodeData)
  edges : List Edge
deriving DecidableEq, Repr

namespace HariGraph

/-- Node identifiers in insertion order (`list(self.nodes)`). -/
def nodeIds (g : HariGraph) : List ℤ := g.nodes.map Prod.fst

/-- Attribute record of a node (`self.nodes[i]` when present). -/
def getNode (g : HariGraph) (i : ℤ) : Option NodeData := lookupNode g.nodes i

/-- `i in self.nodes`. -/
def hasNode (g : HariGraph) (i : ℤ) : Bool := (g.getNode i).isSome

/-- Weight of the edge `u → v` when it exists (`self[u][v]['value']`). -/
def edgeValue (g : HariGraph) (u v : ℤ) : Option ℚ := lookupEdge g.edges u v

/-- `self.has_edge(u, v)`. -/
def hasEdge (g : HariGraph) (u v : ℤ) : Bool := (g.edgeValue u v).isSome

/-- `self.add_node(i, ...)`: inserts the record, or overwrites the
attributes of an existing node in place (edges are kept). -/
def add_node (g : HariGraph) (i : ℤ) (nd : NodeData) : HariGraph :=
  { g with nodes := setNode g.nodes i nd }

/-- `self.add_edge(u, v, value=w)`: `networkx` semantics — missing
endpoints are silently added as attribute-less nodes, and an existing
edge has its weight overwritten. -/
def add_edge (g : HariGraph) (u v : ℤ) (w : ℚ) : HariGraph :=
  let ns1 := if (lookupNode g.nodes u).isSome then g.nodes else g.nodes ++ [(u, autoNode)]
  let ns2 := if (lookupNode ns1 v).isSome then ns1 else ns1 ++ [(v, autoNode)]
  let es := if (lookupEdge g.edges u v).isSome then setEdge g.edges u v w
    else g.edges ++ [(u, v, w)]
  { nodes := ns2, edges := es }

/-- `self[u][v]['value'] = w` on an existing edge (also used for `+=`). -/
def updateEdge (g : HariGraph) (u v : ℤ) (w : ℚ) : HariGraph :=
  { g with edges := setEdge g.edges u v w }

/-- `self.remove_edge(u, v)`. -/
def remove_edge (g : HariGraph) (u v : ℤ) : HariGraph :=
  { g with edges := g.edges.filter (fun e => decide (¬ (e.1 = u ∧ e.2.1 = v))) }

/-- `self.remove_node(i)`: removes the node and all incident edges. -/
def remove_node (g : HariGraph) (i : ℤ) : HariGraph :=
  { nodes := g.nodes.filter (fun p => decide (p.1 ≠ i)),
    edges := g.edges.filter (fun e => decide (e.1 ≠ i ∧ e.2.1 ≠ i)) }

/-- `list(self.successors(n))` in adjacency insertion order. -/
def successors (g : HariGraph) (n : ℤ) : List ℤ :=
  (g.edges.filter (fun e => decide (e.1 = n))).map (fun e => e.2.1)

/-- `list(self.predecessors(n))`. -/
def predecessors (g : HariGraph) (n : ℤ) : List ℤ :=
  (g.edges.filter (fun e => decide (e.2.1 = n))).map (fun e => e.1)

/-- `list(self.edges(data=True))`: `networkx` iterates the adjacency of
each node in node insertion order. -/
def edgesInOrder (g : HariGraph) : List Edge :=
  g.nodes.flatMap (fun p => g.edges.filter (fun e => decide (e.1 = p.1)))

/-- `max(self.nodes)` (the Python built-in raises on an empty graph; the
default `0` is unreachable in the modelled call sites, which all require
a node to be present). -/
def maxNodeId (g : HariGraph) : ℤ :=
  match g.nodes with
  | [] => 0
  | p :: ps => (ps.map Prod.fst).foldl max p.1

end HariGraph

/-- Every edge endpoint is a node of the graph.  This holds for every
graph the repository constructs and is an implicit assumption of the
Python code (a violated instance would raise `KeyError`). -/
def EdgesClosed (g : HariGraph) : Prop :=
  ∀ e ∈ g.edges, e.1 ∈ g.nodeIds ∧ e.2.1 ∈ g.nodeIds

instance (g : HariGraph) : Decidable (EdgesClosed g) := by
  unfold EdgesClosed; infer_instance

/-- `max(0, min(x, 1))`, the clipping applied by the dynamics step. -/
def clip (x : ℚ) : ℚ := max 0 (min x 1)

/-- Per-node body of `HariGraph.dynamics_step`: starting from the old
value, accumulate `weight * source value * t` over the incoming edges,
then clip to `[0, 1]`. -/
def stepValue (g : HariGraph) (t : ℚ) (i : ℤ) (v0 : ℚ) : ℚ :=
  clip ((g.predecessors i).foldl
    (fun acc j => acc + ((g.edgeValue j i).getD 0) * ((g.getNode j).getD autoNode).value * t) v0)

/-- `HariGraph.dynamics_step(t)`: computes, for every node, the clipped
updated value from the incoming edges, storing the results in a
temporary dictionary and writing them back only after all reads (here:
every read is from the unmodified input graph `g`). -/
def HariGraph.dynamics_step (g : HariGraph) (t : ℚ) : HariGraph :=
  { g with nodes := g.nodes.map (fun p => (p.1, { p.2 with value := stepValue g t p.1 p.2.value })) }

/-- Specification-side sum for the dynamics step: the sum over all
incoming edges of node `i` of edge weight times source-node value, read
on the given (pre-step) graph. -/
def inWeightedSum (g : HariGraph) (i : ℤ) : ℚ :=
  ((g.edges.filter (fun e => decide (e.2.1 = i))).map
    (fun e => e.2.2 * ((g.getNode e.1).getD autoNode).value)).sum

/-- `HariGraph.default_similarity_function` with its default
coefficients (`value_coef=1`, `extreme_coef=0.1`, `influence_coef=1`,
`size_coef=10`; the Python signature takes them as optional keyword
parameters, and every call modelled here uses the defaults).  The
division by `label_sum` raises `ZeroDivisionError` in Python when both
sizes are zero; rational division by zero yields `0` here, a case out of
reach since label sizes are at least 1 on every modelled graph. -/
def default_similarity_function (vi vj : ℚ) (size_i size_j : ℕ)
    (edge_value reverse_edge_value : Option ℚ) : ℚ :=
  let value_coef : ℚ := 1
  let extreme_coef : ℚ := 1 / 10
  let influence_coef : ℚ := 1
  let size_coef : ℚ := 10
  let value_proximity := value_coef * (1 - |vi - vj|)
  let extreme_proximity := extreme_coef * min (min vi vj) (min (1 - vi) (1 - vj))
  let label_sum : ℚ := (size_i : ℚ) + (size_j : ℚ)
  let influence_a : ℚ :=
    match edge_value with
    | some e => e * (size_j : ℚ) / label_sum
    | none => 0
  let influence_b : ℚ :=
    match reverse_edge_value with
    | some e => e * (size_i : ℚ) / label_sum
    | none => 0
  let influence := influence_coef * (influence_a + influence_b)
  let size_impact := size_coef * (1 / (1 + (size_i : ℚ)) + 1 / (1 + (size_j : ℚ)))
  value_proximity + extreme_proximity + influence + size_impact

/-- `HariGraph.compute_similarity(i, j)` with the similarity function
left at the default one installed by `__init__` (no caller in the
modelled flows overrides it).  Looking up a missing node raises
`KeyError` in Python; the defaulted read is unreachable when both nodes
are present, which the adjacency test guarantees on a graph whose edge
endpoints are nodes. -/
def compute_similarity (g : HariGraph) (i j : ℤ) : ℚ :=
  if g.hasEdge i j = false ∧ g.hasEdge j i = false then -2
  else
    let ndi := (g.getNode i).getD autoNode
    let ndj := (g.getNode j).getD autoNode
    let vi := ndi.value
    let vj := ndj.value
    let size_i := (labelD i ndi).length
    let size_j := (labelD j ndj).length
    default_similarity_function vi vj size_i size_j (g.edgeValue i j) (g.edgeValue j i)

/-- Attribute record built for the merged node in
`HariGraph.merge_nodes(i, j)`: label-size-weighted average value,
concatenated label, min/max across the two source nodes.  Reading a
missing node raises `KeyError` in Python; the `autoNode` defaults are
unreachable when both nodes are present. -/
def mergedNodeData (g : HariGraph) (i j : ℤ) : NodeData :=
  let ndi := (g.getNode i).getD autoNode
  let ndj := (g.getNode j).getD autoNode
  let label_i := labelD i ndi
  let label_j := labelD j ndj
  let vi := ndi.value
  let vj := ndj.value
  let weight_i : ℚ := label_i.length
  let weight_j : ℚ := label_j.length
  { value := (vi * weight_i + vj * weight_j) / (weight_i + weight_j),
    label := some (label_i ++ label_j),
    min_value := some (min (ndi.min_value.getD vi) (ndj.min_value.getD vj)),
    max_value := some (max (ndi.max_value.getD vi) (ndj.max_value.getD vj)),
    importance := none }

/-- One iteration of the edge-reconnection loop of
`HariGraph.merge_nodes`, for the snapshot edge `(u, v, _)`: edges
leaving `i` or `j` are re-homed onto `new_node` (summing weights when
the new node is already connected to the same neighbour), symmetrically
for edges entering `i` or `j`; edges between `i` and `j` are only
removed; the processed edge is removed in each case. -/
def mergeStep (i j new_node : ℤ) (h : HariGraph) (e : Edge) : HariGraph :=
  let u := e.1
  let v := e.2.1
  let h1 :=
    if u = i ∨ u = j then
      let h' :=
        if v ≠ i ∧ v ≠ j then
          let value := (h.edgeValue u v).getD 0
          if h.hasEdge new_node v then
            h.updateEdge new_node v (((h.edgeValue new_node v).getD 0) + value)
          else h.add_edge new_node v value
        else h
      if h'.hasEdge u v then h'.remove_edge u v else h'
    else h
  if v = i ∨ v = j then
    let h2 :=
      if u ≠ i ∧ u ≠ j then
        let value := (h1.edgeValue u v).getD 0
        if h1.hasEdge u new_node then
          h1.updateEdge u new_node (((h1.edgeValue u new_node).getD 0) + value)
        else h1.add_edge u new_node value
      else h1
    if h2.hasEdge u v then h2.remove_edge u v else h2
  else h1

/-- `HariGraph.merge_nodes(i, j)`: adds the merged node under the fresh
identifier `max(nodes) + 1`, walks a snapshot of the edge list
reconnecting edges incident to `i` or `j`, then removes the two old
nodes (and with them their remaining incident edges). -/
def HariGraph.merge_nodes (g : HariGraph) (i j : ℤ) : HariGraph :=
  let new_node := g.maxNodeId + 1
  let g1 := g.add_node new_node (mergedNodeData g i j)
  let g2 := g1.edgesInOrder.foldl (mergeStep i j new_node) g1
  (g2.remove_node i).remove_node j

/-- Combination of the re-homed `i`-edge and `j`-edge towards one common
neighbour: absent if neither exists, otherwise the sum of the weights
that exist. -/
def combine (x y : Option ℚ) : Option ℚ :=
  match x, y with
  | none, none => none
  | _, _ => some (x.getD 0 + y.getD 0)

/-- Value of the original edge `x → y` of `g` unless that edge still
waits in the to-do list of the reconnection loop. -/
def procVal (g : HariGraph) (tk : List (ℤ × ℤ)) (x y : ℤ) : Option ℚ :=
  if (x, y) ∈ tk then none else g.edgeValue x y

/-- Invariant shape of the edge lookup table while the reconnection loop
of `merge_nodes` runs: `tk` lists the ordered pairs not yet processed. -/
def cval (g : HariGraph) (i j n : ℤ) (tk : List (ℤ × ℤ)) (a b : ℤ) : Option ℚ :=
  if a = i ∨ a = j ∨ b = i ∨ b = j then
    (if (a, b) ∈ tk then g.edgeValue a b else none)
  else if a = n then combine (procVal g tk i b) (procVal g tk j b)
  else if b = n then combine (procVal g tk a i) (procVal g tk a j)
  else g.edgeValue a b

/-- Lookup in a plain integer association list (`id_mapping` of
`merge_clusters` is a Python dict). -/
def assocLookup : List (ℤ × ℤ) → ℤ → Option ℤ
  | [], _ => none
  | p :: ps, k => if p.1 = k then some p.2 else assocLookup ps k

/-- Dict assignment on an integer association list: overwrite in place
or append. -/
def assocSet : List (ℤ × ℤ) → ℤ → ℤ → List (ℤ × ℤ)
  | [], k, v => [(k, v)]
  | p :: ps, k, v => if p.1 = k then (k, v) :: ps else p :: assocSet ps k v

/-- Errors raised by `merge_clusters` and `merge_by_intervals`.
`assertionError` is the failed `assert` of the list-partition
validation; `keyError` a missing-node lookup; `stopIteration` the
`next(iter(...))` of an empty cluster; `valueError` the argument checks
of `merge_by_intervals`. -/
inductive MergeError
  | assertionError
  | keyError
  | stopIteration
  | valueError
deriving DecidableEq, Repr

/-- Partition argument of `merge_clusters`: either a list of clusters
(Python: list of sets, each written here in the iteration order of the
set) or a mapping from new node id to the cluster of old ids (Python:
dict, in insertion order). -/
inductive ClustersArg
  | clist (cs : List (List ℤ))
  | cdict (m : List (ℤ × List ℤ))
deriving DecidableEq, Repr

/-- Dict branch of `merge_clusters`: build `id_mapping` by assigning
`id_mapping[old_id] = new_id` over all entries (no validation; a
duplicated old id silently keeps its last assignment). -/
def dictIdMapping (m : List (ℤ × List ℤ)) : List (ℤ × ℤ) :=
  m.foldl (fun acc p => p.2.foldl (fun acc2 old => assocSet acc2 old p.1) acc) []

/-- Dict branch: rebuild `clusters_list` from `id_mapping`, one cluster
per distinct new id (Python iterates a set of the dict values; the
deterministic order chosen here is irrelevant to the properties
proved, which are stated at concrete inputs or order-independent). -/
def dictClustersList (im : List (ℤ × ℤ)) : List (List ℤ) :=
  ((im.map Prod.snd).dedup).map
    (fun nid => (im.filter (fun p => decide (p.2 = nid))).map Prod.fst)

/-- One cluster of the list-branch validation loop: each node id must be
in the graph and not yet assigned (`assert`), then is mapped to the new
id. -/
def clusterAssign (g : HariGraph) : List ℤ → ℤ → List (ℤ × ℤ) → Except Unit (List (ℤ × ℤ))
  | [], _, acc => .ok acc
  | x :: xs, nid, acc =>
      if x ∈ g.nodeIds ∧ assocLookup acc x = none then
        clusterAssign g xs nid (assocSet acc x nid)
      else .error ()

/-- List branch of `merge_clusters`: enumerate the clusters, giving
cluster `t` the new id `start + t`, validating while building
`id_mapping`.  This loop runs in full before any graph mutation. -/
def listIdMapping (g : HariGraph) : List (List ℤ) → ℤ → List (ℤ × ℤ) →
    Except Unit (List (ℤ × ℤ))
  | [], _, acc => .ok acc
  | c :: cs, nid, acc =>
      match clusterAssign g c nid acc with
      | .error e => .error e
      | .ok acc2 => listIdMapping g cs (nid + 1) acc2

/-- Accumulator of the per-cluster aggregation loop of
`merge_clusters`.  `min_v`/`max_v` start at `float('inf')` and
`float('-inf')` in Python; they are `none` here until the first
constituent is read, which is equivalent for the nonempty clusters that
reach the node creation. -/
structure ClusterAcc where
  labels : List ℤ
  importance : ℚ
  total_value : ℚ
  total_weight : ℚ
  min_v : Option ℚ
  max_v : Option ℚ
deriving DecidableEq, Repr

/-- `min(min_value, node.get('min_value', value))` with the `inf` seed
modelled by `Option`. -/
def minAcc (acc : Option ℚ) (x : ℚ) : ℚ :=
  match acc with
  | none => x
  | some m => min m x

/-- `max(max_value, node.get('max_value', value))` with the `-inf` seed
modelled by `Option`. -/
def maxAcc (acc : Option ℚ) (x : ℚ) : ℚ :=
  match acc with
  | none => x
  | some m => max m x

/-- The constituent loop of one cluster: collects labels, importance,
weighted value sum, weight sum and value bounds, reading each node from
the current graph (`KeyError` if absent). -/
def aggregateCluster (h : HariGraph) : List ℤ → ClusterAcc → Except Unit ClusterAcc
  | [], acc => .ok acc
  | x :: xs, acc =>
      match h.getNode x with
      | none => .error ()
      | some ndx =>
          aggregateCluster h xs
            { labels := acc.labels ++ labelD x ndx,
              importance := acc.importance + ndx.importance.getD 0,
              total_value := acc.total_value + ndx.value * ((labelD x ndx).length : ℚ),
              total_weight := acc.total_weight + ((labelD x ndx).length : ℚ),
              min_v := some (minAcc acc.min_v (minValueD ndx)),
              max_v := some (maxAcc acc.max_v (maxValueD ndx)) }

/-- Node creation loop of `merge_clusters`: for each cluster, look up
its new id at the head of the cluster (`StopIteration` on an empty
cluster, `KeyError` on an unmapped head), aggregate the constituents,
then `add_node` the combined record.  An error mid-loop leaves the
already-created nodes in place (the carried graph). -/
def createClusterNodes (im : List (ℤ × ℤ)) :
    HariGraph → List (List ℤ) → Except (MergeError × HariGraph) HariGraph
  | h, [] => .ok h
  | h, c :: cs =>
      match c with
      | [] => .error (.stopIteration, h)
      | c0 :: _ =>
          match assocLookup im c0 with
          | none => .error (.keyError, h)
          | some new_id =>
              match aggregateCluster h c ⟨[], 0, 0, 0, none, none⟩ with
              | .error _ => .error (.keyError, h)
              | .ok acc =>
                  createClusterNodes im
                    (h.add_node new_id
                      ⟨if acc.total_weight > 0 then acc.total_value / acc.total_weight else 0,
                        some acc.labels, some (acc.min_v.getD 0), some (acc.max_v.getD 0),
                        some acc.importance⟩) cs

/-- Edge reassignment loop of `merge_clusters`: for every `(old, new)`
item of `id_mapping` in insertion order, re-home the outgoing then the
incoming edges of `old` through the mapping (plain `add_edge`, so a
repeated target pair is overwritten, not summed), skipping pairs that
would become self-loops, then remove the old node. -/
def reassignEdges : HariGraph → List (ℤ × ℤ) → List (ℤ × ℤ) → HariGraph
  | h, _, [] => h
  | h, im, (old, nid) :: rest =>
      let h1 := (h.successors old).foldl (fun hh s =>
        if (assocLookup im s).getD s ≠ nid then
          hh.add_edge nid ((assocLookup im s).getD s) ((hh.edgeValue old s).getD 0)
        else hh) h
      let h2 := (h1.predecessors old).foldl (fun hh p =>
        if (assocLookup im p).getD p ≠ nid then
          hh.add_edge ((assocLookup im p).getD p) nid ((hh.edgeValue p old).getD 0)
        else hh) h1
      reassignEdges (h2.remove_node old) im rest

/-- `HariGraph.merge_clusters(clusters)`.  The error value carries the
graph state at the moment the Python exception would be raised. -/
def HariGraph.merge_clusters (g : HariGraph) (clusters : ClustersArg) :
    Except (MergeError × HariGraph) HariGraph :=
  match clusters with
  | .cdict m =>
      let im := dictIdMapping m
      match createClusterNodes im g (dictClustersList im) with
      | .error e => .error e
      | .ok h => .ok (reassignEdges h im im)
  | .clist cs =>
      match listIdMapping g cs (g.maxNodeId + 1) [] with
      | .error _ => .error (.assertionError, g)
      | .ok im =>
          match createClusterNodes im g cs with
          | .error e => .error e
          | .ok h => .ok (reassignEdges h im im)

/-- `HariGraph.merge_by_intervals(intervals)`: validate the breakpoints,
sort them, bucket every node by which half-open interval `[lower,
upper)` its value falls into, drop empty buckets, and delegate to
`merge_clusters` when any bucket is nonempty. -/
def HariGraph.merge_by_intervals (g : HariGraph) (intervals : List ℚ) :
    Except (MergeError × HariGraph) HariGraph :=
  if ¬ (∀ v ∈ intervals, 0 ≤ v ∧ v ≤ 1) then .error (.valueError, g)
  else if intervals = [] then .error (.valueError, g)
  else
    let sorted := intervals.insertionSort (· ≤ ·)
    let bounds := 0 :: (sorted ++ [1])
    let clusters := (bounds.zip bounds.tail).map (fun lu =>
      (g.nodes.filter (fun p => decide (lu.1 ≤ p.2.value ∧ p.2.value < lu.2))).map Prod.fst)
    let clusters2 := clusters.filter (fun c => decide (c ≠ []))
    if clusters2 ≠ [] then g.merge_clusters (.clist clusters2) else .ok g

/-- `combinations(self.nodes, 2)`: unordered pairs in the stable node
enumeration order. -/
def combinationsPairs : List ℤ → List (ℤ × ℤ)
  | [] => []
  | x :: xs => xs.map (fun y => (x, y)) ++ combinationsPairs xs

/-- `HariGraph.simplify_graph_one_iteration()`: initialize labels if the
first node lacks one, stop if at most one node remains, otherwise scan
all unordered pairs tracking the strictly greatest similarity starting
from `-1`, and merge the tracked pair if one was recorded.  `none`
models the `StopIteration` the Python code raises on an empty graph. -/
def HariGraph.simplify_graph_one_iteration (g : HariGraph) : Option HariGraph :=
  match g.nodes with
  | [] => none
  | p0 :: _ =>
      let g0 := if p0.2.label.isSome then g
        else { g with nodes := g.nodes.map (fun p => (p.1, { p.2 with label := some [p.1] })) }
      if g0.nodes.length ≤ 1 then some g0
      else
        let best := (combinationsPairs g0.nodeIds).foldl
          (fun acc pr =>
            if compute_similarity g0 pr.1 pr.2 > acc.1 then
              (compute_similarity g0 pr.1 pr.2, some pr)
            else acc)
          ((-1 : ℚ), (none : Option (ℤ × ℤ)))
        match best.2 with
        | some pr => some (g0.merge_nodes pr.1 pr.2)
        | none => some g0

/-- A list partition is valid for the graph when every referenced node
id exists and no id is referenced twice (this is what the `assert` of
the list branch enforces). -/
def ListPartitionValid (g : HariGraph) (cs : List (List ℤ)) : Prop :=
  (∀ c ∈ cs, ∀ x ∈ c, x ∈ g.nodeIds) ∧ cs.flatten.Nodup

instance (g : HariGraph) (cs : List (List ℤ)) : Decidable (ListPartitionValid g cs) := by
  unfold ListPartitionValid; infer_instance

/-- No edge of the graph is a self-loop. -/
def NoSelfLoops (g : HariGraph) : Prop := ∀ e ∈ g.edges, e.1 ≠ e.2.1

instance (g : HariGraph) : Decidable (NoSelfLoops g) := by
  unfold NoSelfLoops; infer_instance

/-- Pointwise node well-formedness used by the invariant claims: the
value sits between the stored (or defaulted) bounds, and the
(defaulted) label is nonempty. -/
def GoodNode (k : ℤ) (nd : NodeData) : Prop :=
  (minValueD nd ≤ nd.value ∧ nd.value ≤ maxValueD nd) ∧ labelD k nd ≠ []

instance (k : ℤ) (nd : NodeData) : Decidable (GoodNode k nd) := by
  unfold GoodNode; infer_instance

/-- Every node of the graph is well-formed in the sense of `GoodNode`. -/
def NodesOK (g : HariGraph) : Prop := ∀ p ∈ g.nodes, GoodNode p.1 p.2

instance (g : HariGraph) : Decidable (NodesOK g) := by
  unfold NodesOK; infer_instance

/-- `minValue <= value <= maxValue` for every node (the bound of claim
C7, the value-bounds half of `NodesOK`). -/
def BoundsOK (g : HariGraph) : Prop :=
  ∀ p ∈ g.nodes, minValueD p.2 ≤ p.2.value ∧ p.2.value ≤ maxValueD p.2

instance (g : HariGraph) : Decidable (BoundsOK g) := by
  unfold BoundsOK; infer_instance

/-- Multiset of all original identifiers over all current labels. -/
def labelMS (g : HariGraph) : Multiset ℤ :=
  (g.nodes.map (fun p => ((labelD p.1 p.2 : List ℤ) : Multiset ℤ))).sum

/-- One merge operation of the coarsening engine, as a relation between
the graph before and after: either a pairwise `merge_nodes` on two
distinct present nodes, or a `merge_clusters` call that returns
normally. -/
inductive MergeOp : HariGraph → HariGraph → Prop
  | pair (g : HariGraph) (i j : ℤ) (hi : i ∈ g.nodeIds) (hj : j ∈ g.nodeIds)
      (hij : i ≠ j) : MergeOp g (g.merge_nodes i j)
  | clusters (g g' : HariGraph) (cs : ClustersArg)
      (hok : g.merge_clusters cs = .ok g') : MergeOp g g'

/-- One label-conservative merge operation on a well-formed graph:
either a pairwise `merge_nodes` of two distinct present nodes, or a
normally-returning list-form `merge_clusters` (the dict form is
excluded — it can overwrite an existing untouched node and lose its
label, see the counterexample to claim C6). -/
inductive LabelOp : HariGraph → HariGraph → Prop
  | pair (g : HariGraph) (i j : ℤ)
      (hnkeys : (g.nodes.map Prod.fst).Nodup)
      (hekeys : (g.edges.map fun e => (e.1, e.2.1)).Nodup)
      (hclosed : EdgesClosed g)
      (hi : i ∈ g.nodeIds) (hj : j ∈ g.nodeIds) (hij : i ≠ j) :
      LabelOp g (g.merge_nodes i j)
  | clusters (g g' : HariGraph) (cs : List (List ℤ))
      (hnkeys : (g.nodes.map Prod.fst).Nodup)
      (hclosed : EdgesClosed g)
      (hok : g.merge_clusters (.clist cs) = .ok g') : LabelOp g g'

/-- The `id_mapping` the list branch of `merge_clusters` builds on a
valid partition: cluster number `t` (zero-based) maps each of its
members to the new id `nid + t`. -/
def clustersMap (cs : List (List ℤ)) (nid : ℤ) : List (ℤ × ℤ) :=
  match cs with
  | [] => []
  | c :: cs2 => c.map (fun x => (x, nid)) ++ clustersMap cs2 (nid + 1)

/-- Multiset of the labels a cluster contributes, read on the graph
`g`. -/
def clusterLabelsG (g : HariGraph) (c : List ℤ) : Multiset ℤ :=
  (c.map (fun x => ((labelD x ((g.getNode x).getD autoNode) : List ℤ) : Multiset ℤ))).sum

/-- Invariant of the per-cluster aggregation accumulator on a graph of
well-formed nodes: before the first constituent everything is zero;
afterwards the weight is at least `1`, the label list is nonempty, and
the weighted value total sits between the tracked bounds scaled by the
total weight. -/
def AccInv (acc : ClusterAcc) : Prop :=
  match acc.min_v, acc.max_v with
  | none, none => acc.total_weight = 0 ∧ acc.total_value = 0 ∧ acc.labels = []
  | some m, some M => (1 ≤ acc.total_weight ∧ acc.labels ≠ [])
      ∧ m * acc.total_weight ≤ acc.total_value
      ∧ acc.total_value ≤ M * acc.total_weight
  | _, _ => False

/-- Two-node example graph for the dynamics step: node `0` (A) has value
`0.5`, node `1` (B) has value `1`, and the single edge `1 → 0` carries
weight `0.3`. -/
def dynamicsExample : HariGraph :=
  { nodes := [(0, ⟨1/2, some [0], none, none, none⟩), (1, ⟨1, some [1], none, none, none⟩)],
    edges := [(1, 0, 3/10)] }

/-- The example of the specification for `merge_nodes`: nodes `{0: 0.2,
1: 0.8}` and the edge `0 → 1` of weight `0.5`. -/
def mergeExample : HariGraph :=
  { nodes := [(0, ⟨1/5, some [0], none, none, none⟩), (1, ⟨4/5, some [1], none, none, none⟩)],
    edges := [(0, 1, 1/2)] }

/-- Both merged nodes point at (and are pointed at by) the same third
node, so the re-homed edges must sum: `0 → 2` (1), `1 → 2` (2),
`2 → 0` (5), `2 → 1` (7). -/
def overlapExample : HariGraph :=
  { nodes := [(0, ⟨0, some [0], none, none, none⟩), (1, ⟨1, some [1], none, none, none⟩),
      (2, ⟨1, some [2], none, none, none⟩)],
    edges := [(0, 2, 1), (1, 2, 2), (2, 0, 5), (2, 1, 7)] }

/-- A graph with a pre-existing self-loop `2 → 2` on a node that no
merge touches. -/
def selfLoopExample : HariGraph :=
  { nodes := [(0, ⟨0, some [0], none, none, none⟩), (1, ⟨1, some [1], none, none, none⟩),
      (2, ⟨1, some [2], none, none, none⟩)],
    edges := [(2, 2, 1)] }

/-- Two nodes, each with an edge to the external node `2`, to be merged
as one batch cluster: `merge_clusters` re-homes both edges onto the new
node through plain `add_edge`. -/
def overwriteExample : HariGraph :=
  { nodes := [(0, ⟨0, some [0], none, none, none⟩), (1, ⟨1, some [1], none, none, none⟩),
      (2, ⟨1, some [2], none, none, none⟩)],
    edges := [(0, 2, 1), (1, 2, 2)] }

/-- Two isolated nodes used for the partition-validation
counterexample. -/
def twoNodeExample : HariGraph :=
  { nodes := [(0, ⟨0, some [0], none, none, none⟩), (1, ⟨1, some [1], none, none, none⟩)],
    edges := [] }

/-- Three labelled nodes; the dict-form batch merge `{2: {0, 1}}`
overwrites the untouched node `2`, losing its label. -/
def dictCollisionExample : HariGraph :=
  { nodes := [(0, ⟨0, some [0], none, none, none⟩), (1, ⟨1, some [1], none, none, none⟩),
      (2, ⟨1, some [2], none, none, none⟩)],
    edges := [] }

/-- The empty graph: `simplify_graph_one_iteration` raises
`StopIteration` on it (`next(iter(self.nodes))` on no nodes). -/
def emptyGraphExample : HariGraph :=
  { nodes := [], edges := [] }

/-- A single node, for the `add_edge` auto-creation counterexample. -/
def singleNodeExample : HariGraph :=
  { nodes := [(0, ⟨0, some [0], none, none, none⟩)], edges := [] }

/-- Graph with well-formed bounds used to witness the invariant
preservation claims across a sequence of merges. -/
def boundsExample : HariGraph :=
  { nodes := [(0, ⟨1/4, some [0], some (1/4), some (1/4), none⟩),
      (1, ⟨3/4, some [1], some (1/2), some 1, none⟩),
      (2, ⟨1/2, some [2], none, none, none⟩)],
    edges := [(0, 1, 1), (1, 2, 2)] }

/-- Generic preservation of a predicate along a left fold, used for the
loop bodies of the merge operations. -/
theorem foldl_preserve {α β : Type} (P : α → Prop) (f : α → β → α) (l : List β) (init : α)
    (hstep : ∀ a b, b ∈ l → P a → P (f a b)) (h0 : P init) : P (l.foldl f init) := by
  induction l generalizing init with
  | nil => exact h0
  | cons b bs ih =>
      exact ih _ (fun a c hc ha => hstep a c (List.mem_cons_of_mem _ hc) ha)
        (hstep init b (List.mem_cons_self _ _) h0)

/-- A left fold that only accumulates additions equals the initial value
plus the sum of the mapped list. -/
theorem foldl_add_eq {β : Type} (h : β → ℚ) (l : List β) (init : ℚ) :
    l.foldl (fun a x => a + h x) init = init + (l.map h).sum := by
  induction l generalizing init with
  | nil => simp
  | cons b bs ih => simp [ih]; ring

/-- On an edge list without duplicate ordered pairs, looking an edge up
by its own endpoints returns its weight. -/
theorem lookupEdge_of_mem (l : List Edge)
    (hnd : (l.map fun e => (e.1, e.2.1)).Nodup) (e : Edge) (he : e ∈ l) :
    lookupEdge l e.1 e.2.1 = some e.2.2 := by
  induction l with
  | nil => cases he
  | cons a as ih =>
      rcases List.mem_cons.mp he with rfl | hmem
      · simp [lookupEdge]
      · by_cases hkey : a.1 = e.1 ∧ a.2.1 = e.2.1
        · exfalso
          have hm : (e.1, e.2.1) ∈ as.map fun x => (x.1, x.2.1) :=
            List.mem_map.mpr ⟨e, hmem, rfl⟩
          simp only [List.map_cons, List.nodup_cons] at hnd
          exact hnd.1 (by rw [hkey.1, hkey.2]; exact hm)
        · simp only [lookupEdge, if_neg hkey]
          exact ih (by simp only [List.map_cons, List.nodup_cons] at hnd; exact hnd.2) hmem

/-- Node lookup commutes with a key-preserving map over the node list. -/
theorem lookupNode_map_keyed (l : List (ℤ × NodeData)) (f : ℤ → NodeData → NodeData) (i : ℤ) :
    lookupNode (l.map fun p => (p.1, f p.1 p.2)) i = (lookupNode l i).map (f i) := by
  induction l with
  | nil => rfl
  | cons p ps ih =>
      by_cases hp : p.1 = i
      · subst hp; simp [lookupNode]
      · simp [lookupNode, hp, ih]

/-- A node lookup succeeds exactly for the keys present in the list. -/
theorem lookupNode_isSome_iff (l : List (ℤ × NodeData)) (k : ℤ) :
    (lookupNode l k).isSome = true ↔ k ∈ l.map Prod.fst := by
  induction l with
  | nil => simp [lookupNode]
  | cons p ps ih =>
      by_cases hp : p.1 = k
      · simp [lookupNode, hp]
      · simp only [lookupNode, if_neg hp, List.map_cons, List.mem_cons, ih]
        constructor
        · exact Or.inr
        · rintro (h | h)
          · exact absurd h.symm hp
          · exact h

/-- A node lookup fails exactly for absent keys. -/
theorem lookupNode_eq_none_iff (l : List (ℤ × NodeData)) (k : ℤ) :
    lookupNode l k = none ↔ k ∉ l.map Prod.fst := by
  rw [← lookupNode_isSome_iff]
  cases lookupNode l k <;> simp

/-- Writing an absent key appends the record at the end. -/
theorem setNode_not_mem (l : List (ℤ × NodeData)) (k : ℤ) (nd : NodeData)
    (hk : k ∉ l.map Prod.fst) : setNode l k nd = l ++ [(k, nd)] := by
  induction l with
  | nil => rfl
  | cons p ps ih =>
      have hp : p.1 ≠ k := by
        intro hcon
        exact hk (by simp [hcon])
      simp only [setNode, if_neg hp, List.cons_append, List.cons.injEq, true_and]
      exact ih (fun hmem => hk (by simp [hmem]))

/-- Skipping a non-matching head edge leaves a lookup unchanged. -/
theorem lookupEdge_cons_ne (e : Edge) (es : List Edge) (a b : ℤ)
    (h : ¬ (e.1 = a ∧ e.2.1 = b)) :
    lookupEdge (e :: es) a b = lookupEdge es a b := by
  simp only [lookupEdge, if_neg h]

/-- A matching head edge is what a lookup returns. -/
theorem lookupEdge_cons_eq (e : Edge) (es : List Edge) (a b : ℤ)
    (h : e.1 = a ∧ e.2.1 = b) :
    lookupEdge (e :: es) a b = some e.2.2 := by
  simp only [lookupEdge, if_pos h]

/-- Effect of overwriting one edge weight on arbitrary lookups. -/
theorem lookupEdge_setEdge (l : List Edge) (u v : ℤ) (w : ℚ) (a b : ℤ) :
    lookupEdge (setEdge l u v w) a b
      = if a = u ∧ b = v then some w else lookupEdge l a b := by
  induction l with
  | nil =>
      simp only [setEdge, lookupEdge]
      by_cases hab : a = u ∧ b = v
      · rw [if_pos ⟨hab.1.symm, hab.2.symm⟩, if_pos hab]
      · rw [if_neg (fun h => hab ⟨h.1.symm, h.2.symm⟩), if_neg hab]
  | cons e es ih =>
      by_cases hkey : e.1 = u ∧ e.2.1 = v
      · rw [show setEdge (e :: es) u v w = (u, v, w) :: es from by
          simp only [setEdge, if_pos hkey]]
        by_cases hab : a = u ∧ b = v
        · rw [lookupEdge_cons_eq _ es a b ⟨hab.1.symm, hab.2.symm⟩, if_pos hab]
        · rw [lookupEdge_cons_ne _ es a b (fun h => hab ⟨h.1.symm, h.2.symm⟩), if_neg hab,
            lookupEdge_cons_ne e es a b
              (fun h => hab ⟨by rw [← h.1]; exact hkey.1, by rw [← h.2]; exact hkey.2⟩)]
      · rw [show setEdge (e :: es) u v w = e :: setEdge es u v w from by
          simp only [setEdge, if_neg hkey]]
        by_cases hmatch : e.1 = a ∧ e.2.1 = b
        · rw [lookupEdge_cons_eq _ _ a b hmatch,
            if_neg (fun h => hkey ⟨by rw [hmatch.1]; exact h.1, by rw [hmatch.2]; exact h.2⟩),
            lookupEdge_cons_eq e es a b hmatch]
        · rw [lookupEdge_cons_ne _ _ a b hmatch, ih, lookupEdge_cons_ne e es a b hmatch]

/-- Effect of appending a fresh edge on arbitrary lookups. -/
theorem lookupEdge_append (l : List Edge) (u v : ℤ) (w : ℚ) (a b : ℤ)
    (hnone : lookupEdge l u v = none) :
    lookupEdge (l ++ [(u, v, w)]) a b
      = if a = u ∧ b = v then some w else lookupEdge l a b := by
  induction l with
  | nil =>
      simp only [List.nil_append, lookupEdge]
      by_cases hab : a = u ∧ b = v
      · rw [if_pos ⟨hab.1.symm, hab.2.symm⟩, if_pos hab]
      · rw [if_neg (fun h => hab ⟨h.1.symm, h.2.symm⟩), if_neg hab]
  | cons e es ih =>
      have hhead : ¬ (e.1 = u ∧ e.2.1 = v) := by
        intro hcon
        rw [lookupEdge_cons_eq e es u v hcon] at hnone
        cases hnone
      have htail : lookupEdge es u v = none := by
        rw [lookupEdge_cons_ne e es u v hhead] at hnone
        exact hnone
      rw [show (e :: es) ++ [(u, v, w)] = e :: (es ++ [(u, v, w)]) from rfl]
      by_cases hmatch : e.1 = a ∧ e.2.1 = b
      · have hab : ¬ (a = u ∧ b = v) := by
          intro hcon
          exact hhead ⟨by rw [hmatch.1, hcon.1], by rw [hmatch.2, hcon.2]⟩
        rw [lookupEdge_cons_eq _ _ a b hmatch, if_neg hab,
          lookupEdge_cons_eq e es a b hmatch]
      · rw [lookupEdge_cons_ne _ _ a b hmatch, ih htail,
          lookupEdge_cons_ne e es a b hmatch]

/-- Effect of removing one edge key on arbitrary lookups. -/
theorem lookupEdge_filter_pair (l : List Edge) (u v a b : ℤ) :
    lookupEdge (l.filter (fun e => decide (¬ (e.1 = u ∧ e.2.1 = v)))) a b
      = if a = u ∧ b = v then none else lookupEdge l a b := by
  induction l with
  | nil =>
      simp only [List.filter_nil, lookupEdge]
      by_cases hab : a = u ∧ b = v
      · rw [if_pos hab]
      · rw [if_neg hab]
  | cons e es ih =>
      by_cases hkey : e.1 = u ∧ e.2.1 = v
      · rw [List.filter_cons_of_neg (by simp only [decide_eq_true_eq, not_not]; exact hkey), ih]
        by_cases hab : a = u ∧ b = v
        · rw [if_pos hab, if_pos hab]
        · rw [if_neg hab, if_neg hab,
            lookupEdge_cons_ne e es a b
              (fun h => hab ⟨by rw [← h.1]; exact hkey.1, by rw [← h.2]; exact hkey.2⟩)]
      · rw [List.filter_cons_of_pos (by simp only [decide_eq_true_eq]; exact hkey)]
        by_cases hmatch : e.1 = a ∧ e.2.1 = b
        · rw [lookupEdge_cons_eq _ _ a b hmatch,
            if_neg (fun h => hkey ⟨by rw [hmatch.1]; exact h.1, by rw [hmatch.2]; exact h.2⟩),
            lookupEdge_cons_eq e es a b hmatch]
        · rw [lookupEdge_cons_ne _ _ a b hmatch, ih, lookupEdge_cons_ne e es a b hmatch]

/-- Effect of removing all edges incident to a node on lookups. -/
theorem lookupEdge_filter_node (l : List Edge) (x a b : ℤ) :
    lookupEdge (l.filter (fun e => decide (e.1 ≠ x ∧ e.2.1 ≠ x))) a b
      = if a = x ∨ b = x then none else lookupEdge l a b := by
  induction l with
  | nil =>
      simp only [List.filter_nil, lookupEdge]
      by_cases hab : a = x ∨ b = x
      · rw [if_pos hab]
      · rw [if_neg hab]
  | cons e es ih =>
      by_cases hkey : e.1 ≠ x ∧ e.2.1 ≠ x
      · rw [List.filter_cons_of_pos (by simp only [decide_eq_true_eq]; exact hkey)]
        by_cases hmatch : e.1 = a ∧ e.2.1 = b
        · have hax : ¬ (a = x ∨ b = x) := by
            rintro (rfl | rfl)
            · exact hkey.1 hmatch.1
            · exact hkey.2 hmatch.2
          rw [lookupEdge_cons_eq _ _ a b hmatch, if_neg hax,
            lookupEdge_cons_eq e es a b hmatch]
        · rw [lookupEdge_cons_ne _ _ a b hmatch, ih]
          by_cases hab : a = x ∨ b = x
          · rw [if_pos hab, if_pos hab]
          · rw [if_neg hab, if_neg hab, lookupEdge_cons_ne e es a b hmatch]
      · rw [List.filter_cons_of_neg (by simp only [decide_eq_true_eq]; exact hkey), ih]
        by_cases hab : a = x ∨ b = x
        · rw [if_pos hab, if_pos hab]
        · rw [if_neg hab, if_neg hab]
          have hmatch : ¬ (e.1 = a ∧ e.2.1 = b) := by
            intro hm
            rcases not_and_or.mp hkey with h | h
            · exact hab (Or.inl (by rw [← hm.1]; exact not_not.mp h))
            · exact hab (Or.inr (by rw [← hm.2]; exact not_not.mp h))
          rw [lookupEdge_cons_ne e es a b hmatch]

/-- `add_edge` lookup characterization (unconditional, including the
overwrite of an existing edge). -/
theorem add_edge_edgeValue (g : HariGraph) (u v : ℤ) (w : ℚ) (a b : ℤ) :
    (g.add_edge u v w).edgeValue a b
      = if a = u ∧ b = v then some w else g.edgeValue a b := by
  unfold HariGraph.add_edge HariGraph.edgeValue
  by_cases huv : (lookupEdge g.edges u v).isSome = true
  · simp only [huv, if_true]
    exact lookupEdge_setEdge g.edges u v w a b
  · simp only [huv, if_false]
    exact lookupEdge_append g.edges u v w a b
      (Option.not_isSome_iff_eq_none.mp (by simpa using huv))

/-- `add_edge` does not change the node list when both endpoints are
already present. -/
theorem add_edge_nodes_of_present (g : HariGraph) (u v : ℤ) (w : ℚ)
    (hu : u ∈ g.nodeIds) (hv : v ∈ g.nodeIds) :
    (g.add_edge u v w).nodes = g.nodes := by
  unfold HariGraph.add_edge
  have h1 : (lookupNode g.nodes u).isSome = true :=
    (lookupNode_isSome_iff g.nodes u).mpr hu
  have h2 : (lookupNode g.nodes v).isSome = true :=
    (lookupNode_isSome_iff g.nodes v).mpr hv
  simp only [h1, if_true, h2]

/-- `updateEdge` lookup characterization. -/
theorem updateEdge_edgeValue (g : HariGraph) (u v : ℤ) (w : ℚ) (a b : ℤ) :
    (g.updateEdge u v w).edgeValue a b
      = if a = u ∧ b = v then some w else g.edgeValue a b :=
  lookupEdge_setEdge g.edges u v w a b

/-- `remove_edge` lookup characterization. -/
theorem remove_edge_edgeValue (g : HariGraph) (u v : ℤ) (a b : ℤ) :
    (g.remove_edge u v).edgeValue a b
      = if a = u ∧ b = v then none else g.edgeValue a b :=
  lookupEdge_filter_pair g.edges u v a b

/-- `remove_node` lookup characterization on edges. -/
theorem remove_node_edgeValue (g : HariGraph) (x a b : ℤ) :
    (g.remove_node x).edgeValue a b
      = if a = x ∨ b = x then none else g.edgeValue a b :=
  lookupEdge_filter_node g.edges x a b

/-- The initial element and every member bound a `foldl max`. -/
theorem le_foldl_max (l : List ℤ) (a : ℤ) :
    a ≤ l.foldl max a ∧ ∀ x ∈ l, x ≤ l.foldl max a := by
  induction l generalizing a with
  | nil => exact ⟨le_refl a, by simp⟩
  | cons b bs ih =>
      refine ⟨le_trans (le_max_left a b) (ih (max a b)).1, ?_⟩
      intro x hx
      rcases List.mem_cons.mp hx with rfl | hmem
      · exact le_trans (le_max_right a x) (ih (max a x)).1
      · exact (ih (max a b)).2 x hmem

/-- Every node identifier is bounded by `max(self.nodes)`. -/
theorem mem_le_maxNodeId (g : HariGraph) (k : ℤ) (hk : k ∈ g.nodeIds) :
    k ≤ g.maxNodeId := by
  unfold HariGraph.maxNodeId
  unfold HariGraph.nodeIds at hk
  cases hg : g.nodes with
  | nil => rw [hg] at hk; cases hk
  | cons p ps =>
      rw [hg] at hk
      simp only [List.map_cons, List.mem_cons] at hk
      rcases hk with hk1 | hmem
      · rw [hk1]; exact (le_foldl_max (ps.map Prod.fst) p.1).1
      · exact (le_foldl_max (ps.map Prod.fst) p.1).2 k hmem

theorem procVal_mem (g : HariGraph) (tk : List (ℤ × ℤ)) (x y : ℤ)
    (h : (x, y) ∈ tk) : procVal g tk x y = none := by
  unfold procVal; rw [if_pos h]

theorem procVal_not_mem (g : HariGraph) (tk : List (ℤ × ℤ)) (x y : ℤ)
    (h : (x, y) ∉ tk) : procVal g tk x y = g.edgeValue x y := by
  unfold procVal; rw [if_neg h]

theorem procVal_cons_ne (g : HariGraph) (u v : ℤ) (rest : List (ℤ × ℤ)) (x y : ℤ)
    (hne : ¬ (x = u ∧ y = v)) :
    procVal g ((u, v) :: rest) x y = procVal g rest x y := by
  unfold procVal
  by_cases hm : (x, y) ∈ rest
  · rw [if_pos (List.mem_cons_of_mem _ hm), if_pos hm]
  · rw [if_neg ?_, if_neg hm]
    intro hc
    rcases List.mem_cons.mp hc with hc1 | hc2
    · exact hne ⟨congrArg Prod.fst hc1, congrArg Prod.snd hc1⟩
    · exact hm hc2

theorem cval_incident (g : HariGraph) (i j n : ℤ) (tk : List (ℤ × ℤ)) (a b : ℤ)
    (hcond : a = i ∨ a = j ∨ b = i ∨ b = j) :
    cval g i j n tk a b = if (a, b) ∈ tk then g.edgeValue a b else none := by
  unfold cval; rw [if_pos hcond]

theorem cval_src_n (g : HariGraph) (i j n : ℤ) (tk : List (ℤ × ℤ)) (a b : ℤ)
    (hcond : ¬ (a = i ∨ a = j ∨ b = i ∨ b = j)) (han : a = n) :
    cval g i j n tk a b = combine (procVal g tk i b) (procVal g tk j b) := by
  unfold cval; rw [if_neg hcond, if_pos han]

theorem cval_tgt_n (g : HariGraph) (i j n : ℤ) (tk : List (ℤ × ℤ)) (a b : ℤ)
    (hcond : ¬ (a = i ∨ a = j ∨ b = i ∨ b = j)) (han : ¬ a = n) (hbn : b = n) :
    cval g i j n tk a b = combine (procVal g tk a i) (procVal g tk a j) := by
  unfold cval; rw [if_neg hcond, if_neg han, if_pos hbn]

theorem cval_far (g : HariGraph) (i j n : ℤ) (tk : List (ℤ × ℤ)) (a b : ℤ)
    (hcond : ¬ (a = i ∨ a = j ∨ b = i ∨ b = j)) (han : ¬ a = n) (hbn : ¬ b = n) :
    cval g i j n tk a b = g.edgeValue a b := by
  unfold cval; rw [if_neg hcond, if_neg han, if_neg hbn]

/-- Discharging one to-do key that none of the relevant lookups of the
pair `(a, b)` mentions leaves the invariant table unchanged. -/
theorem cval_cons_irrelevant (g : HariGraph) (i j n u v : ℤ) (rest : List (ℤ × ℤ)) (a b : ℤ)
    (hab : ¬ (a = u ∧ b = v))
    (hsrc1 : ¬ (a = i ∨ a = j ∨ b = i ∨ b = j) → a = n → ¬ (i = u ∧ b = v))
    (hsrc2 : ¬ (a = i ∨ a = j ∨ b = i ∨ b = j) → a = n → ¬ (j = u ∧ b = v))
    (htgt1 : ¬ (a = i ∨ a = j ∨ b = i ∨ b = j) → b = n → ¬ (a = u ∧ i = v))
    (htgt2 : ¬ (a = i ∨ a = j ∨ b = i ∨ b = j) → b = n → ¬ (a = u ∧ j = v)) :
    cval g i j n ((u, v) :: rest) a b = cval g i j n rest a b := by
  by_cases hc1 : a = i ∨ a = j ∨ b = i ∨ b = j
  · rw [cval_incident g i j n _ a b hc1, cval_incident g i j n _ a b hc1]
    by_cases hm : (a, b) ∈ rest
    · rw [if_pos (List.mem_cons_of_mem _ hm), if_pos hm]
    · rw [if_neg ?_, if_neg hm]
      intro hc
      rcases List.mem_cons.mp hc with hc1 | hc2
      · exact hab ⟨congrArg Prod.fst hc1, congrArg Prod.snd hc1⟩
      · exact hm hc2
  · by_cases han : a = n
    · rw [cval_src_n g i j n _ a b hc1 han, cval_src_n g i j n _ a b hc1 han,
        procVal_cons_ne g u v rest i b (hsrc1 hc1 han),
        procVal_cons_ne g u v rest j b (hsrc2 hc1 han)]
    · by_cases hbn : b = n
      · rw [cval_tgt_n g i j n _ a b hc1 han hbn, cval_tgt_n g i j n _ a b hc1 han hbn,
          procVal_cons_ne g u v rest a i (htgt1 hc1 hbn),
          procVal_cons_ne g u v rest a j (htgt2 hc1 hbn)]
      · rw [cval_far g i j n _ a b hc1 han hbn, cval_far g i j n _ a b hc1 han hbn]

theorem combine_eq_none_iff (x y : Option ℚ) :
    combine x y = none ↔ x = none ∧ y = none := by
  cases x <;> cases y <;> simp [combine]

theorem updateEdge_nodes (g : HariGraph) (u v : ℤ) (w : ℚ) :
    (g.updateEdge u v w).nodes = g.nodes := rfl

theorem remove_edge_nodes (g : HariGraph) (u v : ℤ) :
    (g.remove_edge u v).nodes = g.nodes := rfl

/-- One step of the reconnection loop of `merge_nodes` preserves the
node list and advances the invariant table by one to-do key. -/
theorem mergeStep_spec (g : HariGraph) (i j n : ℤ) (rest : List (ℤ × ℤ))
    (h : HariGraph) (e : Edge)
    (hij : i ≠ j) (hin : i ≠ n) (hjn : j ≠ n)
    (hgn : n ∉ g.nodeIds)
    (heu : e.1 ∈ g.nodeIds) (hev : e.2.1 ∈ g.nodeIds)
    (heval : g.edgeValue e.1 e.2.1 = some e.2.2)
    (hkey : (e.1, e.2.1) ∉ rest)
    (hns : ∀ k ∈ g.nodeIds, k ∈ h.nodeIds) (hn : n ∈ h.nodeIds)
    (hInv : ∀ a b, h.edgeValue a b = cval g i j n ((e.1, e.2.1) :: rest) a b) :
    (mergeStep i j n h e).nodes = h.nodes
      ∧ ∀ a b, (mergeStep i j n h e).edgeValue a b = cval g i j n rest a b := by
  obtain ⟨u, v, w⟩ := e
  simp only at heu hev heval hkey hInv
  have hun : u ≠ n := fun hc => hgn (hc ▸ heu)
  have hvn : v ≠ n := fun hc => hgn (hc ▸ hev)
  by_cases hu : u = i ∨ u = j
  · have hval_uv : h.edgeValue u v = some w := by
      rw [hInv u v, cval_incident g i j n _ u v (hu.imp_right fun h2 => Or.inl h2),
        if_pos (List.mem_cons_self _ _)]
      exact heval
    have hbuv : h.hasEdge u v = true := by
      unfold HariGraph.hasEdge; rw [hval_uv]; rfl
    by_cases hv : v = i ∨ v = j
    · -- the processed edge joins the two merged nodes: it is only removed
      have hno : ¬ (v ≠ i ∧ v ≠ j) := by
        rintro ⟨hc1, hc2⟩
        rcases hv with hvv | hvv
        · exact hc1 hvv
        · exact hc2 hvv
      have hno2 : ¬ (u ≠ i ∧ u ≠ j) := by
        rintro ⟨hc1, hc2⟩
        rcases hu with huu | huu
        · exact hc1 huu
        · exact hc2 huu
      have hb2 : ¬ ((h.remove_edge u v).hasEdge u v = true) := by
        unfold HariGraph.hasEdge
        rw [remove_edge_edgeValue, if_pos ⟨rfl, rfl⟩]
        simp
      have hred : mergeStep i j n h (u, v, w) = h.remove_edge u v := by
        simp only [mergeStep]
        rw [if_pos hv, if_pos hu, if_neg hno, if_pos hbuv, if_neg hno2, if_neg hb2]
      refine ⟨by rw [hred, remove_edge_nodes], ?_⟩
      intro a b
      rw [hred, remove_edge_edgeValue]
      by_cases hab : a = u ∧ b = v
      · rw [if_pos hab, hab.1, hab.2,
          cval_incident g i j n rest u v (hu.imp_right fun h2 => Or.inl h2), if_neg hkey]
      · rw [if_neg hab, hInv a b]
        refine cval_cons_irrelevant g i j n u v rest a b hab ?_ ?_ ?_ ?_
        · intro hc1 _ hc
          refine hc1 ?_
          rcases hv with hvv | hvv
          · exact Or.inr (Or.inr (Or.inl (hc.2.trans hvv)))
          · exact Or.inr (Or.inr (Or.inr (hc.2.trans hvv)))
        · intro hc1 _ hc
          refine hc1 ?_
          rcases hv with hvv | hvv
          · exact Or.inr (Or.inr (Or.inl (hc.2.trans hvv)))
          · exact Or.inr (Or.inr (Or.inr (hc.2.trans hvv)))
        · intro hc1 _ hc
          refine hc1 ?_
          rcases hu with huu | huu
          · exact Or.inl (hc.1.trans huu)
          · exact Or.inr (Or.inl (hc.1.trans huu))
        · intro hc1 _ hc
          refine hc1 ?_
          rcases hu with huu | huu
          · exact Or.inl (hc.1.trans huu)
          · exact Or.inr (Or.inl (hc.1.trans huu))
    · -- the processed edge leaves the merged pair towards an outside node
      have hvnot := hv
      push_neg at hvnot
      obtain ⟨hv1, hv2⟩ := hvnot
      have hvv : v ≠ i ∧ v ≠ j := ⟨hv1, hv2⟩
      have hcondnv : ¬ (n = i ∨ n = j ∨ v = i ∨ v = j) := by
        rintro (hc | hc | hc | hc)
        · exact hin hc.symm
        · exact hjn hc.symm
        · exact hv1 hc
        · exact hv2 hc
      have hC0 : h.edgeValue n v
          = combine (procVal g ((u, v) :: rest) i v) (procVal g ((u, v) :: rest) j v) := by
        rw [hInv n v, cval_src_n g i j n _ n v hcondnv rfl]
      by_cases hne : h.hasEdge n v = true
      · -- the merged node is already connected to the neighbour: sum
        obtain ⟨s, hs⟩ : ∃ s, h.edgeValue n v = some s := by
          rcases hx : h.edgeValue n v with _ | s
          · exfalso
            have hfalse : h.hasEdge n v = false := by
              unfold HariGraph.hasEdge; rw [hx]; rfl
            rw [hfalse] at hne
            simp at hne
          · exact ⟨s, rfl⟩
        have hb : (h.updateEdge n v (((h.edgeValue n v).getD 0)
            + ((h.edgeValue u v).getD 0))).hasEdge u v = true := by
          unfold HariGraph.hasEdge
          rw [updateEdge_edgeValue, if_neg (fun hc => hun hc.1), hval_uv]; rfl
        have hred : mergeStep i j n h (u, v, w)
            = (h.updateEdge n v (((h.edgeValue n v).getD 0)
                + ((h.edgeValue u v).getD 0))).remove_edge u v := by
          simp only [mergeStep]
          rw [if_neg hv, if_pos hu, if_pos hvv, if_pos hne, if_pos hb]
        refine ⟨by rw [hred, remove_edge_nodes, updateEdge_nodes], ?_⟩
        intro a b
        rw [hred, remove_edge_edgeValue]
        by_cases hab : a = u ∧ b = v
        · rw [if_pos hab, hab.1, hab.2,
            cval_incident g i j n rest u v (hu.imp_right fun h2 => Or.inl h2), if_neg hkey]
        · rw [if_neg hab, updateEdge_edgeValue]
          by_cases hanb : a = n ∧ b = v
          · rw [if_pos hanb, hanb.1, hanb.2, hs, hval_uv,
              cval_src_n g i j n rest n v hcondnv rfl]
            rcases hu with huu | huu
            · -- the processed edge leaves node i
              have hpi : procVal g rest i v = some w := by
                rw [procVal_not_mem g rest i v (by rw [← huu]; exact hkey), ← huu]
                exact heval
              have hCi : procVal g ((u, v) :: rest) i v = none :=
                procVal_mem g _ i v (by rw [← huu]; exact List.mem_cons_self _ _)
              rw [hCi, hs] at hC0
              rcases hpj : procVal g ((u, v) :: rest) j v with _ | s2
              · rw [hpj] at hC0
                simp [combine] at hC0
              · rw [hpj] at hC0
                simp only [combine, Option.getD_some, Option.getD_none,
                  Option.some.injEq] at hC0
                have hpj2 : procVal g rest j v = some s2 := by
                  rw [← hpj]
                  exact (procVal_cons_ne g u v rest j v
                    (fun hc => hij ((hc.1.trans huu).symm))).symm
                rw [hpi, hpj2]
                simp only [combine, Option.getD_some, Option.some.injEq]
                rw [hC0]
                ring
            · -- the processed edge leaves node j
              have hpj : procVal g rest j v = some w := by
                rw [procVal_not_mem g rest j v (by rw [← huu]; exact hkey), ← huu]
                exact heval
              have hCj : procVal g ((u, v) :: rest) j v = none :=
                procVal_mem g _ j v (by rw [← huu]; exact List.mem_cons_self _ _)
              rw [hCj, hs] at hC0
              rcases hpi : procVal g ((u, v) :: rest) i v with _ | s2
              · rw [hpi] at hC0
                simp [combine] at hC0
              · rw [hpi] at hC0
                simp only [combine, Option.getD_some, Option.getD_none,
                  Option.some.injEq] at hC0
                have hpi2 : procVal g rest i v = some s2 := by
                  rw [← hpi]
                  exact (procVal_cons_ne g u v rest i v
                    (fun hc => hij (hc.1.trans huu))).symm
                rw [hpi2, hpj]
                simp only [combine, Option.getD_some, Option.some.injEq]
                rw [hC0]
                ring
          · rw [if_neg hanb, hInv a b]
            refine cval_cons_irrelevant g i j n u v rest a b hab ?_ ?_ ?_ ?_
            · intro _ han hc
              exact hanb ⟨han, hc.2⟩
            · intro _ han hc
              exact hanb ⟨han, hc.2⟩
            · intro _ _ hc
              exact hv1 hc.2.symm
            · intro _ _ hc
              exact hv2 hc.2.symm
      · -- first edge re-homed towards this neighbour: plain insertion
        have hnone : h.edgeValue n v = none := by
          rcases hx : h.edgeValue n v with _ | s
          · rfl
          · exfalso
            refine hne ?_
            unfold HariGraph.hasEdge
            rw [hx]
            rfl
        have hboth := (combine_eq_none_iff _ _).mp (hnone ▸ hC0.symm)
        have hb : (h.add_edge n v ((h.edgeValue u v).getD 0)).hasEdge u v = true := by
          unfold HariGraph.hasEdge
          rw [add_edge_edgeValue, if_neg (fun hc => hun hc.1), hval_uv]; rfl
        have hred : mergeStep i j n h (u, v, w)
            = (h.add_edge n v ((h.edgeValue u v).getD 0)).remove_edge u v := by
          simp only [mergeStep]
          rw [if_neg hv, if_pos hu, if_pos hvv, if_neg hne, if_pos hb]
        refine ⟨?_, ?_⟩
        · rw [hred, remove_edge_nodes]
          exact add_edge_nodes_of_present h n v _ hn (hns v hev)
        intro a b
        rw [hred, remove_edge_edgeValue]
        by_cases hab : a = u ∧ b = v
        · rw [if_pos hab, hab.1, hab.2,
            cval_incident g i j n rest u v (hu.imp_right fun h2 => Or.inl h2), if_neg hkey]
        · rw [if_neg hab, add_edge_edgeValue]
          by_cases hanb : a = n ∧ b = v
          · rw [if_pos hanb, hanb.1, hanb.2, hval_uv,
              cval_src_n g i j n rest n v hcondnv rfl]
            rcases hu with huu | huu
            · have hpi : procVal g rest i v = some w := by
                rw [procVal_not_mem g rest i v (by rw [← huu]; exact hkey), ← huu]
                exact heval
              have hpj2 : procVal g rest j v = none := by
                rw [← hboth.2]
                exact (procVal_cons_ne g u v rest j v
                  (fun hc => hij ((hc.1.trans huu).symm))).symm
              rw [hpi, hpj2]
              simp [combine]
            · have hpj : procVal g rest j v = some w := by
                rw [procVal_not_mem g rest j v (by rw [← huu]; exact hkey), ← huu]
                exact heval
              have hpi2 : procVal g rest i v = none := by
                rw [← hboth.1]
                exact (procVal_cons_ne g u v rest i v
                  (fun hc => hij (hc.1.trans huu))).symm
              rw [hpi2, hpj]
              simp [combine]
          · rw [if_neg hanb, hInv a b]
            refine cval_cons_irrelevant g i j n u v rest a b hab ?_ ?_ ?_ ?_
            · intro _ han hc
              exact hanb ⟨han, hc.2⟩
            · intro _ han hc
              exact hanb ⟨han, hc.2⟩
            · intro _ _ hc
              exact hv1 hc.2.symm
            · intro _ _ hc
              exact hv2 hc.2.symm
  · have hunot := hu
    push_neg at hunot
    obtain ⟨hu1, hu2⟩ := hunot
    have huu12 : u ≠ i ∧ u ≠ j := ⟨hu1, hu2⟩
    by_cases hv : v = i ∨ v = j
    · -- the processed edge enters the merged pair from an outside node
      have hval_uv : h.edgeValue u v = some w := by
        rw [hInv u v, cval_incident g i j n _ u v (Or.inr (Or.inr hv)),
          if_pos (List.mem_cons_self _ _)]
        exact heval
      have hcondun : ¬ (u = i ∨ u = j ∨ n = i ∨ n = j) := by
        rintro (hc | hc | hc | hc)
        · exact hu1 hc
        · exact hu2 hc
        · exact hin hc.symm
        · exact hjn hc.symm
      have hC0 : h.edgeValue u n
          = combine (procVal g ((u, v) :: rest) u i) (procVal g ((u, v) :: rest) u j) := by
        rw [hInv u n, cval_tgt_n g i j n _ u n hcondun hun rfl]
      by_cases hne : h.hasEdge u n = true
      · obtain ⟨s, hs⟩ : ∃ s, h.edgeValue u n = some s := by
          rcases hx : h.edgeValue u n with _ | s
          · exfalso
            have hfalse : h.hasEdge u n = false := by
              unfold HariGraph.hasEdge; rw [hx]; rfl
            rw [hfalse] at hne
            simp at hne
          · exact ⟨s, rfl⟩
        have hb : (h.updateEdge u n (((h.edgeValue u n).getD 0)
            + ((h.edgeValue u v).getD 0))).hasEdge u v = true := by
          unfold HariGraph.hasEdge
          rw [updateEdge_edgeValue, if_neg (fun hc => hvn hc.2), hval_uv]; rfl
        have hred : mergeStep i j n h (u, v, w)
            = (h.updateEdge u n (((h.edgeValue u n).getD 0)
                + ((h.edgeValue u v).getD 0))).remove_edge u v := by
          simp only [mergeStep]
          rw [if_neg hu, if_pos hv, if_pos huu12, if_pos hne, if_pos hb]
        refine ⟨by rw [hred, remove_edge_nodes, updateEdge_nodes], ?_⟩
        intro a b
        rw [hred, remove_edge_edgeValue]
        by_cases hab : a = u ∧ b = v
        · rw [if_pos hab, hab.1, hab.2,
            cval_incident g i j n rest u v (Or.inr (Or.inr hv)), if_neg hkey]
        · rw [if_neg hab, updateEdge_edgeValue]
          by_cases hanb : a = u ∧ b = n
          · rw [if_pos hanb, hanb.1, hanb.2, hs, hval_uv,
              cval_tgt_n g i j n rest u n hcondun hun rfl]
            rcases hv with hvv | hvv
            · -- the processed edge entered node i
              have hpi : procVal g rest u i = some w := by
                rw [procVal_not_mem g rest u i (by rw [← hvv]; exact hkey), ← hvv]
                exact heval
              have hCi : procVal g ((u, v) :: rest) u i = none :=
                procVal_mem g _ u i (by rw [← hvv]; exact List.mem_cons_self _ _)
              rw [hCi, hs] at hC0
              rcases hpj : procVal g ((u, v) :: rest) u j with _ | s2
              · rw [hpj] at hC0
                simp [combine] at hC0
              · rw [hpj] at hC0
                simp only [combine, Option.getD_some, Option.getD_none,
                  Option.some.injEq] at hC0
                have hpj2 : procVal g rest u j = some s2 := by
                  rw [← hpj]
                  exact (procVal_cons_ne g u v rest u j
                    (fun hc => hij ((hc.2.trans hvv).symm))).symm
                rw [hpi, hpj2]
                simp only [combine, Option.getD_some, Option.some.injEq]
                rw [hC0]
                ring
            · -- the processed edge entered node j
              have hpj : procVal g rest u j = some w := by
                rw [procVal_not_mem g rest u j (by rw [← hvv]; exact hkey), ← hvv]
                exact heval
              have hCj : procVal g ((u, v) :: rest) u j = none :=
                procVal_mem g _ u j (by rw [← hvv]; exact List.mem_cons_self _ _)
              rw [hCj, hs] at hC0
              rcases hpi : procVal g ((u, v) :: rest) u i with _ | s2
              · rw [hpi] at hC0
                simp [combine] at hC0
              · rw [hpi] at hC0
                simp only [combine, Option.getD_some, Option.getD_none,
                  Option.some.injEq] at hC0
                have hpi2 : procVal g rest u i = some s2 := by
                  rw [← hpi]
                  exact (procVal_cons_ne g u v rest u i
                    (fun hc => hij (hc.2.trans hvv))).symm
                rw [hpi2, hpj]
                simp only [combine, Option.getD_some, Option.some.injEq]
                rw [hC0]
                ring
          · rw [if_neg hanb, hInv a b]
            refine cval_cons_irrelevant g i j n u v rest a b hab ?_ ?_ ?_ ?_
            · intro _ _ hc
              exact hu1 hc.1.symm
            · intro _ _ hc
              exact hu2 hc.1.symm
            · intro _ hbn hc
              exact hanb ⟨hc.1, hbn⟩
            · intro _ hbn hc
              exact hanb ⟨hc.1, hbn⟩
      · have hnone : h.edgeValue u n = none := by
          rcases hx : h.edgeValue u n with _ | s
          · rfl
          · exfalso
            refine hne ?_
            unfold HariGraph.hasEdge
            rw [hx]
            rfl
        have hboth := (combine_eq_none_iff _ _).mp (hnone ▸ hC0.symm)
        have hb : (h.add_edge u n ((h.edgeValue u v).getD 0)).hasEdge u v = true := by
          unfold HariGraph.hasEdge
          rw [add_edge_edgeValue, if_neg (fun hc => hvn hc.2), hval_uv]; rfl
        have hred : mergeStep i j n h (u, v, w)
            = (h.add_edge u n ((h.edgeValue u v).getD 0)).remove_edge u v := by
          simp only [mergeStep]
          rw [if_neg hu, if_pos hv, if_pos huu12, if_neg hne, if_pos hb]
        refine ⟨?_, ?_⟩
        · rw [hred, remove_edge_nodes]
          exact add_edge_nodes_of_present h u n _ (hns u heu) hn
        intro a b
        rw [hred, remove_edge_edgeValue]
        by_cases hab : a = u ∧ b = v
        · rw [if_pos hab, hab.1, hab.2,
            cval_incident g i j n rest u v (Or.inr (Or.inr hv)), if_neg hkey]
        · rw [if_neg hab, add_edge_edgeValue]
          by_cases hanb : a = u ∧ b = n
          · rw [if_pos hanb, hanb.1, hanb.2, hval_uv,
              cval_tgt_n g i j n rest u n hcondun hun rfl]
            rcases hv with hvv | hvv
            · have hpi : procVal g rest u i = some w := by
                rw [procVal_not_mem g rest u i (by rw [← hvv]; exact hkey), ← hvv]
                exact heval
              have hpj2 : procVal g rest u j = none := by
                rw [← hboth.2]
                exact (procVal_cons_ne g u v rest u j
                  (fun hc => hij ((hc.2.trans hvv).symm))).symm
              rw [hpi, hpj2]
              simp [combine]
            · have hpj : procVal g rest u j = some w := by
                rw [procVal_not_mem g rest u j (by rw [← hvv]; exact hkey), ← hvv]
                exact heval
              have hpi2 : procVal g rest u i = none := by
                rw [← hboth.1]
                exact (procVal_cons_ne g u v rest u i
                  (fun hc => hij (hc.2.trans hvv))).symm
              rw [hpi2, hpj]
              simp [combine]
          · rw [if_neg hanb, hInv a b]
            refine cval_cons_irrelevant g i j n u v rest a b hab ?_ ?_ ?_ ?_
            · intro _ _ hc
              exact hu1 hc.1.symm
            · intro _ _ hc
              exact hu2 hc.1.symm
            · intro _ hbn hc
              exact hanb ⟨hc.1, hbn⟩
            · intro _ hbn hc
              exact hanb ⟨hc.1, hbn⟩
    · -- the processed edge does not touch the merged pair: untouched
      have hred : mergeStep i j n h (u, v, w) = h := by
        simp only [mergeStep]
        rw [if_neg hv, if_neg hu]
      refine ⟨by rw [hred], ?_⟩
      intro a b
      rw [hred, hInv a b]
      by_cases hab : a = u ∧ b = v
      · rw [hab.1, hab.2]
        have hcond : ¬ (u = i ∨ u = j ∨ v = i ∨ v = j) := by
          rintro (hc | hc | hc | hc)
          · exact hu (Or.inl hc)
          · exact hu (Or.inr hc)
          · exact hv (Or.inl hc)
          · exact hv (Or.inr hc)
        rw [cval_far g i j n _ u v hcond hun hvn, cval_far g i j n rest u v hcond hun hvn]
      · refine cval_cons_irrelevant g i j n u v rest a b hab ?_ ?_ ?_ ?_
        · intro _ _ hc
          exact hu (Or.inl hc.1.symm)
        · intro _ _ hc
          exact hu (Or.inr hc.1.symm)
        · intro _ _ hc
          exact hv (Or.inl hc.2.symm)
        · intro _ _ hc
          exact hv (Or.inr hc.2.symm)

/-- Running the whole reconnection loop turns the initial invariant
table into the final one. -/
theorem fold_mergeStep_spec (g : HariGraph) (i j n : ℤ)
    (hij : i ≠ j) (hin : i ≠ n) (hjn : j ≠ n) (hgn : n ∉ g.nodeIds)
    (hgkeys : (g.edges.map fun e => (e.1, e.2.1)).Nodup)
    (hclosed : EdgesClosed g)
    (todo : List Edge) :
    ∀ (h : HariGraph),
    (∀ e ∈ todo, e ∈ g.edges) →
    ((todo.map fun e => (e.1, e.2.1)).Nodup) →
    (∀ k ∈ g.nodeIds, k ∈ h.nodeIds) → (n ∈ h.nodeIds) →
    (∀ a b, h.edgeValue a b = cval g i j n (todo.map fun e => (e.1, e.2.1)) a b) →
    ((todo.foldl (mergeStep i j n) h).nodes = h.nodes
      ∧ ∀ a b, (todo.foldl (mergeStep i j n) h).edgeValue a b = cval g i j n [] a b) := by
  induction todo with
  | nil =>
      intro h _ _ _ _ hInv
      exact ⟨rfl, fun a b => hInv a b⟩
  | cons e todo ih =>
      intro h hmem hnd hns hn hInv
      have he_g : e ∈ g.edges := hmem e (List.mem_cons_self _ _)
      have hep := hclosed e he_g
      have heval := lookupEdge_of_mem g.edges hgkeys e he_g
      have hkey : (e.1, e.2.1) ∉ todo.map (fun e => (e.1, e.2.1)) := by
        simp only [List.map_cons, List.nodup_cons] at hnd
        exact hnd.1
      have hstep := mergeStep_spec g i j n (todo.map fun e => (e.1, e.2.1)) h e
        hij hin hjn hgn hep.1 hep.2 heval hkey hns hn
        (fun a b => by have hx := hInv a b; rw [List.map_cons] at hx; exact hx)
      have hrec := ih (mergeStep i j n h e)
        (fun x hx => hmem x (List.mem_cons_of_mem _ hx))
        (by simp only [List.map_cons, List.nodup_cons] at hnd; exact hnd.2)
        (fun k hk => by
          unfold HariGraph.nodeIds at *
          rw [hstep.1]
          exact hns k hk)
        (by
          unfold HariGraph.nodeIds at *
          rw [hstep.1]
          exact hn)
        hstep.2
      refine ⟨?_, ?_⟩
      · rw [List.foldl_cons, hrec.1, hstep.1]
      · rw [List.foldl_cons]
        exact hrec.2

/-- A successful lookup means the record is in the list. -/
theorem lookupEdge_some_mem (l : List Edge) (a b : ℤ) (w : ℚ)
    (h : lookupEdge l a b = some w) : (a, b, w) ∈ l := by
  induction l with
  | nil => cases h
  | cons e es ih =>
      by_cases hkey : e.1 = a ∧ e.2.1 = b
      · rw [lookupEdge_cons_eq e es a b hkey] at h
        have hw : e.2.2 = w := Option.some.inj h
        have he : e = (a, b, w) := by
          obtain ⟨e1, e2, e3⟩ := e
          obtain ⟨hk1, hk2⟩ := hkey
          simp only at hk1 hk2 hw
          rw [hk1, hk2, hw]
        rw [← he]
        exact List.mem_cons_self _ _
      · rw [lookupEdge_cons_ne e es a b hkey] at h
        exact List.mem_cons_of_mem _ (ih h)

/-- The edge snapshot only contains edges of the graph. -/
theorem edgesInOrder_subset (g : HariGraph) (e : Edge) (he : e ∈ g.edgesInOrder) :
    e ∈ g.edges := by
  unfold HariGraph.edgesInOrder at he
  obtain ⟨p, _, hmem⟩ := List.mem_flatMap.mp he
  exact List.mem_of_mem_filter hmem

/-- Every edge whose source is a node occurs in the edge snapshot. -/
theorem mem_edgesInOrder (g : HariGraph) (e : Edge) (he : e ∈ g.edges)
    (hsrc : e.1 ∈ g.nodeIds) : e ∈ g.edgesInOrder := by
  unfold HariGraph.edgesInOrder
  obtain ⟨p, hp, hfst⟩ := List.mem_map.mp hsrc
  exact List.mem_flatMap.mpr ⟨p, hp, List.mem_filter.mpr ⟨he, by simp [hfst]⟩⟩

/-- A key appearing in the grouped snapshot of a node-list suffix has
its source among that suffix. -/
theorem flatMap_group_key_mem (es : List Edge) (L : List (ℤ × NodeData)) (k : ℤ × ℤ)
    (hk : k ∈ (L.flatMap fun p => es.filter (fun e => decide (e.1 = p.1))).map
      (fun e => (e.1, e.2.1))) :
    k.1 ∈ L.map Prod.fst := by
  obtain ⟨e, he, hke⟩ := List.mem_map.mp hk
  obtain ⟨p, hp, hmem⟩ := List.mem_flatMap.mp he
  have hsrc : e.1 = p.1 := by
    have := (List.mem_filter.mp hmem).2
    simpa using this
  rw [← hke]
  simp only [List.mem_map]
  exact ⟨p, hp, hsrc.symm⟩

/-- The edge snapshot has duplicate-free keys when the graph does. -/
theorem edgesInOrder_keys_nodup_aux (es : List Edge)
    (hekeys : (es.map fun e => (e.1, e.2.1)).Nodup) :
    ∀ (L : List (ℤ × NodeData)), (L.map Prod.fst).Nodup →
    ((L.flatMap fun p => es.filter (fun e => decide (e.1 = p.1))).map
      (fun e => (e.1, e.2.1))).Nodup := by
  intro L
  induction L with
  | nil => intro _; simp
  | cons p ps ih =>
      intro hnd
      simp only [List.map_cons, List.nodup_cons] at hnd
      rw [List.flatMap_cons, List.map_append]
      refine List.Nodup.append ?_ (ih hnd.2) ?_
      · exact List.Nodup.sublist (List.Sublist.map _ (List.filter_sublist es)) hekeys
      · intro k hk1 hk2
        have hsrc1 : k.1 = p.1 := by
          obtain ⟨e, he, hke⟩ := List.mem_map.mp hk1
          have := (List.mem_filter.mp he).2
          rw [← hke]
          simpa using this
        have hsrc2 : k.1 ∈ ps.map Prod.fst := flatMap_group_key_mem es ps k hk2
        rw [hsrc1] at hsrc2
        exact hnd.1 hsrc2

theorem edgesInOrder_keys_nodup (g : HariGraph)
    (hn : (g.nodes.map Prod.fst).Nodup)
    (hekeys : (g.edges.map fun e => (e.1, e.2.1)).Nodup) :
    (g.edgesInOrder.map fun e => (e.1, e.2.1)).Nodup :=
  edgesInOrder_keys_nodup_aux g.edges hekeys g.nodes hn

/-- Composing the two node removals on the node list. -/
theorem filter_pair_eq (l : List (ℤ × NodeData)) (i j : ℤ) :
    (l.filter (fun p => decide (p.1 ≠ i))).filter (fun p => decide (p.1 ≠ j))
      = l.filter (fun p => decide (p.1 ≠ i ∧ p.1 ≠ j)) := by
  induction l with
  | nil => rfl
  | cons p ps ih =>
      by_cases hpi : p.1 = i
      · rw [List.filter_cons_of_neg (by simp [hpi]),
          List.filter_cons_of_neg (by simp [hpi]), ih]
      · by_cases hpj : p.1 = j
        · rw [List.filter_cons_of_pos (by simp [hpi]),
            List.filter_cons_of_neg (by simp [hpj]),
            List.filter_cons_of_neg (by simp [hpj]), ih]
        · rw [List.filter_cons_of_pos (by simp [hpi]),
            List.filter_cons_of_pos (by simp [hpj]),
            List.filter_cons_of_pos (by simp [hpi, hpj]), ih]

/-- Full characterization of `merge_nodes` on a well-formed graph: the
node list keeps all untouched nodes, drops `i` and `j`, and appends the
merged node under the fresh identifier `max + 1`; the edge table keeps
far edges, drops everything still incident to `i` or `j`, and gives the
new node the combined (summed) weights towards each neighbour. -/
theorem merge_nodes_spec (g : HariGraph) (i j : ℤ)
    (hnkeys : (g.nodes.map Prod.fst).Nodup)
    (hekeys : (g.edges.map fun e => (e.1, e.2.1)).Nodup)
    (hclosed : EdgesClosed g)
    (hi : i ∈ g.nodeIds) (hj : j ∈ g.nodeIds) (hij : i ≠ j) :
    (g.merge_nodes i j).nodes
      = g.nodes.filter (fun p => decide (p.1 ≠ i ∧ p.1 ≠ j))
        ++ [(g.maxNodeId + 1, mergedNodeData g i j)]
    ∧ ∀ a b, (g.merge_nodes i j).edgeValue a b
      = if a = i ∨ a = j ∨ b = i ∨ b = j then none
        else if a = g.maxNodeId + 1 then combine (g.edgeValue i b) (g.edgeValue j b)
        else if b = g.maxNodeId + 1 then combine (g.edgeValue a i) (g.edgeValue a j)
        else g.edgeValue a b := by
  set n : ℤ := g.maxNodeId + 1 with hn_def
  set nd : NodeData := mergedNodeData g i j with hnd_def
  set g1 : HariGraph := g.add_node n nd with hg1_def
  set S : List Edge := g1.edgesInOrder with hS_def
  have hlt : ∀ k ∈ g.nodeIds, k < n := fun k hk => by
    have := mem_le_maxNodeId g k hk
    omega
  have hgn : n ∉ g.nodeIds := fun hmem => by
    have := hlt n hmem
    omega
  have hin : i ≠ n := fun hc => hgn (hc ▸ hi)
  have hjn : j ≠ n := fun hc => hgn (hc ▸ hj)
  have hg1nodes : g1.nodes = g.nodes ++ [(n, nd)] := by
    rw [hg1_def]
    unfold HariGraph.add_node
    exact setNode_not_mem g.nodes n nd hgn
  have hg1edges : g1.edges = g.edges := rfl
  have hg1ids : g1.nodeIds = g.nodeIds ++ [n] := by
    unfold HariGraph.nodeIds
    rw [hg1nodes, List.map_append]
    rfl
  have hSsub : ∀ e ∈ S, e ∈ g.edges := fun e he => edgesInOrder_subset g1 e he
  have hSnd : (S.map fun e => (e.1, e.2.1)).Nodup := by
    refine edgesInOrder_keys_nodup g1 ?_ hekeys
    rw [hg1nodes, List.map_append]
    refine List.Nodup.append hnkeys (List.nodup_singleton _) ?_
    intro x hx1 hx2
    simp only [List.map_cons, List.map_nil, List.mem_singleton] at hx2
    rw [hx2] at hx1
    exact hgn hx1
  have hcomplete : ∀ x y, ((x, y) ∉ S.map (fun e => (e.1, e.2.1))) →
      g.edgeValue x y = none := by
    intro x y hxy
    rcases hv : g.edgeValue x y with _ | w
    · rfl
    · exfalso
      have hm := lookupEdge_some_mem g.edges x y w hv
      have hx : x ∈ g.nodeIds := (hclosed _ hm).1
      have hxg1 : x ∈ g1.nodeIds := by
        rw [hg1ids]
        exact List.mem_append_left _ hx
      have hmS : (x, y, w) ∈ S := mem_edgesInOrder g1 (x, y, w) hm hxg1
      exact hxy (List.mem_map.mpr ⟨(x, y, w), hmS, rfl⟩)
  have hInv0 : ∀ a b, g1.edgeValue a b = cval g i j n (S.map fun e => (e.1, e.2.1)) a b := by
    intro a b
    have hg1v : g1.edgeValue a b = g.edgeValue a b := rfl
    rw [hg1v]
    by_cases hc1 : a = i ∨ a = j ∨ b = i ∨ b = j
    · rw [cval_incident g i j n _ a b hc1]
      by_cases hm : (a, b) ∈ S.map (fun e => (e.1, e.2.1))
      · rw [if_pos hm]
      · rw [if_neg hm]
        exact hcomplete a b hm
    · have hproc : ∀ x y, procVal g (S.map fun e => (e.1, e.2.1)) x y = none
          ∨ procVal g (S.map fun e => (e.1, e.2.1)) x y = g.edgeValue x y := by
        intro x y
        unfold procVal
        by_cases hm : (x, y) ∈ S.map (fun e => (e.1, e.2.1))
        · left; rw [if_pos hm]
        · right; rw [if_neg hm]
      by_cases han : a = n
      · rw [cval_src_n g i j n _ a b hc1 han]
        have h1 : procVal g (S.map fun e => (e.1, e.2.1)) i b = none := by
          unfold procVal
          by_cases hm : (i, b) ∈ S.map (fun e => (e.1, e.2.1))
          · rw [if_pos hm]
          · rw [if_neg hm]
            exact hcomplete i b hm
        have h2 : procVal g (S.map fun e => (e.1, e.2.1)) j b = none := by
          unfold procVal
          by_cases hm : (j, b) ∈ S.map (fun e => (e.1, e.2.1))
          · rw [if_pos hm]
          · rw [if_neg hm]
            exact hcomplete j b hm
        rw [h1, h2, han]
        rcases hv : g.edgeValue n b with _ | w
        · rfl
        · exfalso
          have hm := lookupEdge_some_mem g.edges n b w hv
          exact hgn (hclosed _ hm).1
      · by_cases hbn : b = n
        · rw [cval_tgt_n g i j n _ a b hc1 han hbn]
          have h1 : procVal g (S.map fun e => (e.1, e.2.1)) a i = none := by
            unfold procVal
            by_cases hm : (a, i) ∈ S.map (fun e => (e.1, e.2.1))
            · rw [if_pos hm]
            · rw [if_neg hm]
              exact hcomplete a i hm
          have h2 : procVal g (S.map fun e => (e.1, e.2.1)) a j = none := by
            unfold procVal
            by_cases hm : (a, j) ∈ S.map (fun e => (e.1, e.2.1))
            · rw [if_pos hm]
            · rw [if_neg hm]
              exact hcomplete a j hm
          rw [h1, h2, hbn]
          rcases hv : g.edgeValue a n with _ | w
          · rfl
          · exfalso
            have hm := lookupEdge_some_mem g.edges a n w hv
            exact hgn (hclosed _ hm).2
        · rw [cval_far g i j n _ a b hc1 han hbn]
  have hfold := fold_mergeStep_spec g i j n hij hin hjn hgn hekeys hclosed S g1 hSsub hSnd
    (fun k hk => by
      rw [hg1ids]
      exact List.mem_append_left _ hk)
    (by
      rw [hg1ids]
      exact List.mem_append_right _ (List.mem_singleton.mpr rfl))
    hInv0
  have hresult : g.merge_nodes i j
      = ((S.foldl (mergeStep i j n) g1).remove_node i).remove_node j := rfl
  constructor
  · rw [hresult]
    show ((((S.foldl (mergeStep i j n) g1).remove_node i).remove_node j).nodes) = _
    unfold HariGraph.remove_node
    simp only
    rw [hfold.1, hg1nodes, filter_pair_eq, List.filter_append]
    congr 1
    rw [List.filter_cons_of_pos (by simp [Ne.symm hin, Ne.symm hjn]), List.filter_nil]
  · intro a b
    rw [hresult, remove_node_edgeValue, remove_node_edgeValue]
    by_cases hj2 : a = j ∨ b = j
    · rw [if_pos hj2, if_pos (by
        rcases hj2 with h | h
        · exact Or.inr (Or.inl h)
        · exact Or.inr (Or.inr (Or.inr h)))]
    · rw [if_neg hj2]
      by_cases hi2 : a = i ∨ b = i
      · rw [if_pos hi2, if_pos (by
          rcases hi2 with h | h
          · exact Or.inl h
          · exact Or.inr (Or.inr (Or.inl h)))]
      · have hcond : ¬ (a = i ∨ a = j ∨ b = i ∨ b = j) := by
          rintro (h | h | h | h)
          · exact hi2 (Or.inl h)
          · exact hj2 (Or.inl h)
          · exact hi2 (Or.inr h)
          · exact hj2 (Or.inr h)
        rw [if_neg hi2, if_neg hcond, hfold.2 a b]
        by_cases han : a = n
        · rw [cval_src_n g i j n [] a b hcond han, if_pos han,
            procVal_not_mem g [] i b (List.not_mem_nil _),
            procVal_not_mem g [] j b (List.not_mem_nil _)]
        · rw [if_neg han]
          by_cases hbn : b = n
          · rw [cval_tgt_n g i j n [] a b hcond han hbn, if_pos hbn,
              procVal_not_mem g [] a i (List.not_mem_nil _),
              procVal_not_mem g [] a j (List.not_mem_nil _)]
          · rw [cval_far g i j n [] a b hcond han hbn, if_neg hbn]

/-- Claim C8: for every graph (with well-formed, duplicate-free edge
keys) and time factor `t`, the dynamics step assigns each node `i` the
value `clip(value_i + t * sum over incoming edges of weight * source
value, 0, 1)`, where every source value read is the value from before
the step (the right-hand side reads only the input graph `g`): a
simultaneous synchronous update, independent of traversal order. -/
theorem dynamics_step_spec (g : HariGraph) (t : ℚ) (i : ℤ) (nd : NodeData)
    (hi : g.getNode i = some nd)
    (hkeys : (g.edges.map fun e => (e.1, e.2.1)).Nodup) :
    (g.dynamics_step t).getNode i
      = some { nd with value := clip (nd.value + t * inWeightedSum g i) } := by
  have hmap : (g.dynamics_step t).getNode i = (g.getNode i).map
      (fun nd0 => { nd0 with value := stepValue g t i nd0.value }) := by
    unfold HariGraph.dynamics_step HariGraph.getNode
    exact lookupNode_map_keyed g.nodes
      (fun k nd0 => { nd0 with value := stepValue g t k nd0.value }) i
  have hsum : stepValue g t i nd.value = clip (nd.value + t * inWeightedSum g i) := by
    unfold stepValue
    rw [foldl_add_eq (fun j => ((g.edgeValue j i).getD 0) * ((g.getNode j).getD autoNode).value * t)]
    unfold HariGraph.predecessors inWeightedSum
    rw [List.map_map]
    have hcong : ∀ e ∈ g.edges.filter (fun e => decide (e.2.1 = i)),
        (((fun j => ((g.edgeValue j i).getD 0) * ((g.getNode j).getD autoNode).value * t) ∘
          (fun e : Edge => e.1)) e)
        = (fun e : Edge => e.2.2 * ((g.getNode e.1).getD autoNode).value * t) e := by
      intro e he
      have hmem : e ∈ g.edges := (List.mem_filter.mp he).1
      have htgt : e.2.1 = i := by
        have := (List.mem_filter.mp he).2
        simpa using this
      have hlk : g.edgeValue e.1 i = some e.2.2 := by
        have h0 := lookupEdge_of_mem g.edges hkeys e hmem
        rw [htgt] at h0
        exact h0
      simp [hlk]
    rw [List.map_congr_left hcong]
    have hfac : ((g.edges.filter (fun e => decide (e.2.1 = i))).map
        (fun e : Edge => e.2.2 * ((g.getNode e.1).getD autoNode).value * t)).sum
        = t * ((g.edges.filter (fun e => decide (e.2.1 = i))).map
          (fun e : Edge => e.2.2 * ((g.getNode e.1).getD autoNode).value)).sum := by
      induction (g.edges.filter (fun e => decide (e.2.1 = i))) with
      | nil => simp
      | cons a as ih => simp [ih]; ring
    rw [hfac]
  rw [hmap, hi, Option.map_some', hsum]

/-- Witness for claim C8: on the two-node example with `t = 1`, node A
gets the new value `clip(0.5 + 0.3 * 1.0, 0, 1) = 0.8`. -/
theorem dynamics_step_spec_witness :
    (dynamicsExample.dynamics_step 1).getNode 0
      = some ⟨4/5, some [0], none, none, none⟩ := by
  have h := dynamics_step_spec dynamicsExample 1 0 ⟨1/2, some [0], none, none, none⟩
    (by simp [dynamicsExample, HariGraph.getNode, lookupNode]) (by decide)
  rw [h]
  have hv : clip ((1:ℚ)/2 + 1 * inWeightedSum dynamicsExample 0) = 4/5 := by
    simp [inWeightedSum, dynamicsExample, HariGraph.getNode, lookupNode, clip, autoNode]
    norm_num
  simp only [hv]

/-- Claim C10: the similarity computation is symmetric under the default
similarity function — for every graph and every pair of nodes,
`compute_similarity(i, j) = compute_similarity(j, i)`, both in the
no-edge sentinel case (value `-2`) and in the formula case, where
swapping the pair exchanges the forward and reverse edge weights and the
two sizes. -/
theorem compute_similarity_symm (g : HariGraph) (i j : ℤ) :
    compute_similarity g i j = compute_similarity g j i := by
  unfold compute_similarity
  by_cases hij : g.hasEdge i j = false ∧ g.hasEdge j i = false
  · rw [if_pos hij, if_pos ⟨hij.2, hij.1⟩]
  · rw [if_neg hij, if_neg (fun h => hij ⟨h.2, h.1⟩)]
    unfold default_similarity_function
    have habs : |((g.getNode i).getD autoNode).value - ((g.getNode j).getD autoNode).value|
        = |((g.getNode j).getD autoNode).value - ((g.getNode i).getD autoNode).value| :=
      abs_sub_comm _ _
    cases h1 : g.edgeValue i j <;> cases h2 : g.edgeValue j i <;>
      simp only [habs] <;> ring_nf <;>
      rw [min_comm (((g.getNode i).getD autoNode).value)
            (((g.getNode j).getD autoNode).value),
          min_comm (1 - ((g.getNode i).getD autoNode).value)
            (1 - ((g.getNode j).getD autoNode).value)] <;> ring

/-- Claim C9 (amended): `add_edge` never fails — absent endpoints are
silently created as attribute-less nodes (inherited `networkx.DiGraph`
behaviour), and the edge is inserted (or its weight overwritten), so
after the call both endpoints are nodes and the edge carries the given
weight. -/
theorem add_edge_total (g : HariGraph) (u v : ℤ) (w : ℚ) :
    u ∈ (g.add_edge u v w).nodeIds ∧ v ∈ (g.add_edge u v w).nodeIds
      ∧ (g.add_edge u v w).edgeValue u v = some w := by
  have hedge := add_edge_edgeValue g u v w u v
  rw [if_pos ⟨rfl, rfl⟩] at hedge
  set ns1 := if (lookupNode g.nodes u).isSome then g.nodes else g.nodes ++ [(u, autoNode)]
    with hns1
  have hnodes : (g.add_edge u v w).nodes
      = if (lookupNode ns1 v).isSome then ns1 else ns1 ++ [(v, autoNode)] := rfl
  have hu1 : u ∈ ns1.map Prod.fst := by
    rw [hns1]
    by_cases h1 : (lookupNode g.nodes u).isSome = true
    · rw [if_pos h1]
      exact (lookupNode_isSome_iff g.nodes u).mp h1
    · rw [if_neg h1, List.map_append]
      exact List.mem_append_right _ (by simp)
  refine ⟨?_, ?_, hedge⟩
  · show u ∈ (g.add_edge u v w).nodes.map Prod.fst
    rw [hnodes]
    by_cases h2 : (lookupNode ns1 v).isSome = true
    · rw [if_pos h2]
      exact hu1
    · rw [if_neg h2, List.map_append]
      exact List.mem_append_left _ hu1
  · show v ∈ (g.add_edge u v w).nodes.map Prod.fst
    rw [hnodes]
    by_cases h2 : (lookupNode ns1 v).isSome = true
    · rw [if_pos h2]
      exact (lookupNode_isSome_iff ns1 v).mp h2
    · rw [if_neg h2, List.map_append]
      exact List.mem_append_right _ (by simp)

/-- Counterexample to claim C9 as stated: adding an edge whose target
`5` is absent raises no error — the call returns normally, the node set
changes (node `5` is silently created), and the edge is present. -/
theorem add_edge_unknown_node_cex :
    (5 ∉ singleNodeExample.nodeIds)
      ∧ 5 ∈ (singleNodeExample.add_edge 0 5 1).nodeIds
      ∧ (singleNodeExample.add_edge 0 5 1).edgeValue 0 5 = some 1 := by
  decide

/-- Keeping the running maximum when no candidate beats it. -/
theorem foldl_argmax_le (f : (ℤ × ℤ) → ℚ) (l : List (ℤ × ℤ)) :
    ∀ (m : ℚ) (best : Option (ℤ × ℤ)), (∀ q ∈ l, f q ≤ m) →
    l.foldl (fun acc pr => if f pr > acc.1 then (f pr, some pr) else acc) (m, best)
      = (m, best) := by
  induction l with
  | nil => intro m best _; rfl
  | cons x xs ih =>
      intro m best hall
      rw [List.foldl_cons, if_neg (not_lt.mpr (hall x (List.mem_cons_self _ _)))]
      exact ih m best (fun q hq => hall q (List.mem_cons_of_mem _ hq))

/-- When some candidate beats the running maximum, the fold returns the
first candidate attaining the overall maximum. -/
theorem foldl_argmax_found (f : (ℤ × ℤ) → ℚ) (l : List (ℤ × ℤ)) :
    ∀ (m : ℚ) (best : Option (ℤ × ℤ)), (∃ q ∈ l, m < f q) →
    ∃ l1 pr l2, l = l1 ++ pr :: l2
      ∧ l.foldl (fun acc pr => if f pr > acc.1 then (f pr, some pr) else acc) (m, best)
          = (f pr, some pr)
      ∧ m < f pr
      ∧ (∀ q ∈ l1, f q < f pr)
      ∧ (∀ q ∈ l, f q ≤ f pr) := by
  induction l with
  | nil => intro m best hex; obtain ⟨q, hq, _⟩ := hex; cases hq
  | cons x xs ih =>
      intro m best hex
      by_cases hx : m < f x
      · rw [List.foldl_cons, if_pos hx]
        by_cases hxs : ∃ q ∈ xs, f x < f q
        · obtain ⟨l1, pr, l2, heq, hres, hlt, hpre, hall⟩ := ih (f x) (some x) hxs
          refine ⟨x :: l1, pr, l2, by rw [heq]; rfl, hres, lt_trans hx hlt, ?_, ?_⟩
          · intro q hq
            rcases List.mem_cons.mp hq with rfl | hq2
            · exact hlt
            · exact hpre q hq2
          · intro q hq
            rcases List.mem_cons.mp hq with rfl | hq2
            · exact le_of_lt hlt
            · exact hall q hq2
        · push_neg at hxs
          rw [foldl_argmax_le f xs (f x) (some x) hxs]
          refine ⟨[], x, xs, rfl, rfl, hx, by simp, ?_⟩
          intro q hq
          rcases List.mem_cons.mp hq with rfl | hq2
          · exact le_refl _
          · exact hxs q hq2
      · rw [List.foldl_cons, if_neg hx]
        have hxs : ∃ q ∈ xs, m < f q := by
          obtain ⟨q, hq, hmq⟩ := hex
          rcases List.mem_cons.mp hq with rfl | hq2
          · exact absurd hmq hx
          · exact ⟨q, hq2, hmq⟩
        obtain ⟨l1, pr, l2, heq, hres, hlt, hpre, hall⟩ := ih m best hxs
        refine ⟨x :: l1, pr, l2, by rw [heq]; rfl, hres, hlt, ?_, ?_⟩
        · intro q hq
          rcases List.mem_cons.mp hq with rfl | hq2
          · exact lt_of_le_of_lt (not_lt.mp hx) hlt
          · exact hpre q hq2
        · intro q hq
          rcases List.mem_cons.mp hq with rfl | hq2
          · exact le_trans (not_lt.mp hx) (le_of_lt hlt)
          · exact hall q hq2

/-- Claim C2 (amended): on a labelled graph with at most one node, one
iteration of coarsening is a no-op; on a labelled graph with at least
two nodes it scans all unordered pairs in the stable enumeration order
and merges the pair with the strictly greatest similarity among the
pairs scoring above `-1` (first such pair on ties); when no pair scores
above `-1` — in particular when every pair is non-adjacent and scores
the sentinel `-2` — nothing is merged and the graph is returned
unchanged.  (The empty graph raises `StopIteration` instead, see the
counterexample.) -/
theorem simplify_one_iteration_spec (g : HariGraph) (p0 : ℤ × NodeData)
    (rest : List (ℤ × NodeData)) (hg : g.nodes = p0 :: rest)
    (hlab : p0.2.label.isSome = true) :
    (g.nodes.length ≤ 1 → g.simplify_graph_one_iteration = some g)
    ∧ (2 ≤ g.nodes.length →
      ((∀ pr ∈ combinationsPairs g.nodeIds, compute_similarity g pr.1 pr.2 ≤ -1) →
        g.simplify_graph_one_iteration = some g)
      ∧ (∀ q0 ∈ combinationsPairs g.nodeIds, -1 < compute_similarity g q0.1 q0.2 →
        ∃ l1 pr l2, combinationsPairs g.nodeIds = l1 ++ pr :: l2
          ∧ g.simplify_graph_one_iteration = some (g.merge_nodes pr.1 pr.2)
          ∧ -1 < compute_similarity g pr.1 pr.2
          ∧ (∀ q ∈ l1, compute_similarity g q.1 q.2 < compute_similarity g pr.1 pr.2)
          ∧ (∀ q ∈ combinationsPairs g.nodeIds,
              compute_similarity g q.1 q.2 ≤ compute_similarity g pr.1 pr.2))) := by
  constructor
  · intro h1
    unfold HariGraph.simplify_graph_one_iteration
    rw [hg]
    simp only [hlab, if_true]
    rw [if_pos h1]
  · intro h2
    have hform : g.simplify_graph_one_iteration
        = (match ((combinationsPairs g.nodeIds).foldl
            (fun acc pr =>
              if compute_similarity g pr.1 pr.2 > acc.1 then
                (compute_similarity g pr.1 pr.2, some pr)
              else acc)
            ((-1 : ℚ), (none : Option (ℤ × ℤ)))).2 with
          | some pr => some (g.merge_nodes pr.1 pr.2)
          | none => some g) := by
      unfold HariGraph.simplify_graph_one_iteration
      rw [hg]
      simp only [hlab, if_true]
      rw [if_neg (by omega)]
    constructor
    · intro hall
      have hle := foldl_argmax_le (fun pr => compute_similarity g pr.1 pr.2)
        (combinationsPairs g.nodeIds) (-1) none hall
      have hle2 : (combinationsPairs g.nodeIds).foldl
          (fun acc pr =>
            if compute_similarity g pr.1 pr.2 > acc.1 then
              (compute_similarity g pr.1 pr.2, some pr)
            else acc)
          ((-1 : ℚ), (none : Option (ℤ × ℤ))) = ((-1 : ℚ), none) := hle
      rw [hform, hle2]
    · intro q0 hq0 hgt
      obtain ⟨l1, pr, l2, heq, hres, hlt, hpre, hallle⟩ :=
        foldl_argmax_found (fun pr => compute_similarity g pr.1 pr.2)
          (combinationsPairs g.nodeIds) (-1) none ⟨q0, hq0, hgt⟩
      have hres2 : (combinationsPairs g.nodeIds).foldl
          (fun acc pr =>
            if compute_similarity g pr.1 pr.2 > acc.1 then
              (compute_similarity g pr.1 pr.2, some pr)
            else acc)
          ((-1 : ℚ), (none : Option (ℤ × ℤ)))
          = (compute_similarity g pr.1 pr.2, some pr) := hres
      refine ⟨l1, pr, l2, heq, ?_, hlt, hpre, hallle⟩
      rw [hform, hres2]

/-- Counterexample to claim C2 as stated, in both directions the claim
fails.  First, a two-node graph with no edges at all: every pair scores
the sentinel `-2`, which never beats the `-1` the maximum tracker
starts from, so no pair is merged and both nodes survive the iteration
(the claim says one pair is always merged on a graph with two or more
nodes).  Second, the empty graph: `next(iter(self.nodes))` raises
`StopIteration` (modelled by `none`), so the call is not a no-op on
every graph with at most one node either. -/
theorem simplify_no_merge_cex :
    twoNodeExample.simplify_graph_one_iteration = some twoNodeExample
      ∧ twoNodeExample.nodes.length = 2
      ∧ compute_similarity twoNodeExample 0 1 = -2
      ∧ emptyGraphExample.simplify_graph_one_iteration = none
      ∧ emptyGraphExample.nodes.length = 0 := by
  refine ⟨by decide, rfl, by decide, rfl, rfl⟩

/-- Counterexample to claim C5 as stated: a pre-existing self-loop
`2 → 2` on a node untouched by `merge_nodes(0, 1)` survives the merge,
so the result is not self-loop free for every input graph. -/
theorem merge_selfloop_survives_cex :
    (selfLoopExample.merge_nodes 0 1).edgeValue 2 2 = some 1
      ∧ ¬ NoSelfLoops (selfLoopExample.merge_nodes 0 1) := by
  have h : (selfLoopExample.merge_nodes 0 1).edgeValue 2 2 = some 1 := by decide
  refine ⟨h, ?_⟩
  intro hns
  exact hns (2, 2, 1) (lookupEdge_some_mem _ 2 2 1 h) rfl

theorem combine_eq_some (x y : Option ℚ)
    (h : x.isSome = true ∨ y.isSome = true) :
    combine x y = some (x.getD 0 + y.getD 0) := by
  cases x <;> cases y
  · simp at h
  · simp [combine]
  · simp [combine]
  · simp [combine]

/-- A successful node lookup pins an actual entry of the list. -/
theorem lookupNode_some_mem (l : List (ℤ × NodeData)) (k : ℤ) (nd : NodeData)
    (h : lookupNode l k = some nd) : (k, nd) ∈ l := by
  induction l with
  | nil => cases h
  | cons p ps ih =>
      by_cases hp : p.1 = k
      · rw [lookupNode, if_pos hp] at h
        have : p = (k, nd) := by
          obtain ⟨p1, p2⟩ := p
          simp only at hp
          obtain ⟨h2⟩ := h
          rw [hp]
        rw [← this]
        exact List.mem_cons_self _ _
      · rw [lookupNode, if_neg hp] at h
        exact List.mem_cons_of_mem _ (ih h)

/-- Claim C3: for a well-formed graph containing distinct nodes `i` and
`j`, `merge_nodes(i, j)` removes exactly `i` and `j`, keeps every other
node untouched, and creates exactly one new node with identifier
`max(ids) + 1` whose value is the label-size-weighted average of the
two source values, whose label is `label_i ++ label_j`, and whose
bounds are the min/max across the two defaulted source bounds. -/
theorem merge_nodes_new_node (g : HariGraph) (i j : ℤ) (ndi ndj : NodeData)
    (hnkeys : (g.nodes.map Prod.fst).Nodup)
    (hekeys : (g.edges.map fun e => (e.1, e.2.1)).Nodup)
    (hclosed : EdgesClosed g)
    (hij : i ≠ j)
    (hi : g.getNode i = some ndi) (hj : g.getNode j = some ndj) :
    (g.merge_nodes i j).nodes
      = g.nodes.filter (fun p => decide (p.1 ≠ i ∧ p.1 ≠ j))
        ++ [(g.maxNodeId + 1, mergedNodeData g i j)]
    ∧ mergedNodeData g i j
      = ⟨(ndi.value * ((labelD i ndi).length : ℚ) + ndj.value * ((labelD j ndj).length : ℚ))
          / (((labelD i ndi).length : ℚ) + ((labelD j ndj).length : ℚ)),
        some (labelD i ndi ++ labelD j ndj),
        some (min (minValueD ndi) (minValueD ndj)),
        some (max (maxValueD ndi) (maxValueD ndj)),
        none⟩ := by
  have him : i ∈ g.nodeIds := by
    refine (lookupNode_isSome_iff g.nodes i).mp ?_
    rw [show lookupNode g.nodes i = some ndi from hi]
    rfl
  have hjm : j ∈ g.nodeIds := by
    refine (lookupNode_isSome_iff g.nodes j).mp ?_
    rw [show lookupNode g.nodes j = some ndj from hj]
    rfl
  refine ⟨(merge_nodes_spec g i j hnkeys hekeys hclosed him hjm hij).1, ?_⟩
  unfold mergedNodeData
  rw [show g.getNode i = some ndi from hi, show g.getNode j = some ndj from hj]
  rfl

/-- Witness for claim C3, the example of the specification: merging the
nodes `{0: 0.2, 1: 0.8}` (edge `0 → 1`, weight `0.5`) yields exactly
one node, with id `2`, value `0.5`, label `[0, 1]`, bounds `0.2` and
`0.8`. -/
theorem merge_nodes_new_node_witness :
    (mergeExample.merge_nodes 0 1).nodes
      = [(2, ⟨1/2, some [0, 1], some (1/5), some (4/5), none⟩)] := by
  have h := merge_nodes_new_node mergeExample 0 1
    ⟨1/5, some [0], none, none, none⟩ ⟨4/5, some [1], none, none, none⟩
    (by decide) (by decide) (by decide) (by decide) rfl rfl
  rw [h.1, h.2]
  have hfilter : mergeExample.nodes.filter (fun p => decide (p.1 ≠ 0 ∧ p.1 ≠ 1)) = [] := by
    decide
  have hmax : mergeExample.maxNodeId + 1 = 2 := by decide
  rw [hfilter, hmax]
  simp only [List.nil_append, List.cons.injEq, Prod.mk.injEq, NodeData.mk.injEq,
    Option.some.injEq, and_true, true_and]
  refine ⟨?_, ?_, ?_, ?_⟩
  · show ((1 : ℚ)/5 * ((List.length [(0 : ℤ)] : ℕ) : ℚ)
        + 4/5 * ((List.length [(1 : ℤ)] : ℕ) : ℚ))
        / (((List.length [(0 : ℤ)] : ℕ) : ℚ) + ((List.length [(1 : ℤ)] : ℕ) : ℚ)) = 1/2
    norm_num
  · rfl
  · show min (minValueD ⟨1/5, some [0], none, none, none⟩)
        (minValueD ⟨4/5, some [1], none, none, none⟩) = 1/5
    rw [show minValueD ⟨1/5, some [0], none, none, none⟩ = 1/5 from rfl,
      show minValueD ⟨4/5, some [1], none, none, none⟩ = 4/5 from rfl]
    rw [min_eq_left (by norm_num)]
  · show max (maxValueD ⟨1/5, some [0], none, none, none⟩)
        (maxValueD ⟨4/5, some [1], none, none, none⟩) = 4/5
    rw [show maxValueD ⟨1/5, some [0], none, none, none⟩ = 1/5 from rfl,
      show maxValueD ⟨4/5, some [1], none, none, none⟩ = 4/5 from rfl]
    rw [max_eq_right (by norm_num)]

/-- Claim C1 (amended): for `merge_nodes` the re-homed edges sum — when
`i` or `j` has an edge to the external node `k`, the merged node's edge
to `k` carries the sum of the existing weights, and symmetrically for
incoming edges.  (`merge_clusters` instead overwrites, keeping only the
weight of the last re-homed edge; see the counterexample.) -/
theorem merge_nodes_sums (g : HariGraph) (i j k : ℤ)
    (hnkeys : (g.nodes.map Prod.fst).Nodup)
    (hekeys : (g.edges.map fun e => (e.1, e.2.1)).Nodup)
    (hclosed : EdgesClosed g)
    (hi : i ∈ g.nodeIds) (hj : j ∈ g.nodeIds)
    (hij : i ≠ j) (hki : k ≠ i) (hkj : k ≠ j) :
    ((g.hasEdge i k = true ∨ g.hasEdge j k = true) →
      (g.merge_nodes i j).edgeValue (g.maxNodeId + 1) k
        = some ((g.edgeValue i k).getD 0 + (g.edgeValue j k).getD 0))
    ∧ ((g.hasEdge k i = true ∨ g.hasEdge k j = true) →
      (g.merge_nodes i j).edgeValue k (g.maxNodeId + 1)
        = some ((g.edgeValue k i).getD 0 + (g.edgeValue k j).getD 0)) := by
  have hspec := (merge_nodes_spec g i j hnkeys hekeys hclosed hi hj hij).2
  have hn_i : ¬ (g.maxNodeId + 1) = i := by
    have := mem_le_maxNodeId g i hi
    omega
  have hn_j : ¬ (g.maxNodeId + 1) = j := by
    have := mem_le_maxNodeId g j hj
    omega
  constructor
  · intro hex
    have hkn : ¬ k = g.maxNodeId + 1 := by
      rcases hex with hik | hjk
      · obtain ⟨w, hw⟩ := Option.isSome_iff_exists.mp hik
        have hm := lookupEdge_some_mem g.edges i k w hw
        have := mem_le_maxNodeId g k (hclosed _ hm).2
        omega
      · obtain ⟨w, hw⟩ := Option.isSome_iff_exists.mp hjk
        have hm := lookupEdge_some_mem g.edges j k w hw
        have := mem_le_maxNodeId g k (hclosed _ hm).2
        omega
    rw [hspec (g.maxNodeId + 1) k, if_neg ?_, if_pos rfl]
    · exact combine_eq_some _ _ hex
    · rintro (hc | hc | hc | hc)
      · exact hn_i hc
      · exact hn_j hc
      · exact hki hc
      · exact hkj hc
  · intro hex
    have hkn : ¬ k = g.maxNodeId + 1 := by
      rcases hex with hik | hjk
      · obtain ⟨w, hw⟩ := Option.isSome_iff_exists.mp hik
        have hm := lookupEdge_some_mem g.edges k i w hw
        have := mem_le_maxNodeId g k (hclosed _ hm).1
        omega
      · obtain ⟨w, hw⟩ := Option.isSome_iff_exists.mp hjk
        have hm := lookupEdge_some_mem g.edges k j w hw
        have := mem_le_maxNodeId g k (hclosed _ hm).1
        omega
    rw [hspec k (g.maxNodeId + 1), if_neg ?_, if_neg hkn, if_pos rfl]
    · exact combine_eq_some _ _ hex
    · rintro (hc | hc | hc | hc)
      · exact hki hc
      · exact hkj hc
      · exact hn_i hc
      · exact hn_j hc

/-- Witness for claim C1 (amended): on `overlapExample`, both edges
into `2` sum to `1 + 2 = 3` on the merged node's outgoing side, and
both edges out of `2` sum to `5 + 7 = 12` on its incoming side. -/
theorem merge_nodes_sums_witness :
    (overlapExample.merge_nodes 0 1).edgeValue 3 2 = some 3
      ∧ (overlapExample.merge_nodes 0 1).edgeValue 2 3 = some 12 := by
  have h := merge_nodes_sums overlapExample 0 1 2
    (by decide) (by decide) (by decide) (by decide) (by decide)
    (by decide) (by decide) (by decide)
  have h1 := h.1 (Or.inl (by decide))
  have h2 := h.2 (Or.inl (by decide))
  have hmax : overlapExample.maxNodeId + 1 = 3 := by decide
  rw [hmax] at h1 h2
  have hv1 : (overlapExample.edgeValue 0 2).getD 0 + (overlapExample.edgeValue 1 2).getD 0
      = 3 := by
    rw [show overlapExample.edgeValue 0 2 = some 1 from by decide,
      show overlapExample.edgeValue 1 2 = some 2 from by decide]
    norm_num
  have hv2 : (overlapExample.edgeValue 2 0).getD 0 + (overlapExample.edgeValue 2 1).getD 0
      = 12 := by
    rw [show overlapExample.edgeValue 2 0 = some 5 from by decide,
      show overlapExample.edgeValue 2 1 = some 7 from by decide]
    norm_num
  rw [hv1] at h1
  rw [hv2] at h2
  exact ⟨h1, h2⟩

theorem assocLookup_eq_none_iff (l : List (ℤ × ℤ)) (k : ℤ) :
    assocLookup l k = none ↔ k ∉ l.map Prod.fst := by
  induction l with
  | nil => simp [assocLookup]
  | cons p ps ih =>
      by_cases hp : p.1 = k
      · simp [assocLookup, hp]
      · simp only [assocLookup, if_neg hp, List.map_cons, List.mem_cons, ih]
        constructor
        · intro h hc
          rcases hc with hc | hc
          · exact hp hc.symm
          · exact h hc
        · intro h hc
          exact h (Or.inr hc)

theorem assocSet_not_mem (l : List (ℤ × ℤ)) (k v : ℤ)
    (hk : k ∉ l.map Prod.fst) : assocSet l k v = l ++ [(k, v)] := by
  induction l with
  | nil => rfl
  | cons p ps ih =>
      have hp : p.1 ≠ k := by
        intro hcon
        exact hk (by simp [hcon])
      simp only [assocSet, if_neg hp, List.cons_append, List.cons.injEq, true_and]
      exact ih (fun hmem => hk (by simp [hmem]))

/-- A successful run of the per-cluster validation loop certifies that
every id is a present, previously unassigned node, and extends the
mapping domain by exactly the cluster. -/
theorem clusterAssign_ok_valid (g : HariGraph) :
    ∀ (c : List ℤ) (nid : ℤ) (acc acc2 : List (ℤ × ℤ)),
    clusterAssign g c nid acc = .ok acc2 →
    (∀ x ∈ c, x ∈ g.nodeIds) ∧ c.Nodup ∧ (∀ x ∈ c, x ∉ acc.map Prod.fst)
      ∧ acc2.map Prod.fst = acc.map Prod.fst ++ c := by
  intro c
  induction c with
  | nil =>
      intro nid acc acc2 h
      obtain ⟨h2⟩ := h
      simp
  | cons x xs ih =>
      intro nid acc acc2 h
      rw [clusterAssign] at h
      by_cases hcond : x ∈ g.nodeIds ∧ assocLookup acc x = none
      · rw [if_pos hcond] at h
        have hkeys : (assocSet acc x nid).map Prod.fst = acc.map Prod.fst ++ [x] := by
          rw [assocSet_not_mem acc x nid ((assocLookup_eq_none_iff acc x).mp hcond.2),
            List.map_append]
          rfl
        obtain ⟨hmem, hnd, hdisj, hdom⟩ := ih nid (assocSet acc x nid) acc2 h
        rw [hkeys] at hdisj hdom
        refine ⟨?_, ?_, ?_, ?_⟩
        · intro y hy
          rcases List.mem_cons.mp hy with rfl | hy2
          · exact hcond.1
          · exact hmem y hy2
        · refine List.nodup_cons.mpr ⟨?_, hnd⟩
          intro hx
          exact hdisj x hx (List.mem_append_right _ (by simp))
        · intro y hy
          rcases List.mem_cons.mp hy with rfl | hy2
          · exact (assocLookup_eq_none_iff acc y).mp hcond.2
          · intro hmem2
            exact hdisj y hy2 (List.mem_append_left _ hmem2)
        · rw [hdom, List.append_assoc]
          rfl
      · rw [if_neg hcond] at h
        cases h

/-- A successful run of the whole list-branch validation certifies the
partition: all ids present, none duplicated. -/
theorem listIdMapping_ok_valid (g : HariGraph) :
    ∀ (cs : List (List ℤ)) (nid : ℤ) (acc acc2 : List (ℤ × ℤ)),
    listIdMapping g cs nid acc = .ok acc2 →
    (∀ c ∈ cs, ∀ x ∈ c, x ∈ g.nodeIds) ∧ cs.flatten.Nodup
      ∧ (∀ x ∈ cs.flatten, x ∉ acc.map Prod.fst)
      ∧ acc2.map Prod.fst = acc.map Prod.fst ++ cs.flatten := by
  intro cs
  induction cs with
  | nil =>
      intro nid acc acc2 h
      obtain ⟨h2⟩ := h
      simp
  | cons c cs ih =>
      intro nid acc acc2 h
      rw [listIdMapping] at h
      cases hca : clusterAssign g c nid acc with
      | error e => rw [hca] at h; cases h
      | ok accMid =>
          rw [hca] at h
          obtain ⟨hmem1, hnd1, hdisj1, hdom1⟩ := clusterAssign_ok_valid g c nid acc accMid hca
          obtain ⟨hmem2, hnd2, hdisj2, hdom2⟩ := ih (nid + 1) accMid acc2 h
          rw [hdom1] at hdisj2 hdom2
          refine ⟨?_, ?_, ?_, ?_⟩
          · intro c2 hc2
            rcases List.mem_cons.mp hc2 with rfl | hc3
            · exact hmem1
            · exact hmem2 c2 hc3
          · rw [List.flatten_cons]
            refine List.Nodup.append hnd1 hnd2 ?_
            intro y hy1 hy2
            exact hdisj2 y hy2 (List.mem_append_right _ hy1)
          · intro y hy
            rw [List.flatten_cons] at hy
            rcases List.mem_append.mp hy with hy1 | hy2
            · exact hdisj1 y hy1
            · intro hmem3
              exact hdisj2 y hy2 (List.mem_append_left _ hmem3)
          · rw [hdom2, List.flatten_cons, List.append_assoc]

/-- Claim C4 (amended): the list form of `merge_clusters` is validated
— a list partition that references a missing node id or references some
id more than once fails with the validation error before any mutation
of the graph (the error state carries the unchanged input graph). -/
theorem merge_clusters_list_validation (g : HariGraph) (cs : List (List ℤ))
    (hbad : ¬ ListPartitionValid g cs) :
    g.merge_clusters (.clist cs) = .error (.assertionError, g) := by
  have hred : g.merge_clusters (.clist cs)
      = (match listIdMapping g cs (g.maxNodeId + 1) [] with
        | .error _ => .error (.assertionError, g)
        | .ok im =>
            match createClusterNodes im g cs with
            | .error e => .error e
            | .ok h => .ok (reassignEdges h im im)) := rfl
  rw [hred]
  cases him : listIdMapping g cs (g.maxNodeId + 1) [] with
  | error e => rfl
  | ok im =>
      exfalso
      obtain ⟨hmem, hnd, _, _⟩ := listIdMapping_ok_valid g cs (g.maxNodeId + 1) [] im him
      exact hbad ⟨hmem, hnd⟩

/-- Witness for claim C4 (amended): the list partition `[[0], [0]]`
references node `0` twice, and the call fails with the validation error
carrying the untouched graph. -/
theorem merge_clusters_list_validation_witness :
    twoNodeExample.merge_clusters (.clist [[0], [0]]) = .error (.assertionError, twoNodeExample) :=
  merge_clusters_list_validation twoNodeExample [[0], [0]] (by decide)

/-- Counterexample to claim C1 as stated: `merge_clusters([{0, 1}])` on
`overwriteExample` re-homes the edges `0 → 2` (weight 1) and `1 → 2`
(weight 2) onto the new node `3` through plain `add_edge`, so the
second assignment overwrites the first: the resulting edge `3 → 2`
carries `2`, not the sum `3`. -/
theorem merge_clusters_overwrite_cex :
    (overwriteExample.merge_clusters (.clist [[0, 1]])).map (fun h => h.edgeValue 3 2)
      = .ok (some 2)
      ∧ (overwriteExample.edgeValue 0 2).getD 0 + (overwriteExample.edgeValue 1 2).getD 0
        = 3
      ∧ (2 : ℚ) ≠ 3 := by
  refine ⟨?_, ?_, by norm_num⟩
  · norm_num [HariGraph.merge_clusters, listIdMapping, clusterAssign, assocSet, assocLookup,
      createClusterNodes, aggregateCluster, reassignEdges, overwriteExample,
      HariGraph.maxNodeId, HariGraph.getNode, lookupNode, labelD, minValueD, maxValueD,
      minAcc, maxAcc, HariGraph.add_node, setNode, HariGraph.add_edge, lookupEdge, setEdge,
      HariGraph.successors, HariGraph.predecessors, HariGraph.remove_node,
      HariGraph.edgeValue, HariGraph.nodeIds, Except.map]
  · rw [show overwriteExample.edgeValue 0 2 = some 1 from by decide,
      show overwriteExample.edgeValue 1 2 = some 2 from by decide]
    norm_num

/-- Counterexample to claim C4 as stated: the dict-form partition
`{10: {0}, 11: {0}}` references node `0` twice across the partition,
yet `merge_clusters` raises no error — the first assignment is silently
overwritten and the call returns normally. -/
theorem merge_clusters_dict_no_validation_cex :
    (twoNodeExample.merge_clusters (.cdict [(10, [0]), (11, [0])])).map HariGraph.nodeIds
      = .ok [1, 11]
      ∧ (([(10, [(0 : ℤ)]), (11, [0])].map Prod.snd).flatten = [0, 0]) := by
  refine ⟨?_, rfl⟩
  norm_num [HariGraph.merge_clusters, dictIdMapping, dictClustersList, assocSet, assocLookup,
    createClusterNodes, aggregateCluster, reassignEdges, twoNodeExample,
    HariGraph.getNode, lookupNode, labelD, minValueD, maxValueD,
    minAcc, maxAcc, HariGraph.add_node, setNode, HariGraph.add_edge, lookupEdge, setEdge,
    HariGraph.successors, HariGraph.predecessors, HariGraph.remove_node,
    HariGraph.edgeValue, HariGraph.nodeIds, Except.map, List.dedup]

/-- Witness for claim C2 (amended), exercising both halves: the
labelled one-node graph is returned unchanged, and on the edgeless
two-node graph every pair scores the sentinel `-2 ≤ -1`, so the
iteration merges nothing and returns the graph unchanged. -/
theorem simplify_one_iteration_spec_witness :
    (singleNodeExample.nodes.length ≤ 1
      ∧ singleNodeExample.simplify_graph_one_iteration = some singleNodeExample)
    ∧ (2 ≤ twoNodeExample.nodes.length
      ∧ twoNodeExample.simplify_graph_one_iteration = some twoNodeExample) :=
  ⟨⟨by decide,
      (simplify_one_iteration_spec singleNodeExample (0, ⟨0, some [0], none, none, none⟩)
        [] rfl rfl).1 (by decide)⟩,
    ⟨by decide,
      ((simplify_one_iteration_spec twoNodeExample (0, ⟨0, some [0], none, none, none⟩)
        [(1, ⟨1, some [1], none, none, none⟩)] rfl rfl).2 (by decide)).1 (by decide)⟩⟩

/-- Membership of an edge pins a successful lookup at its endpoint
pair. -/
theorem lookupEdge_isSome_of_mem (l : List Edge) (e : Edge) (he : e ∈ l) :
    (lookupEdge l e.1 e.2.1).isSome = true := by
  induction l with
  | nil => cases he
  | cons f fs ih =>
      by_cases hf : f.1 = e.1 ∧ f.2.1 = e.2.1
      · rw [lookupEdge_cons_eq f fs e.1 e.2.1 hf]; rfl
      · rcases List.mem_cons.mp he with rfl | hmem
        · exact absurd ⟨rfl, rfl⟩ hf
        · rw [lookupEdge_cons_ne f fs e.1 e.2.1 hf]; exact ih hmem

/-- Every member of an overwritten edge list is an old edge or the
written edge. -/
theorem mem_setEdge (l : List Edge) (u v : ℤ) (w : ℚ) (e : Edge)
    (he : e ∈ setEdge l u v w) : e ∈ l ∨ e = (u, v, w) := by
  induction l with
  | nil =>
      simp only [setEdge, List.mem_singleton] at he
      exact Or.inr he
  | cons f fs ih =>
      by_cases hf : f.1 = u ∧ f.2.1 = v
      · rw [show setEdge (f :: fs) u v w = (u, v, w) :: fs from by
          simp only [setEdge, if_pos hf]] at he
        rcases List.mem_cons.mp he with heq | hmem
        · exact Or.inr heq
        · exact Or.inl (List.mem_cons_of_mem _ hmem)
      · rw [show setEdge (f :: fs) u v w = f :: setEdge fs u v w from by
          simp only [setEdge, if_neg hf]] at he
        rcases List.mem_cons.mp he with heq | hmem
        · exact Or.inl (heq ▸ List.mem_cons_self _ _)
        · rcases ih hmem with h1 | h2
          · exact Or.inl (List.mem_cons_of_mem _ h1)
          · exact Or.inr h2

/-- Every edge of the graph after `add_edge` is an old edge or the added
edge. -/
theorem add_edge_edges_mem (g : HariGraph) (u v : ℤ) (w : ℚ) (e : Edge)
    (he : e ∈ (g.add_edge u v w).edges) : e ∈ g.edges ∨ e = (u, v, w) := by
  have hsplit : (g.add_edge u v w).edges
      = if (lookupEdge g.edges u v).isSome = true then setEdge g.edges u v w
        else g.edges ++ [(u, v, w)] := rfl
  rw [hsplit] at he
  by_cases hx : (lookupEdge g.edges u v).isSome = true
  · rw [if_pos hx] at he
    exact mem_setEdge g.edges u v w e he
  · rw [if_neg hx] at he
    rcases List.mem_append.mp he with h1 | h2
    · exact Or.inl h1
    · exact Or.inr (List.mem_singleton.mp h2)

/-- Adding a non-loop edge preserves the absence of self-loops. -/
theorem noselfloops_add_edge (g : HariGraph) (u v : ℤ) (w : ℚ)
    (hns : NoSelfLoops g) (huv : u ≠ v) : NoSelfLoops (g.add_edge u v w) := by
  intro e he
  rcases add_edge_edges_mem g u v w e he with h1 | h2
  · exact hns e h1
  · rw [h2]; exact huv

/-- Removing a node preserves the absence of self-loops. -/
theorem noselfloops_remove_node (g : HariGraph) (x : ℤ)
    (hns : NoSelfLoops g) : NoSelfLoops (g.remove_node x) := by
  intro e he
  have he2 : e ∈ g.edges.filter (fun e => decide (e.1 ≠ x ∧ e.2.1 ≠ x)) := he
  exact hns e (List.mem_of_mem_filter he2)

/-- The node-creation loop of `merge_clusters` never touches the edge
list. -/
theorem createClusterNodes_edges (im : List (ℤ × ℤ)) :
    ∀ (cs : List (List ℤ)) (h h' : HariGraph),
    createClusterNodes im h cs = .ok h' → h'.edges = h.edges := by
  intro cs
  induction cs with
  | nil =>
      intro h h' hok
      cases hok
      rfl
  | cons c cs2 ih =>
      intro h h' hok
      cases c with
      | nil => cases hok
      | cons c0 cr =>
          simp only [createClusterNodes] at hok
          cases hlk : assocLookup im c0 with
          | none => rw [hlk] at hok; cases hok
          | some nid =>
              rw [hlk] at hok
              cases hag : aggregateCluster h (c0 :: cr) ⟨[], 0, 0, 0, none, none⟩ with
              | error e => rw [hag] at hok; cases hok
              | ok acc =>
                  rw [hag] at hok
                  have hok3 : createClusterNodes im
                      (h.add_node nid
                        ⟨if acc.total_weight > 0 then acc.total_value / acc.total_weight else 0,
                          some acc.labels, some (acc.min_v.getD 0), some (acc.max_v.getD 0),
                          some acc.importance⟩) cs2 = .ok h' := hok
                  exact (ih _ h' hok3).trans rfl

/-- The edge-reassignment loop of `merge_clusters` preserves the absence
of self-loops: every `add_edge` it performs is guarded against the
self-loop case. -/
theorem noselfloops_reassignEdges (im : List (ℤ × ℤ)) :
    ∀ (items : List (ℤ × ℤ)) (h : HariGraph),
    NoSelfLoops h → NoSelfLoops (reassignEdges h im items) := by
  intro items
  induction items with
  | nil => intro h hns; exact hns
  | cons item rest ih =>
      intro h hns
      obtain ⟨old, nid⟩ := item
      refine ih _ ?_
      refine noselfloops_remove_node _ old ?_
      refine foldl_preserve NoSelfLoops _ _ _ ?_ ?_
      · intro a b _ ha
        by_cases hc : (assocLookup im b).getD b ≠ nid
        · rw [if_pos hc]
          exact noselfloops_add_edge a _ nid _ ha hc
        · rw [if_neg hc]; exact ha
      · refine foldl_preserve NoSelfLoops _ _ _ ?_ hns
        intro a b _ ha
        by_cases hc : (assocLookup im b).getD b ≠ nid
        · rw [if_pos hc]
          exact noselfloops_add_edge a nid _ _ ha (fun heq => hc heq.symm)
        · rw [if_neg hc]; exact ha

/-- A normally-returning `merge_clusters` preserves the absence of
self-loops (both argument forms). -/
theorem noselfloops_merge_clusters (g g' : HariGraph) (cs : ClustersArg)
    (hok : g.merge_clusters cs = .ok g') (hns : NoSelfLoops g) : NoSelfLoops g' := by
  cases cs with
  | cdict m =>
      have hred : g.merge_clusters (.cdict m)
          = (match createClusterNodes (dictIdMapping m) g (dictClustersList (dictIdMapping m)) with
            | .error e => .error e
            | .ok h => .ok (reassignEdges h (dictIdMapping m) (dictIdMapping m))) := rfl
      rw [hred] at hok
      cases hcc : createClusterNodes (dictIdMapping m) g (dictClustersList (dictIdMapping m)) with
      | error e => rw [hcc] at hok; cases hok
      | ok h =>
          rw [hcc] at hok
          injection hok with hh
          rw [← hh]
          refine noselfloops_reassignEdges _ _ h ?_
          intro e he
          have he2 : e ∈ g.edges := by
            rw [← createClusterNodes_edges (dictIdMapping m) _ g h hcc]
            exact he
          exact hns e he2
  | clist cs =>
      have hred : g.merge_clusters (.clist cs)
          = (match listIdMapping g cs (g.maxNodeId + 1) [] with
            | .error _ => .error (.assertionError, g)
            | .ok im =>
                match createClusterNodes im g cs with
                | .error e => .error e
                | .ok h => .ok (reassignEdges h im im)) := rfl
      rw [hred] at hok
      cases him : listIdMapping g cs (g.maxNodeId + 1) [] with
      | error e => rw [him] at hok; cases hok
      | ok im =>
          rw [him] at hok
          have hok2 : (match createClusterNodes im g cs with
              | Except.error e => (Except.error e : Except (MergeError × HariGraph) HariGraph)
              | Except.ok h => Except.ok (reassignEdges h im im)) = Except.ok g' := hok
          cases hcc : createClusterNodes im g cs with
          | error e => rw [hcc] at hok2; cases hok2
          | ok h =>
              rw [hcc] at hok2
              injection hok2 with hh
              rw [← hh]
              refine noselfloops_reassignEdges im im h ?_
              intro e he
              have he2 : e ∈ g.edges := by
                rw [← createClusterNodes_edges im cs g h hcc]
                exact he
              exact hns e he2

/-- A normally-returning `merge_by_intervals` preserves the absence of
self-loops: it delegates to `merge_clusters` or returns the graph
unchanged. -/
theorem noselfloops_merge_by_intervals (g g' : HariGraph) (ivs : List ℚ)
    (hok : g.merge_by_intervals ivs = .ok g') (hns : NoSelfLoops g) : NoSelfLoops g' := by
  unfold HariGraph.merge_by_intervals at hok
  by_cases h1 : ¬ (∀ v ∈ ivs, 0 ≤ v ∧ v ≤ 1)
  · rw [if_pos h1] at hok; cases hok
  · rw [if_neg h1] at hok
    by_cases h2 : ivs = []
    · rw [if_pos h2] at hok; cases hok
    · rw [if_neg h2] at hok
      by_cases h3 : (((0 :: (ivs.insertionSort (· ≤ ·) ++ [1])).zip
            (0 :: (ivs.insertionSort (· ≤ ·) ++ [1])).tail).map (fun lu =>
            (g.nodes.filter (fun p =>
              decide (lu.1 ≤ p.2.value ∧ p.2.value < lu.2))).map Prod.fst)).filter
          (fun c => decide (c ≠ [])) ≠ []
      · rw [if_pos h3] at hok
        exact noselfloops_merge_clusters g g' _ hok hns
      · rw [if_neg h3] at hok
        injection hok with hh
        rw [← hh]
        exact hns

/-- `merge_nodes` on a well-formed self-loop-free graph yields a
self-loop-free graph: edges incident to the merged pair are removed or
redirected to the fresh node, and no edge touches the fresh node in both
endpoints. -/
theorem noselfloops_merge_nodes (g : HariGraph) (i j : ℤ)
    (hnkeys : (g.nodes.map Prod.fst).Nodup)
    (hekeys : (g.edges.map fun e => (e.1, e.2.1)).Nodup)
    (hclosed : EdgesClosed g)
    (hi : i ∈ g.nodeIds) (hj : j ∈ g.nodeIds) (hij : i ≠ j)
    (hns : NoSelfLoops g) : NoSelfLoops (g.merge_nodes i j) := by
  have hspec := (merge_nodes_spec g i j hnkeys hekeys hclosed hi hj hij).2
  intro e he hself
  have hsome : ((g.merge_nodes i j).edgeValue e.1 e.2.1).isSome = true :=
    lookupEdge_isSome_of_mem _ e he
  rw [hspec e.1 e.2.1] at hsome
  have hn : g.maxNodeId + 1 ∉ g.nodeIds := fun hmem => by
    have := mem_le_maxNodeId g _ hmem; omega
  by_cases h1 : e.1 = i ∨ e.1 = j ∨ e.2.1 = i ∨ e.2.1 = j
  · rw [if_pos h1] at hsome; cases hsome
  · rw [if_neg h1] at hsome
    by_cases h2 : e.1 = g.maxNodeId + 1
    · rw [if_pos h2] at hsome
      have hv1 : g.edgeValue i e.2.1 = none := by
        cases hv : g.edgeValue i e.2.1 with
        | none => rfl
        | some w =>
            exfalso
            have hm := lookupEdge_some_mem g.edges i e.2.1 w hv
            have ht := (hclosed _ hm).2
            rw [← hself, h2] at ht
            exact hn ht
      have hv2 : g.edgeValue j e.2.1 = none := by
        cases hv : g.edgeValue j e.2.1 with
        | none => rfl
        | some w =>
            exfalso
            have hm := lookupEdge_some_mem g.edges j e.2.1 w hv
            have ht := (hclosed _ hm).2
            rw [← hself, h2] at ht
            exact hn ht
      rw [hv1, hv2] at hsome
      simp [combine] at hsome
    · rw [if_neg h2] at hsome
      by_cases h3 : e.2.1 = g.maxNodeId + 1
      · exact absurd (hself.trans h3) h2
      · rw [if_neg h3] at hsome
        cases hv : g.edgeValue e.1 e.2.1 with
        | none => rw [hv] at hsome; cases hsome
        | some w =>
            have hm := lookupEdge_some_mem g.edges e.1 e.2.1 w hv
            exact hns (e.1, e.2.1, w) hm hself

/-- Claim C5 (amended): on a graph without self-loops, every merge
operation — a pairwise `merge_nodes` on a well-formed graph, a
normally-returning `merge_clusters`, and a normally-returning
`merge_by_intervals` — again yields a graph without self-loops. -/
theorem merges_preserve_no_selfloops (g : HariGraph) (hns : NoSelfLoops g) :
    (∀ i j, (g.nodes.map Prod.fst).Nodup →
        (g.edges.map fun e => (e.1, e.2.1)).Nodup → EdgesClosed g →
        i ∈ g.nodeIds → j ∈ g.nodeIds → i ≠ j →
        NoSelfLoops (g.merge_nodes i j))
      ∧ (∀ cs g', g.merge_clusters cs = .ok g' → NoSelfLoops g')
      ∧ (∀ ivs g', g.merge_by_intervals ivs = .ok g' → NoSelfLoops g') :=
  ⟨fun i j h1 h2 h3 h4 h5 h6 => noselfloops_merge_nodes g i j h1 h2 h3 h4 h5 h6 hns,
    fun cs g' hok => noselfloops_merge_clusters g g' cs hok hns,
    fun ivs g' hok => noselfloops_merge_by_intervals g g' ivs hok hns⟩

/-- Witness for claim C5 (amended): merging `0` and `1` of the
self-loop-free three-node example yields a self-loop-free graph. -/
theorem merges_preserve_no_selfloops_witness :
    NoSelfLoops (overlapExample.merge_nodes 0 1) :=
  (merges_preserve_no_selfloops overlapExample (by decide)).1 0 1
    (by decide) (by decide) (by decide) (by decide) (by decide) (by decide)

/-- The attribute-less auto-created node is well-formed: its value `0`
equals its defaulted bounds and its defaulted label `[k]` is nonempty. -/
theorem goodNode_autoNode (k : ℤ) : GoodNode k autoNode := by
  simp [GoodNode, autoNode, minValueD, maxValueD, labelD]

/-- Every member of an overwritten node list is an old record or the
written record. -/
theorem mem_setNode (l : List (ℤ × NodeData)) (k : ℤ) (nd : NodeData) (p : ℤ × NodeData)
    (hp : p ∈ setNode l k nd) : p ∈ l ∨ p = (k, nd) := by
  induction l with
  | nil =>
      simp only [setNode, List.mem_singleton] at hp
      exact Or.inr hp
  | cons q qs ih =>
      by_cases hq : q.1 = k
      · rw [show setNode (q :: qs) k nd = (k, nd) :: qs from by
          simp only [setNode, if_pos hq]] at hp
        rcases List.mem_cons.mp hp with heq | hmem
        · exact Or.inr heq
        · exact Or.inl (List.mem_cons_of_mem _ hmem)
      · rw [show setNode (q :: qs) k nd = q :: setNode qs k nd from by
          simp only [setNode, if_neg hq]] at hp
        rcases List.mem_cons.mp hp with heq | hmem
        · exact Or.inl (heq ▸ List.mem_cons_self _ _)
        · rcases ih hmem with h1 | h2
          · exact Or.inl (List.mem_cons_of_mem _ h1)
          · exact Or.inr h2

/-- `add_node` with a well-formed record preserves node
well-formedness. -/
theorem nodesOK_add_node (g : HariGraph) (k : ℤ) (nd : NodeData)
    (hok : NodesOK g) (hnd : GoodNode k nd) : NodesOK (g.add_node k nd) := by
  intro p hp
  have hp2 : p ∈ setNode g.nodes k nd := hp
  rcases mem_setNode g.nodes k nd p hp2 with h1 | h2
  · exact hok p h1
  · rw [h2]; exact hnd

/-- Every node record after `add_edge` is an old record or an
auto-created endpoint record. -/
theorem add_edge_nodes_mem (g : HariGraph) (u v : ℤ) (w : ℚ) (p : ℤ × NodeData)
    (hp : p ∈ (g.add_edge u v w).nodes) :
    p ∈ g.nodes ∨ p = (u, autoNode) ∨ p = (v, autoNode) := by
  have key : ∀ (ns : List (ℤ × NodeData)) (x : ℤ),
      p ∈ (if (lookupNode ns x).isSome = true then ns else ns ++ [(x, autoNode)]) →
      p ∈ ns ∨ p = (x, autoNode) := by
    intro ns x hmem
    by_cases hx : (lookupNode ns x).isSome = true
    · rw [if_pos hx] at hmem; exact Or.inl hmem
    · rw [if_neg hx] at hmem
      rcases List.mem_append.mp hmem with hm | hm
      · exact Or.inl hm
      · exact Or.inr (List.mem_singleton.mp hm)
  rcases key _ v hp with hm | hm
  · rcases key g.nodes u hm with hm2 | hm2
    · exact Or.inl hm2
    · exact Or.inr (Or.inl hm2)
  · exact Or.inr (Or.inr hm)

/-- `add_edge` preserves node well-formedness (auto-created endpoints
are well-formed). -/
theorem nodesOK_add_edge (g : HariGraph) (u v : ℤ) (w : ℚ)
    (hok : NodesOK g) : NodesOK (g.add_edge u v w) := by
  intro p hp
  rcases add_edge_nodes_mem g u v w p hp with h1 | h2 | h3
  · exact hok p h1
  · rw [h2]; exact goodNode_autoNode u
  · rw [h3]; exact goodNode_autoNode v

/-- `remove_node` preserves node well-formedness. -/
theorem nodesOK_remove_node (g : HariGraph) (x : ℤ)
    (hok : NodesOK g) : NodesOK (g.remove_node x) := by
  intro p hp
  have hp2 : p ∈ g.nodes.filter (fun q => decide (q.1 ≠ x)) := hp
  exact hok p (List.mem_of_mem_filter hp2)

/-- `updateEdge` preserves node well-formedness (nodes untouched). -/
theorem nodesOK_updateEdge (g : HariGraph) (u v : ℤ) (w : ℚ)
    (hok : NodesOK g) : NodesOK (g.updateEdge u v w) := by
  intro p hp
  rw [updateEdge_nodes] at hp
  exact hok p hp

/-- `remove_edge` preserves node well-formedness (nodes untouched). -/
theorem nodesOK_remove_edge (g : HariGraph) (u v : ℤ)
    (hok : NodesOK g) : NodesOK (g.remove_edge u v) := by
  intro p hp
  rw [remove_edge_nodes] at hp
  exact hok p hp

/-- A weighted average with weights at least `1` stays between common
bounds of the two values. -/
theorem weighted_avg_bounds (v1 v2 m M w1 w2 : ℚ) (h1 : m ≤ v1) (h2 : m ≤ v2)
    (h3 : v1 ≤ M) (h4 : v2 ≤ M) (hw1 : 1 ≤ w1) (hw2 : 1 ≤ w2) :
    m ≤ (v1 * w1 + v2 * w2) / (w1 + w2) ∧ (v1 * w1 + v2 * w2) / (w1 + w2) ≤ M := by
  have hw : (0 : ℚ) < w1 + w2 := by linarith
  constructor
  · rw [le_div_iff₀ hw]
    nlinarith [mul_le_mul_of_nonneg_right h1 (by linarith : (0:ℚ) ≤ w1),
      mul_le_mul_of_nonneg_right h2 (by linarith : (0:ℚ) ≤ w2)]
  · rw [div_le_iff₀ hw]
    nlinarith [mul_le_mul_of_nonneg_right h3 (by linarith : (0:ℚ) ≤ w1),
      mul_le_mul_of_nonneg_right h4 (by linarith : (0:ℚ) ≤ w2)]

/-- A nonempty label has rational length at least `1`. -/
theorem one_le_len_q (l : List ℤ) (h : l ≠ []) : (1 : ℚ) ≤ (l.length : ℚ) := by
  have h1 : 0 < l.length := List.length_pos.mpr h
  exact Nat.one_le_cast.mpr h1

/-- The merged record of `merge_nodes` is well-formed when both source
nodes are. -/
theorem goodNode_mergedNodeData (g : HariGraph) (i j n : ℤ) (ndi ndj : NodeData)
    (hi : g.getNode i = some ndi) (hj : g.getNode j = some ndj)
    (hgi : GoodNode i ndi) (hgj : GoodNode j ndj) :
    GoodNode n (mergedNodeData g i j) := by
  have hform : mergedNodeData g i j
      = ⟨(ndi.value * ((labelD i ndi).length : ℚ) + ndj.value * ((labelD j ndj).length : ℚ))
          / (((labelD i ndi).length : ℚ) + ((labelD j ndj).length : ℚ)),
        some (labelD i ndi ++ labelD j ndj),
        some (min (minValueD ndi) (minValueD ndj)),
        some (max (maxValueD ndi) (maxValueD ndj)),
        none⟩ := by
    unfold mergedNodeData
    rw [hi, hj]
    rfl
  rw [hform]
  have hw1 : (1:ℚ) ≤ ((labelD i ndi).length : ℚ) := one_le_len_q _ hgi.2
  have hw2 : (1:ℚ) ≤ ((labelD j ndj).length : ℚ) := one_le_len_q _ hgj.2
  have hb := weighted_avg_bounds ndi.value ndj.value
    (min (minValueD ndi) (minValueD ndj)) (max (maxValueD ndi) (maxValueD ndj))
    ((labelD i ndi).length : ℚ) ((labelD j ndj).length : ℚ)
    (le_trans (min_le_left _ _) hgi.1.1) (le_trans (min_le_right _ _) hgj.1.1)
    (le_trans hgi.1.2 (le_max_left _ _)) (le_trans hgj.1.2 (le_max_right _ _))
    hw1 hw2
  refine ⟨⟨hb.1, hb.2⟩, ?_⟩
  intro hcon
  have hc2 : labelD i ndi ++ labelD j ndj = [] := hcon
  exact hgi.2 (List.append_eq_nil.mp hc2).1

/-- Node well-formedness distributes over a branch. -/
theorem nodesOK_ite (c : Prop) [inst : Decidable c] (a b : HariGraph)
    (ha : NodesOK a) (hb : NodesOK b) : NodesOK (if c then a else b) := by
  split
  · exact ha
  · exact hb

/-- One step of the `merge_nodes` reconnection loop preserves node
well-formedness. -/
theorem nodesOK_mergeStep (i j n : ℤ) (h : HariGraph) (e : Edge) (hok : NodesOK h) :
    NodesOK (mergeStep i j n h e) := by
  simp only [mergeStep]
  repeat' first
    | exact hok
    | apply nodesOK_ite
    | apply nodesOK_remove_edge
    | apply nodesOK_updateEdge
    | apply nodesOK_add_edge

/-- `merge_nodes` on two present nodes preserves node
well-formedness. -/
theorem nodesOK_merge_nodes (g : HariGraph) (i j : ℤ)
    (hi : i ∈ g.nodeIds) (hj : j ∈ g.nodeIds)
    (hok : NodesOK g) : NodesOK (g.merge_nodes i j) := by
  obtain ⟨ndi, hndi⟩ := Option.isSome_iff_exists.mp ((lookupNode_isSome_iff g.nodes i).mpr hi)
  obtain ⟨ndj, hndj⟩ := Option.isSome_iff_exists.mp ((lookupNode_isSome_iff g.nodes j).mpr hj)
  have hgi : GoodNode i ndi := hok (i, ndi) (lookupNode_some_mem g.nodes i ndi hndi)
  have hgj : GoodNode j ndj := hok (j, ndj) (lookupNode_some_mem g.nodes j ndj hndj)
  refine nodesOK_remove_node _ j ?_
  refine nodesOK_remove_node _ i ?_
  refine foldl_preserve NodesOK _ _ _ ?_ ?_
  · intro a b _ ha
    exact nodesOK_mergeStep i j _ a b ha
  · refine nodesOK_add_node g _ _ hok ?_
    exact goodNode_mergedNodeData g i j _ ndi ndj hndi hndj hgi hgj

/-- The aggregation loop of `merge_clusters` preserves the accumulator
invariant on a graph of well-formed nodes. -/
theorem aggregateCluster_inv (h : HariGraph) (hok : NodesOK h) :
    ∀ (c : List ℤ) (acc acc2 : ClusterAcc),
    aggregateCluster h c acc = .ok acc2 → AccInv acc → AccInv acc2 := by
  intro c
  induction c with
  | nil =>
      intro acc acc2 hagg hinv
      cases hagg
      exact hinv
  | cons x xs ih =>
      intro acc acc2 hagg hinv
      cases hnx : h.getNode x with
      | none =>
          simp only [aggregateCluster, hnx] at hagg
          cases hagg
      | some ndx =>
          simp only [aggregateCluster, hnx] at hagg
          refine ih _ acc2 hagg ?_
          have hgx : GoodNode x ndx := hok (x, ndx) (lookupNode_some_mem h.nodes x ndx hnx)
          have hw1 : (1:ℚ) ≤ ((labelD x ndx).length : ℚ) := one_le_len_q _ hgx.2
          have hw0 : (0:ℚ) ≤ ((labelD x ndx).length : ℚ) := by linarith
          have hvb1 : minValueD ndx ≤ ndx.value := hgx.1.1
          have hvb2 : ndx.value ≤ maxValueD ndx := hgx.1.2
          cases hmv : acc.min_v with
          | none =>
              cases hMv : acc.max_v with
              | none =>
                  unfold AccInv at hinv
                  rw [hmv, hMv] at hinv
                  obtain ⟨htw, htv, hlb⟩ := hinv
                  unfold AccInv
                  refine ⟨⟨?_, ?_⟩, ?_, ?_⟩
                  · dsimp only
                    rw [htw, zero_add]; exact hw1
                  · dsimp only
                    rw [hlb, List.nil_append]; exact hgx.2
                  · dsimp only
                    rw [htw, htv]
                    simp only [minAcc]
                    rw [zero_add, zero_add]
                    exact mul_le_mul_of_nonneg_right hvb1 hw0
                  · dsimp only
                    rw [htw, htv]
                    simp only [maxAcc]
                    rw [zero_add, zero_add]
                    exact mul_le_mul_of_nonneg_right hvb2 hw0
              | some M =>
                  unfold AccInv at hinv
                  rw [hmv, hMv] at hinv
                  exact hinv.elim
          | some m =>
              cases hMv : acc.max_v with
              | none =>
                  unfold AccInv at hinv
                  rw [hmv, hMv] at hinv
                  exact hinv.elim
              | some M =>
                  unfold AccInv at hinv
                  rw [hmv, hMv] at hinv
                  obtain ⟨⟨htw, hlb⟩, hlow, hhigh⟩ := hinv
                  have htw0 : (0:ℚ) ≤ acc.total_weight := by linarith
                  unfold AccInv
                  refine ⟨⟨?_, ?_⟩, ?_, ?_⟩
                  · dsimp only
                    linarith
                  · dsimp only
                    intro hcon
                    exact hlb (List.append_eq_nil.mp hcon).1
                  · dsimp only
                    simp only [minAcc]
                    nlinarith [mul_le_mul_of_nonneg_right
                        (min_le_left m (minValueD ndx)) htw0,
                      mul_le_mul_of_nonneg_right
                        (le_trans (min_le_right m (minValueD ndx)) hvb1) hw0]
                  · dsimp only
                    simp only [maxAcc]
                    nlinarith [mul_le_mul_of_nonneg_right
                        (le_max_left M (maxValueD ndx)) htw0,
                      mul_le_mul_of_nonneg_right
                        (le_trans hvb2 (le_max_right M (maxValueD ndx))) hw0]

/-- After aggregating at least one constituent the tracked minimum is
present. -/
theorem aggregateCluster_minv_isSome (h : HariGraph) :
    ∀ (c : List ℤ) (acc acc2 : ClusterAcc),
    aggregateCluster h c acc = .ok acc2 →
    (acc.min_v.isSome = true ∨ c ≠ []) → acc2.min_v.isSome = true := by
  intro c
  induction c with
  | nil =>
      intro acc acc2 hagg hor
      cases hagg
      rcases hor with hs | hne
      · exact hs
      · exact absurd rfl hne
  | cons x xs ih =>
      intro acc acc2 hagg _
      cases hnx : h.getNode x with
      | none =>
          simp only [aggregateCluster, hnx] at hagg
          cases hagg
      | some ndx =>
          simp only [aggregateCluster, hnx] at hagg
          exact ih _ acc2 hagg (Or.inl rfl)

/-- The node `merge_clusters` creates for a cluster is well-formed: its
value is the weighted average of the constituents, bounded by the
tracked minimum and maximum. -/
theorem goodNode_clusterNode (acc : ClusterAcc) (nid : ℤ) (m M : ℚ)
    (hm : acc.min_v = some m) (hM : acc.max_v = some M)
    (htw : 1 ≤ acc.total_weight) (hlb : acc.labels ≠ [])
    (hlow : m * acc.total_weight ≤ acc.total_value)
    (hhigh : acc.total_value ≤ M * acc.total_weight) :
    GoodNode nid
      ⟨if acc.total_weight > 0 then acc.total_value / acc.total_weight else 0,
        some acc.labels, some (acc.min_v.getD 0), some (acc.max_v.getD 0),
        some acc.importance⟩ := by
  have htw0 : (0:ℚ) < acc.total_weight := by linarith
  refine ⟨⟨?_, ?_⟩, ?_⟩
  · simp only [minValueD, hm, Option.getD_some]
    rw [if_pos htw0, le_div_iff₀ htw0]
    exact hlow
  · simp only [maxValueD, hM, Option.getD_some]
    rw [if_pos htw0, div_le_iff₀ htw0]
    exact hhigh
  · simp only [labelD, Option.getD_some]
    exact hlb

/-- The node-creation loop of `merge_clusters` preserves node
well-formedness. -/
theorem nodesOK_createClusterNodes (im : List (ℤ × ℤ)) :
    ∀ (cs : List (List ℤ)) (h h' : HariGraph),
    createClusterNodes im h cs = .ok h' → NodesOK h → NodesOK h' := by
  intro cs
  induction cs with
  | nil =>
      intro h h' hok hn
      cases hok
      exact hn
  | cons c cs2 ih =>
      intro h h' hok hn
      cases c with
      | nil => cases hok
      | cons c0 cr =>
          simp only [createClusterNodes] at hok
          cases hlk : assocLookup im c0 with
          | none => rw [hlk] at hok; cases hok
          | some nid =>
              rw [hlk] at hok
              cases hag : aggregateCluster h (c0 :: cr) ⟨[], 0, 0, 0, none, none⟩ with
              | error e => rw [hag] at hok; cases hok
              | ok acc =>
                  rw [hag] at hok
                  have hok3 : createClusterNodes im
                      (h.add_node nid
                        ⟨if acc.total_weight > 0 then acc.total_value / acc.total_weight else 0,
                          some acc.labels, some (acc.min_v.getD 0), some (acc.max_v.getD 0),
                          some acc.importance⟩) cs2 = .ok h' := hok
                  refine ih _ h' hok3 ?_
                  refine nodesOK_add_node h nid _ hn ?_
                  have hinv : AccInv acc := aggregateCluster_inv h hn _ _ acc hag
                    (by unfold AccInv; exact ⟨rfl, rfl, rfl⟩)
                  have hsome : acc.min_v.isSome = true :=
                    aggregateCluster_minv_isSome h _ _ acc hag (Or.inr (by simp))
                  obtain ⟨m, hm⟩ := Option.isSome_iff_exists.mp hsome
                  cases hM : acc.max_v with
                  | none =>
                      unfold AccInv at hinv
                      rw [hm, hM] at hinv
                      exact hinv.elim
                  | some M =>
                      unfold AccInv at hinv
                      rw [hm, hM] at hinv
                      obtain ⟨⟨htw, hlb⟩, hlow, hhigh⟩ := hinv
                      rw [← hM]
                      exact goodNode_clusterNode acc nid m M hm hM htw hlb hlow hhigh

/-- The edge-reassignment loop of `merge_clusters` preserves node
well-formedness. -/
theorem nodesOK_reassignEdges (im : List (ℤ × ℤ)) :
    ∀ (items : List (ℤ × ℤ)) (h : HariGraph),
    NodesOK h → NodesOK (reassignEdges h im items) := by
  intro items
  induction items with
  | nil => intro h hn; exact hn
  | cons item rest ih =>
      intro h hn
      obtain ⟨old, nid⟩ := item
      refine ih _ ?_
      refine nodesOK_remove_node _ old ?_
      refine foldl_preserve NodesOK _ _ _ ?_ ?_
      · intro a b _ ha
        split
        · exact nodesOK_add_edge a _ _ _ ha
        · exact ha
      · refine foldl_preserve NodesOK _ _ _ ?_ hn
        intro a b _ ha
        split
        · exact nodesOK_add_edge a _ _ _ ha
        · exact ha

/-- A normally-returning `merge_clusters` preserves node
well-formedness (both argument forms). -/
theorem nodesOK_merge_clusters (g g' : HariGraph) (cs : ClustersArg)
    (hok : g.merge_clusters cs = .ok g') (hn : NodesOK g) : NodesOK g' := by
  cases cs with
  | cdict m =>
      have hred : g.merge_clusters (.cdict m)
          = (match createClusterNodes (dictIdMapping m) g (dictClustersList (dictIdMapping m)) with
            | .error e => .error e
            | .ok h => .ok (reassignEdges h (dictIdMapping m) (dictIdMapping m))) := rfl
      rw [hred] at hok
      cases hcc : createClusterNodes (dictIdMapping m) g (dictClustersList (dictIdMapping m)) with
      | error e => rw [hcc] at hok; cases hok
      | ok h =>
          rw [hcc] at hok
          injection hok with hh
          rw [← hh]
          exact nodesOK_reassignEdges _ _ h
            (nodesOK_createClusterNodes (dictIdMapping m) _ g h hcc hn)
  | clist cs =>
      have hred : g.merge_clusters (.clist cs)
          = (match listIdMapping g cs (g.maxNodeId + 1) [] with
            | .error _ => .error (.assertionError, g)
            | .ok im =>
                match createClusterNodes im g cs with
                | .error e => .error e
                | .ok h => .ok (reassignEdges h im im)) := rfl
      rw [hred] at hok
      cases him : listIdMapping g cs (g.maxNodeId + 1) [] with
      | error e => rw [him] at hok; cases hok
      | ok im =>
          rw [him] at hok
          have hok2 : (match createClusterNodes im g cs with
              | Except.error e => (Except.error e : Except (MergeError × HariGraph) HariGraph)
              | Except.ok h => Except.ok (reassignEdges h im im)) = Except.ok g' := hok
          cases hcc : createClusterNodes im g cs with
          | error e => rw [hcc] at hok2; cases hok2
          | ok h =>
              rw [hcc] at hok2
              injection hok2 with hh
              rw [← hh]
              exact nodesOK_reassignEdges im im h
                (nodesOK_createClusterNodes im cs g h hcc hn)

/-- A single merge operation preserves node well-formedness. -/
theorem nodesOK_mergeOp : ∀ (g g' : HariGraph), MergeOp g g' → NodesOK g → NodesOK g'
  | g, _, MergeOp.pair _ i j hi hj _, hn => nodesOK_merge_nodes g i j hi hj hn
  | g, g', MergeOp.clusters _ _ cs hok, hn => nodesOK_merge_clusters g g' cs hok hn

/-- Claim C7: on a graph whose nodes all satisfy
`min_value ≤ value ≤ max_value` (with nonempty labels, as all graphs
built by this code have), the bound still holds for every node after any
sequence of merge operations (`merge_nodes` on present pairs and
normally-returning `merge_clusters`). -/
theorem merge_sequence_bounds (g g' : HariGraph)
    (hchain : Relation.ReflTransGen MergeOp g g')
    (hn : NodesOK g) : BoundsOK g' ∧ NodesOK g' := by
  have h2 : NodesOK g' := by
    induction hchain with
    | refl => exact hn
    | tail hc hstep ih => exact nodesOK_mergeOp _ _ hstep ih
  exact ⟨fun p hp => (h2 p hp).1, h2⟩

/-- Witness for claim C7: a concrete two-step `merge_nodes` chain on the
bounds example keeps every value between its stored bounds. -/
theorem merge_sequence_bounds_witness :
    BoundsOK ((boundsExample.merge_nodes 0 1).merge_nodes 2 3) :=
  (merge_sequence_bounds boundsExample ((boundsExample.merge_nodes 0 1).merge_nodes 2 3)
    (Relation.ReflTransGen.tail
      (Relation.ReflTransGen.single
        (MergeOp.pair boundsExample 0 1 (by decide) (by decide) (by decide)))
      (MergeOp.pair (boundsExample.merge_nodes 0 1) 2 3 (by decide) (by decide) (by decide)))
    (by norm_num [NodesOK, boundsExample, GoodNode, minValueD, maxValueD, labelD,
      List.forall_mem_cons])).1

/-- Counterexample to claim C6 as stated: the dict-form batch merge
`{2: {0, 1}}` on the three-node graph writes the merged node under the
existing id `2`, overwriting that untouched node in place; its label
`[2]` disappears from the multiset union of labels, without any
error. -/
theorem merge_clusters_dict_label_loss_cex :
    (dictCollisionExample.merge_clusters (.cdict [(2, [0, 1])])).map labelMS
      = .ok (([0, 1] : List ℤ) : Multiset ℤ)
      ∧ labelMS dictCollisionExample = (([0, 1, 2] : List ℤ) : Multiset ℤ)
      ∧ (([0, 1] : List ℤ) : Multiset ℤ) ≠ (([0, 1, 2] : List ℤ) : Multiset ℤ) := by
  refine ⟨?_, ?_, ?_⟩
  · norm_num [HariGraph.merge_clusters, dictIdMapping, dictClustersList, assocSet, assocLookup,
      createClusterNodes, aggregateCluster, reassignEdges, dictCollisionExample,
      HariGraph.getNode, lookupNode, labelD, minValueD, maxValueD,
      minAcc, maxAcc, HariGraph.add_node, setNode, HariGraph.add_edge, lookupEdge, setEdge,
      HariGraph.successors, HariGraph.predecessors, HariGraph.remove_node,
      HariGraph.edgeValue, HariGraph.nodeIds, Except.map, List.dedup, labelMS]
  · decide
  · decide

/-- A lookup hit in the front list survives appending. -/
theorem lookupNode_append_some (l1 l2 : List (ℤ × NodeData)) (k : ℤ) (nd : NodeData)
    (h : lookupNode l1 k = some nd) : lookupNode (l1 ++ l2) k = some nd := by
  induction l1 with
  | nil => cases h
  | cons p ps ih =>
      rw [List.cons_append]
      by_cases hp : p.1 = k
      · rw [lookupNode, if_pos hp] at h
        rw [lookupNode, if_pos hp]
        exact h
      · rw [lookupNode, if_neg hp] at h
        rw [lookupNode, if_neg hp]
        exact ih h

/-- A lookup miss in the front list defers to the back list. -/
theorem lookupNode_append_none (l1 l2 : List (ℤ × NodeData)) (k : ℤ)
    (h : lookupNode l1 k = none) : lookupNode (l1 ++ l2) k = lookupNode l2 k := by
  induction l1 with
  | nil => rfl
  | cons p ps ih =>
      rw [List.cons_append]
      by_cases hp : p.1 = k
      · rw [lookupNode, if_pos hp] at h; cases h
      · rw [lookupNode, if_neg hp] at h
        rw [lookupNode, if_neg hp]
        exact ih h

/-- Filtering out a different key leaves a node lookup unchanged. -/
theorem lookupNode_filter_ne (l : List (ℤ × NodeData)) (x k : ℤ) (hk : k ≠ x) :
    lookupNode (l.filter (fun p => decide (p.1 ≠ x))) k = lookupNode l k := by
  induction l with
  | nil => rfl
  | cons p ps ih =>
      by_cases hp : p.1 ≠ x
      · rw [List.filter_cons_of_pos (by simpa using hp)]
        by_cases hpk : p.1 = k
        · rw [lookupNode, if_pos hpk, lookupNode, if_pos hpk]
        · rw [lookupNode, if_neg hpk, lookupNode, if_neg hpk]; exact ih
      · rw [List.filter_cons_of_neg (by simpa using hp)]
        have hpk : ¬ (p.1 = k) := by
          push_neg at hp
          rw [hp]
          exact fun hc => hk hc.symm
        rw [lookupNode, if_neg hpk]
        exact ih

/-- A hit in the front association list survives appending. -/
theorem assocLookup_append_some (l1 l2 : List (ℤ × ℤ)) (k v : ℤ)
    (h : assocLookup l1 k = some v) : assocLookup (l1 ++ l2) k = some v := by
  induction l1 with
  | nil => cases h
  | cons p ps ih =>
      rw [List.cons_append]
      by_cases hp : p.1 = k
      · rw [assocLookup, if_pos hp] at h
        rw [assocLookup, if_pos hp]
        exact h
      · rw [assocLookup, if_neg hp] at h
        rw [assocLookup, if_neg hp]
        exact ih h

/-- A miss in the front association list defers to the back list. -/
theorem assocLookup_append_none (l1 l2 : List (ℤ × ℤ)) (k : ℤ)
    (h : assocLookup l1 k = none) : assocLookup (l1 ++ l2) k = assocLookup l2 k := by
  induction l1 with
  | nil => rfl
  | cons p ps ih =>
      rw [List.cons_append]
      by_cases hp : p.1 = k
      · rw [assocLookup, if_pos hp] at h; cases h
      · rw [assocLookup, if_neg hp] at h
        rw [assocLookup, if_neg hp]
        exact ih h

/-- A successful association lookup pins an entry of the list. -/
theorem assocLookup_some_mem (l : List (ℤ × ℤ)) (k v : ℤ)
    (h : assocLookup l k = some v) : (k, v) ∈ l := by
  induction l with
  | nil => cases h
  | cons p ps ih =>
      by_cases hp : p.1 = k
      · rw [assocLookup, if_pos hp] at h
        injection h with hv
        rw [← hp, ← hv]
        exact List.mem_cons_self _ _
      · rw [assocLookup, if_neg hp] at h
        exact List.mem_cons_of_mem _ (ih h)

/-- Lookup in a constant-valued association list built from a cluster,
member case. -/
theorem assocLookup_map_const_mem (c : List ℤ) (nid x : ℤ) (hx : x ∈ c) :
    assocLookup (c.map (fun y => (y, nid))) x = some nid := by
  induction c with
  | nil => cases hx
  | cons y ys ih =>
      rw [List.map_cons]
      by_cases hy : y = x
      · rw [assocLookup, if_pos hy]
      · rw [assocLookup, if_neg hy]
        rcases List.mem_cons.mp hx with heq | hm
        · exact absurd heq.symm hy
        · exact ih hm

/-- Lookup in a constant-valued association list built from a cluster,
non-member case. -/
theorem assocLookup_map_const_not_mem (c : List ℤ) (nid x : ℤ) (hx : x ∉ c) :
    assocLookup (c.map (fun y => (y, nid))) x = none := by
  induction c with
  | nil => rfl
  | cons y ys ih =>
      rw [List.map_cons]
      have hy : ¬ (y = x) := fun hc => hx (by rw [← hc]; exact List.mem_cons_self _ _)
      rw [assocLookup, if_neg hy]
      exact ih (fun hm => hx (List.mem_cons_of_mem _ hm))

/-- A successful per-cluster validation run extends the mapping by
exactly the cluster, in order. -/
theorem clusterAssign_ok_eq (g : HariGraph) :
    ∀ (c : List ℤ) (nid : ℤ) (acc acc2 : List (ℤ × ℤ)),
    clusterAssign g c nid acc = .ok acc2 → acc2 = acc ++ c.map (fun x => (x, nid)) := by
  intro c
  induction c with
  | nil =>
      intro nid acc acc2 h
      cases h
      simp
  | cons x xs ih =>
      intro nid acc acc2 h
      rw [clusterAssign] at h
      by_cases hcond : x ∈ g.nodeIds ∧ assocLookup acc x = none
      · rw [if_pos hcond] at h
        have hset : assocSet acc x nid = acc ++ [(x, nid)] :=
          assocSet_not_mem acc x nid ((assocLookup_eq_none_iff acc x).mp hcond.2)
        have h2 := ih nid _ acc2 h
        rw [hset] at h2
        rw [h2, List.append_assoc]
        rfl
      · rw [if_neg hcond] at h
        cases h

/-- A successful list-branch validation run produces exactly the
`clustersMap` mapping. -/
theorem listIdMapping_ok_eq (g : HariGraph) :
    ∀ (cs : List (List ℤ)) (nid : ℤ) (acc acc2 : List (ℤ × ℤ)),
    listIdMapping g cs nid acc = .ok acc2 → acc2 = acc ++ clustersMap cs nid := by
  intro cs
  induction cs with
  | nil =>
      intro nid acc acc2 h
      cases h
      simp [clustersMap]
  | cons c cs2 ih =>
      intro nid acc acc2 h
      rw [listIdMapping] at h
      cases hca : clusterAssign g c nid acc with
      | error e => rw [hca] at h; cases h
      | ok accMid =>
          rw [hca] at h
          have h1 := clusterAssign_ok_eq g c nid acc accMid hca
          have h2 := ih (nid + 1) accMid acc2 h
          rw [h2, h1, List.append_assoc]
          rfl

/-- The keys of the list-branch mapping are the flattened partition. -/
theorem clustersMap_fst : ∀ (cs : List (List ℤ)) (nid : ℤ),
    (clustersMap cs nid).map Prod.fst = cs.flatten := by
  intro cs
  induction cs with
  | nil => intro nid; rfl
  | cons c cs2 ih =>
      intro nid
      rw [clustersMap, List.map_append, ih, List.flatten_cons]
      congr 1
      rw [List.map_map]
      have hcomp : (Prod.fst ∘ fun x : ℤ => (x, nid)) = id := rfl
      rw [hcomp, List.map_id]

/-- Every value of the list-branch mapping is `nid + t` for the
zero-based number `t` of some cluster. -/
theorem clustersMap_snd_mem : ∀ (cs : List (List ℤ)) (nid : ℤ) (p : ℤ × ℤ),
    p ∈ clustersMap cs nid → ∃ t : ℕ, t < cs.length ∧ p.2 = nid + t := by
  intro cs
  induction cs with
  | nil =>
      intro nid p hp
      simp [clustersMap] at hp
  | cons c cs2 ih =>
      intro nid p hp
      rw [clustersMap] at hp
      rcases List.mem_append.mp hp with hm | hm
      · obtain ⟨x, hx, hxe⟩ := List.mem_map.mp hm
        refine ⟨0, by simp, ?_⟩
        rw [← hxe]
        simp
      · obtain ⟨t, ht, hte⟩ := ih (nid + 1) p hm
        refine ⟨t + 1, by simpa using Nat.succ_lt_succ ht, ?_⟩
        rw [hte]
        push_cast
        ring

/-- On a duplicate-free partition, every member of cluster number `t`
is mapped to `nid + t`. -/
theorem clustersMap_lookup : ∀ (cs : List (List ℤ)), cs.flatten.Nodup →
    ∀ (nid : ℤ) (t : ℕ) (c : List ℤ), cs.get? t = some c → ∀ x ∈ c,
    assocLookup (clustersMap cs nid) x = some (nid + t) := by
  intro cs
  induction cs with
  | nil =>
      intro _ nid t c hc
      cases hc
  | cons c0 cs2 ih =>
      intro hnd nid t c hc x hx
      rw [clustersMap]
      cases t with
      | zero =>
          have hc0 : c0 = c := by simpa using hc
          have h1 : assocLookup (c0.map (fun y => (y, nid))) x = some nid :=
            assocLookup_map_const_mem c0 nid x (by rw [hc0]; exact hx)
          have h2 : some nid = some (nid + ((0 : ℕ) : ℤ)) := by norm_num
          exact (assocLookup_append_some _ _ x nid h1).trans h2
      | succ t2 =>
          have hc2 : cs2.get? t2 = some c := by simpa using hc
          have hxf : x ∈ cs2.flatten :=
            List.mem_flatten.mpr ⟨c, List.get?_mem hc2, hx⟩
          have hx0 : x ∉ c0 := by
            rw [List.flatten_cons] at hnd
            have hdis := List.disjoint_of_nodup_append hnd
            exact fun hm => hdis hm hxf
          have h0 : assocLookup (c0.map (fun y => (y, nid))) x = none :=
            assocLookup_map_const_not_mem c0 nid x hx0
          rw [assocLookup_append_none _ _ x h0]
          have hnd2 : cs2.flatten.Nodup := by
            rw [List.flatten_cons] at hnd
            exact hnd.of_append_right
          rw [ih hnd2 (nid + 1) t2 c hc2 x hx]
          congr 1
          push_cast
          ring

/-- A filter by a key absent from the list is the identity. -/
theorem filter_ne_self (l : List (ℤ × NodeData)) (k : ℤ)
    (h : ∀ q ∈ l, q.1 ≠ k) : l.filter (fun p => decide (p.1 ≠ k)) = l := by
  induction l with
  | nil => rfl
  | cons p ps ih =>
      rw [List.filter_cons_of_pos (by simpa using h p (List.mem_cons_self _ _))]
      rw [ih (fun q hq => h q (List.mem_cons_of_mem _ hq))]

/-- Splitting one entry out of a keyed sum over a duplicate-free
association list. -/
theorem assoc_sum_filter_single {β : Type} [AddCommMonoid β] (f : ℤ × NodeData → β) :
    ∀ (l : List (ℤ × NodeData)) (k : ℤ) (nd : NodeData),
    (l.map Prod.fst).Nodup → (k, nd) ∈ l →
    (l.map f).sum = ((l.filter (fun p => decide (p.1 ≠ k))).map f).sum + f (k, nd) := by
  intro l
  induction l with
  | nil =>
      intro k nd _ hmem
      cases hmem
  | cons p ps ih =>
      intro k nd hnd hmem
      rw [List.map_cons] at hnd
      have hnd2 : (ps.map Prod.fst).Nodup := hnd.of_cons
      have hp1 : p.1 ∉ ps.map Prod.fst := (List.nodup_cons.mp hnd).1
      by_cases hpk : p.1 = k
      · have hpeq : p = (k, nd) := by
          rcases List.mem_cons.mp hmem with heq | hm
          · exact heq.symm
          · exfalso
            have hk2 : k ∈ ps.map Prod.fst := List.mem_map.mpr ⟨(k, nd), hm, rfl⟩
            rw [hpk] at hp1
            exact hp1 hk2
        rw [List.filter_cons_of_neg (by simp [hpk])]
        rw [filter_ne_self ps k
          (fun q hq hqk => hp1 (by rw [hpk]; exact List.mem_map.mpr ⟨q, hq, hqk⟩))]
        rw [List.map_cons, List.sum_cons, hpeq]
        exact add_comm _ _
      · rw [List.filter_cons_of_pos (by simpa using hpk)]
        have hm2 : (k, nd) ∈ ps := by
          rcases List.mem_cons.mp hmem with heq | hm
          · exfalso; exact hpk (by rw [← heq])
          · exact hm
        rw [List.map_cons, List.sum_cons, List.map_cons, List.sum_cons,
          ih k nd hnd2 hm2]
        exact (add_assoc _ _ _).symm

/-- Splitting two distinct entries out of a keyed sum over a
duplicate-free association list. -/
theorem assoc_sum_filter_pair {β : Type} [AddCommMonoid β] (f : ℤ × NodeData → β)
    (l : List (ℤ × NodeData)) (i j : ℤ) (ndi ndj : NodeData)
    (hnd : (l.map Prod.fst).Nodup) (hij : i ≠ j)
    (hi : (i, ndi) ∈ l) (hj : (j, ndj) ∈ l) :
    (l.map f).sum
      = ((l.filter (fun p => decide (p.1 ≠ i ∧ p.1 ≠ j))).map f).sum
        + f (i, ndi) + f (j, ndj) := by
  rw [assoc_sum_filter_single f l i ndi hnd hi]
  have hjf : (j, ndj) ∈ l.filter (fun p => decide (p.1 ≠ i)) :=
    List.mem_filter.mpr ⟨hj, by
      simp only [decide_eq_true_eq]
      exact fun hc => hij hc.symm⟩
  have hndf : ((l.filter (fun p => decide (p.1 ≠ i))).map Prod.fst).Nodup :=
    hnd.sublist ((List.filter_sublist _).map Prod.fst)
  rw [assoc_sum_filter_single f _ j ndj hndf hjf]
  have hfe : List.filter (fun p => decide (p.1 ≠ j)) (List.filter (fun p => decide (p.1 ≠ i)) l)
      = List.filter (fun p => decide (p.1 ≠ i ∧ p.1 ≠ j)) l := by
    rw [List.filter_filter]
    refine List.filter_congr ?_
    intro p _
    by_cases h1 : p.1 = i <;> by_cases h2 : p.1 = j <;> simp [h1, h2]
  rw [hfe]
  abel

/-- Coercion of a flattened label list into the multiset sum of its
pieces. -/
theorem coe_flatMap_sum (c : List ℤ) (f : ℤ → List ℤ) :
    ((c.flatMap f : List ℤ) : Multiset ℤ)
      = (c.map (fun x => ((f x : List ℤ) : Multiset ℤ))).sum := by
  induction c with
  | nil => rfl
  | cons x xs ih =>
      rw [List.flatMap_cons, List.map_cons, List.sum_cons, ← ih]
      rfl

/-- Summing a function over a flattened partition cluster by cluster. -/
theorem flatten_map_sum {β : Type} [AddCommMonoid β] (f : ℤ → β) :
    ∀ (cs : List (List ℤ)),
    ((cs.flatten).map f).sum = (cs.map (fun c => (c.map f).sum)).sum := by
  intro cs
  induction cs with
  | nil => rfl
  | cons c cs2 ih =>
      rw [List.flatten_cons, List.map_append, List.sum_append, List.map_cons,
        List.sum_cons, ih]

/-- Adding a node under a fresh key appends its label to the label
multiset. -/
theorem labelMS_add_node_fresh (g : HariGraph) (k : ℤ) (nd : NodeData)
    (hk : k ∉ g.nodeIds) :
    labelMS (g.add_node k nd) = labelMS g + ((labelD k nd : List ℤ) : Multiset ℤ) := by
  unfold labelMS
  have hnodes : (g.add_node k nd).nodes = g.nodes ++ [(k, nd)] :=
    setNode_not_mem g.nodes k nd hk
  rw [hnodes, List.map_append, List.sum_append]
  simp

/-- Removing a present node removes exactly its label from the label
multiset (duplicate-free keys). -/
theorem labelMS_remove_present (g : HariGraph) (k : ℤ) (nd : NodeData)
    (hnd : (g.nodes.map Prod.fst).Nodup) (hmem : (k, nd) ∈ g.nodes) :
    labelMS (g.remove_node k) + ((labelD k nd : List ℤ) : Multiset ℤ) = labelMS g := by
  unfold labelMS
  rw [assoc_sum_filter_single (fun p => ((labelD p.1 p.2 : List ℤ) : Multiset ℤ))
    g.nodes k nd hnd hmem]
  rfl

/-- `merge_nodes` conserves the label multiset on a well-formed graph:
the two removed labels reappear concatenated on the merged node. -/
theorem labelMS_merge_nodes (g : HariGraph) (i j : ℤ)
    (hnkeys : (g.nodes.map Prod.fst).Nodup)
    (hekeys : (g.edges.map fun e => (e.1, e.2.1)).Nodup)
    (hclosed : EdgesClosed g)
    (hi : i ∈ g.nodeIds) (hj : j ∈ g.nodeIds) (hij : i ≠ j) :
    labelMS (g.merge_nodes i j) = labelMS g := by
  obtain ⟨ndi, hndi⟩ := Option.isSome_iff_exists.mp ((lookupNode_isSome_iff g.nodes i).mpr hi)
  obtain ⟨ndj, hndj⟩ := Option.isSome_iff_exists.mp ((lookupNode_isSome_iff g.nodes j).mpr hj)
  have hspec := (merge_nodes_spec g i j hnkeys hekeys hclosed hi hj hij).1
  unfold labelMS
  rw [hspec, List.map_append, List.sum_append]
  rw [assoc_sum_filter_pair (fun p => ((labelD p.1 p.2 : List ℤ) : Multiset ℤ))
    g.nodes i j ndi ndj hnkeys hij
    (lookupNode_some_mem _ _ _ hndi) (lookupNode_some_mem _ _ _ hndj)]
  have hlabm : (mergedNodeData g i j).label = some (labelD i ndi ++ labelD j ndj) := by
    unfold mergedNodeData
    rw [show g.getNode i = some ndi from hndi, show g.getNode j = some ndj from hndj]
    rfl
  have hlab : labelD (g.maxNodeId + 1) (mergedNodeData g i j)
      = labelD i ndi ++ labelD j ndj := by
    rw [show labelD (g.maxNodeId + 1) (mergedNodeData g i j)
      = (mergedNodeData g i j).label.getD [g.maxNodeId + 1] from rfl]
    rw [hlabm, Option.getD_some]
  simp only [List.map_cons, List.map_nil, List.sum_cons, List.sum_nil, add_zero]
  rw [hlab]
  rw [show ((labelD i ndi ++ labelD j ndj : List ℤ) : Multiset ℤ)
    = ((labelD i ndi : List ℤ) : Multiset ℤ) + ((labelD j ndj : List ℤ) : Multiset ℤ)
    from rfl]
  abel

/-- Labels collected by the aggregation loop are the concatenation of
the constituent labels, in order. -/
theorem aggregateCluster_labels (h : HariGraph) (lab : ℤ → List ℤ) :
    ∀ (c : List ℤ) (acc acc2 : ClusterAcc),
    aggregateCluster h c acc = .ok acc2 →
    (∀ x ∈ c, labelD x ((h.getNode x).getD autoNode) = lab x) →
    acc2.labels = acc.labels ++ c.flatMap lab := by
  intro c
  induction c with
  | nil =>
      intro acc acc2 hagg _
      cases hagg
      simp
  | cons x xs ih =>
      intro acc acc2 hagg hread
      cases hnx : h.getNode x with
      | none =>
          simp only [aggregateCluster, hnx] at hagg
          cases hagg
      | some ndx =>
          simp only [aggregateCluster, hnx] at hagg
          have h2 := ih _ acc2 hagg (fun y hy => hread y (List.mem_cons_of_mem _ hy))
          rw [h2]
          dsimp only
          rw [List.flatMap_cons, List.append_assoc]
          have h3 : labelD x ndx = lab x := by
            have h4 := hread x (List.mem_cons_self _ _)
            rw [hnx] at h4
            exact h4
          rw [h3]

/-- Full accounting of the node-creation loop on a fresh id range: the
created nodes are appended with exactly the ids `nid, nid+1, …`, and the
label multiset grows by exactly the constituent labels of each
cluster, read on the original graph. -/
theorem createClusterNodes_labelMS (g : HariGraph) (im : List (ℤ × ℤ)) :
    ∀ (cs : List (List ℤ)) (nid : ℤ) (ext : List (ℤ × NodeData)) (h h' : HariGraph),
    createClusterNodes im h cs = .ok h' →
    h.nodes = g.nodes ++ ext →
    g.maxNodeId < nid →
    (∀ p ∈ ext, g.maxNodeId < p.1 ∧ p.1 < nid) →
    (∀ (t : ℕ) (c : List ℤ), cs.get? t = some c → ∀ c0 cr, c = c0 :: cr →
      assocLookup im c0 = some (nid + t)) →
    (∀ c ∈ cs, ∀ x ∈ c, x ∈ g.nodeIds) →
    ∃ ext2, h'.nodes = g.nodes ++ ext2
      ∧ ext2.map Prod.fst
          = ext.map Prod.fst ++ (List.range cs.length).map (fun t : ℕ => nid + (t : ℤ))
      ∧ labelMS h' = labelMS h + (cs.map (clusterLabelsG g)).sum := by
  intro cs
  induction cs with
  | nil =>
      intro nid ext h h' hok hh _ _ _ _
      cases hok
      exact ⟨ext, hh, by simp, by simp⟩
  | cons c cs2 ih =>
      intro nid ext h h' hok hh hnid hext hlk hsub
      cases c with
      | nil => cases hok
      | cons c0 cr =>
          simp only [createClusterNodes] at hok
          have hl0 := hlk 0 (c0 :: cr) (by simp) c0 cr rfl
          have hl0b : assocLookup im c0 = some nid := by
            rw [hl0]; norm_num
          rw [hl0b] at hok
          cases hag : aggregateCluster h (c0 :: cr) ⟨[], 0, 0, 0, none, none⟩ with
          | error e => rw [hag] at hok; cases hok
          | ok acc =>
              rw [hag] at hok
              have hok3 : createClusterNodes im
                  (h.add_node nid
                    ⟨if acc.total_weight > 0 then acc.total_value / acc.total_weight else 0,
                      some acc.labels, some (acc.min_v.getD 0), some (acc.max_v.getD 0),
                      some acc.importance⟩) cs2 = .ok h' := hok
              have hread : ∀ x ∈ (c0 :: cr), labelD x ((h.getNode x).getD autoNode)
                  = labelD x ((g.getNode x).getD autoNode) := by
                intro x hx
                have hxg : x ∈ g.nodeIds := hsub _ (List.mem_cons_self _ _) x hx
                obtain ⟨ndx, hndx⟩ := Option.isSome_iff_exists.mp
                  ((lookupNode_isSome_iff g.nodes x).mpr hxg)
                have hhx : h.getNode x = some ndx := by
                  show lookupNode h.nodes x = some ndx
                  rw [hh]
                  exact lookupNode_append_some g.nodes ext x ndx hndx
                rw [hhx, show g.getNode x = some ndx from hndx]
              have hlabels := aggregateCluster_labels h
                (fun x => labelD x ((g.getNode x).getD autoNode)) (c0 :: cr) _ acc hag hread
              have hfresh : nid ∉ h.nodes.map Prod.fst := by
                rw [hh, List.map_append]
                intro hmem
                rcases List.mem_append.mp hmem with hm | hm
                · have := mem_le_maxNodeId g nid hm
                  omega
                · obtain ⟨p, hp, hpe⟩ := List.mem_map.mp hm
                  have := hext p hp
                  omega
              have hnodes1 : (h.add_node nid
                  ⟨if acc.total_weight > 0 then acc.total_value / acc.total_weight else 0,
                    some acc.labels, some (acc.min_v.getD 0), some (acc.max_v.getD 0),
                    some acc.importance⟩).nodes
                  = h.nodes ++ [(nid,
                    ⟨if acc.total_weight > 0 then acc.total_value / acc.total_weight else 0,
                      some acc.labels, some (acc.min_v.getD 0), some (acc.max_v.getD 0),
                      some acc.importance⟩)] := setNode_not_mem _ _ _ hfresh
              have hh2 : (h.add_node nid
                  ⟨if acc.total_weight > 0 then acc.total_value / acc.total_weight else 0,
                    some acc.labels, some (acc.min_v.getD 0), some (acc.max_v.getD 0),
                    some acc.importance⟩).nodes
                  = g.nodes ++ (ext ++ [(nid,
                    ⟨if acc.total_weight > 0 then acc.total_value / acc.total_weight else 0,
                      some acc.labels, some (acc.min_v.getD 0), some (acc.max_v.getD 0),
                      some acc.importance⟩)]) := by
                rw [hnodes1, hh, List.append_assoc]
              have hext2 : ∀ p ∈ ext ++ [(nid,
                  (⟨if acc.total_weight > 0 then acc.total_value / acc.total_weight else 0,
                    some acc.labels, some (acc.min_v.getD 0), some (acc.max_v.getD 0),
                    some acc.importance⟩ : NodeData))],
                  g.maxNodeId < p.1 ∧ p.1 < nid + 1 := by
                intro p hp
                rcases List.mem_append.mp hp with hm | hm
                · exact ⟨(hext p hm).1, by have := (hext p hm).2; omega⟩
                · rw [List.mem_singleton.mp hm]
                  exact ⟨hnid, by omega⟩
              have hlk2 : ∀ (t : ℕ) (c : List ℤ), cs2.get? t = some c →
                  ∀ c0b crb, c = c0b :: crb → assocLookup im c0b = some ((nid + 1) + t) := by
                intro t c hc c0b crb hform
                have h5 := hlk (t + 1) c (by simpa using hc) c0b crb hform
                rw [h5]
                congr 1
                push_cast
                ring
              obtain ⟨ext3, hn3, hk3, hms3⟩ := ih (nid + 1) _ _ h' hok3 hh2 (by omega)
                hext2 hlk2 (fun c hc => hsub c (List.mem_cons_of_mem _ hc))
              refine ⟨ext3, hn3, ?_, ?_⟩
              · rw [hk3, List.map_append, List.append_assoc]
                congr 1
                rw [show ([(nid,
                  (⟨if acc.total_weight > 0 then acc.total_value / acc.total_weight else 0,
                    some acc.labels, some (acc.min_v.getD 0), some (acc.max_v.getD 0),
                    some acc.importance⟩ : NodeData))].map Prod.fst) = [nid] from rfl]
                rw [List.length_cons, List.range_succ_eq_map, List.map_cons, List.map_map]
                rw [List.singleton_append]
                congr 1
                · norm_num
                · refine List.map_congr_left ?_
                  intro t _
                  simp only [Function.comp]
                  push_cast
                  ring
              · rw [hms3]
                have hlm := labelMS_add_node_fresh h nid
                  ⟨if acc.total_weight > 0 then acc.total_value / acc.total_weight else 0,
                    some acc.labels, some (acc.min_v.getD 0), some (acc.max_v.getD 0),
                    some acc.importance⟩ hfresh
                rw [hlm]
                rw [List.map_cons, List.sum_cons]
                have hca : ((labelD nid
                    (⟨if acc.total_weight > 0 then acc.total_value / acc.total_weight else 0,
                      some acc.labels, some (acc.min_v.getD 0), some (acc.max_v.getD 0),
                      some acc.importance⟩ : NodeData) : List ℤ) : Multiset ℤ)
                    = clusterLabelsG g (c0 :: cr) := by
                  show ((acc.labels : List ℤ) : Multiset ℤ) = _
                  rw [hlabels, List.nil_append]
                  exact coe_flatMap_sum (c0 :: cr) _
                rw [hca]
                abel

/-- `add_edge` only ever grows the node id list, and both endpoints are
present afterwards. -/
theorem add_edge_nodeIds_sup (g : HariGraph) (u v : ℤ) (w : ℚ) :
    (∀ k ∈ g.nodeIds, k ∈ (g.add_edge u v w).nodeIds)
      ∧ u ∈ (g.add_edge u v w).nodeIds ∧ v ∈ (g.add_edge u v w).nodeIds := by
  have key : ∀ (ns : List (ℤ × NodeData)) (x : ℤ),
      (∀ k, k ∈ ns.map Prod.fst →
        k ∈ (if (lookupNode ns x).isSome = true then ns else ns ++ [(x, autoNode)]).map Prod.fst)
      ∧ x ∈ (if (lookupNode ns x).isSome = true then ns
          else ns ++ [(x, autoNode)]).map Prod.fst := by
    intro ns x
    by_cases hx : (lookupNode ns x).isSome = true
    · rw [if_pos hx]
      exact ⟨fun k hk => hk, (lookupNode_isSome_iff ns x).mp hx⟩
    · rw [if_neg hx]
      constructor
      · intro k hk
        rw [List.map_append]
        exact List.mem_append_left _ hk
      · rw [List.map_append]
        exact List.mem_append_right _ (by simp)
  refine ⟨?_, ?_, ?_⟩
  · intro k hk
    exact (key _ v).1 k ((key g.nodes u).1 k hk)
  · exact (key _ v).1 u (key g.nodes u).2
  · exact (key _ v).2

/-- `add_edge` preserves edge closure. -/
theorem edgesClosed_add_edge (g : HariGraph) (u v : ℤ) (w : ℚ)
    (hc : EdgesClosed g) : EdgesClosed (g.add_edge u v w) := by
  intro e he
  rcases add_edge_edges_mem g u v w e he with h1 | h2
  · obtain ⟨ha, hb⟩ := hc e h1
    exact ⟨(add_edge_nodeIds_sup g u v w).1 e.1 ha,
      (add_edge_nodeIds_sup g u v w).1 e.2.1 hb⟩
  · rw [h2]
    exact ⟨(add_edge_nodeIds_sup g u v w).2.1, (add_edge_nodeIds_sup g u v w).2.2⟩

/-- A surviving node id survives `remove_node` of a different id. -/
theorem mem_nodeIds_remove_node (g : HariGraph) (x k : ℤ)
    (hk : k ∈ g.nodeIds) (hne : k ≠ x) : k ∈ (g.remove_node x).nodeIds := by
  obtain ⟨p, hp, hpe⟩ := List.mem_map.mp hk
  show k ∈ (g.nodes.filter (fun p => decide (p.1 ≠ x))).map Prod.fst
  refine List.mem_map.mpr ⟨p, List.mem_filter.mpr ⟨hp, ?_⟩, hpe⟩
  rw [decide_eq_true_eq, hpe]
  exact hne

/-- `remove_node` preserves edge closure. -/
theorem edgesClosed_remove_node (g : HariGraph) (x : ℤ)
    (hc : EdgesClosed g) : EdgesClosed (g.remove_node x) := by
  intro e he
  have he2 : e ∈ g.edges.filter (fun e => decide (e.1 ≠ x ∧ e.2.1 ≠ x)) := he
  have hmem := List.mem_of_mem_filter he2
  have hcond := List.of_mem_filter he2
  rw [decide_eq_true_eq] at hcond
  obtain ⟨h1, h2⟩ := hc e hmem
  exact ⟨mem_nodeIds_remove_node g x e.1 h1 hcond.1,
    mem_nodeIds_remove_node g x e.2.1 h2 hcond.2⟩

/-- A successor is the target of an actual edge. -/
theorem mem_successors (g : HariGraph) (n s : ℤ) (hs : s ∈ g.successors n) :
    ∃ w, (n, s, w) ∈ g.edges := by
  obtain ⟨e, he, hee⟩ := List.mem_map.mp hs
  have hmem := List.mem_of_mem_filter he
  have hcond := List.of_mem_filter he
  rw [decide_eq_true_eq] at hcond
  refine ⟨e.2.2, ?_⟩
  have heq : e = (n, s, e.2.2) := by
    obtain ⟨e1, e2, e3⟩ := e
    simp only at hcond hee
    rw [hcond, hee]
  rw [← heq]
  exact hmem

/-- A predecessor is the source of an actual edge. -/
theorem mem_predecessors (g : HariGraph) (n p : ℤ) (hp : p ∈ g.predecessors n) :
    ∃ w, (p, n, w) ∈ g.edges := by
  obtain ⟨e, he, hee⟩ := List.mem_map.mp hp
  have hmem := List.mem_of_mem_filter he
  have hcond := List.of_mem_filter he
  rw [decide_eq_true_eq] at hcond
  refine ⟨e.2.2, ?_⟩
  have heq : e = (p, n, e.2.2) := by
    obtain ⟨e1, e2, e3⟩ := e
    simp only at hcond hee
    rw [hcond, hee]
  rw [← heq]
  exact hmem

/-- Full label accounting of the edge-reassignment loop: under the
closure and freshness conditions established by the preceding phases,
the loop never auto-creates a node (every `add_edge` endpoint is
present), and it removes exactly the mapped old nodes, so the label
multiset shrinks by exactly the labels of the processed items. -/
theorem reassignEdges_labelMS (im : List (ℤ × ℤ)) (L : ℤ → Multiset ℤ) :
    ∀ (items : List (ℤ × ℤ)) (h : HariGraph),
    EdgesClosed h →
    (h.nodes.map Prod.fst).Nodup →
    (∀ q ∈ im, q.2 ∈ h.nodeIds) →
    (∀ q ∈ im, ∀ r ∈ items, q.2 ≠ r.1) →
    (items.map Prod.fst).Nodup →
    (∀ r ∈ items, r ∈ im) →
    (∀ r ∈ items, ∃ nd, lookupNode h.nodes r.1 = some nd
      ∧ ((labelD r.1 nd : List ℤ) : Multiset ℤ) = L r.1) →
    labelMS (reassignEdges h im items) + (items.map (fun r => L r.1)).sum = labelMS h := by
  intro items
  induction items with
  | nil =>
      intro h _ _ _ _ _ _ _
      simp [reassignEdges]
  | cons item rest ih =>
      intro h hcl hkeys hvals hdisj hindd hsubm hitems
      obtain ⟨old, nid⟩ := item
      have hsucc : (((h.successors old).foldl (fun hh s =>
            if (assocLookup im s).getD s ≠ nid then
              hh.add_edge nid ((assocLookup im s).getD s) ((hh.edgeValue old s).getD 0)
            else hh) h).nodes = h.nodes)
          ∧ EdgesClosed ((h.successors old).foldl (fun hh s =>
            if (assocLookup im s).getD s ≠ nid then
              hh.add_edge nid ((assocLookup im s).getD s) ((hh.edgeValue old s).getD 0)
            else hh) h) := by
        refine foldl_preserve (fun hh => hh.nodes = h.nodes ∧ EdgesClosed hh) _ _ _ ?_ ⟨rfl, hcl⟩
        intro a s hs ha
        by_cases hcnd : (assocLookup im s).getD s ≠ nid
        · rw [if_pos hcnd]
          have hnid2 : nid ∈ h.nodeIds :=
            hvals (old, nid) (hsubm (old, nid) (List.mem_cons_self _ _))
          have hms : (assocLookup im s).getD s ∈ h.nodeIds := by
            cases hlks : assocLookup im s with
            | none =>
                rw [Option.getD_none]
                obtain ⟨w, hw⟩ := mem_successors h old s hs
                exact (hcl _ hw).2
            | some v2 =>
                rw [Option.getD_some]
                exact hvals (s, v2) (assocLookup_some_mem im s v2 hlks)
          have hna := add_edge_nodes_of_present a nid ((assocLookup im s).getD s)
            ((a.edgeValue old s).getD 0)
            (by show nid ∈ a.nodes.map Prod.fst; rw [ha.1]; exact hnid2)
            (by show (assocLookup im s).getD s ∈ a.nodes.map Prod.fst; rw [ha.1]; exact hms)
          exact ⟨by rw [hna]; exact ha.1, edgesClosed_add_edge a _ _ _ ha.2⟩
        · rw [if_neg hcnd]; exact ha
      set h1 : HariGraph := (h.successors old).foldl (fun hh s =>
        if (assocLookup im s).getD s ≠ nid then
          hh.add_edge nid ((assocLookup im s).getD s) ((hh.edgeValue old s).getD 0)
        else hh) h with hh1def
      have hpred : (((h1.predecessors old).foldl (fun hh p =>
            if (assocLookup im p).getD p ≠ nid then
              hh.add_edge ((assocLookup im p).getD p) nid ((hh.edgeValue p old).getD 0)
            else hh) h1).nodes = h.nodes)
          ∧ EdgesClosed ((h1.predecessors old).foldl (fun hh p =>
            if (assocLookup im p).getD p ≠ nid then
              hh.add_edge ((assocLookup im p).getD p) nid ((hh.edgeValue p old).getD 0)
            else hh) h1) := by
        refine foldl_preserve (fun hh => hh.nodes = h.nodes ∧ EdgesClosed hh) _ _ _ ?_
          ⟨hsucc.1, hsucc.2⟩
        intro a p hp ha
        by_cases hcnd : (assocLookup im p).getD p ≠ nid
        · rw [if_pos hcnd]
          have hnid2 : nid ∈ h.nodeIds :=
            hvals (old, nid) (hsubm (old, nid) (List.mem_cons_self _ _))
          have hms : (assocLookup im p).getD p ∈ h.nodeIds := by
            cases hlks : assocLookup im p with
            | none =>
                rw [Option.getD_none]
                obtain ⟨w, hw⟩ := mem_predecessors h1 old p hp
                have hmemp := (hsucc.2 _ hw).1
                show p ∈ h.nodes.map Prod.fst
                rw [← hsucc.1]
                exact hmemp
            | some v2 =>
                rw [Option.getD_some]
                exact hvals (p, v2) (assocLookup_some_mem im p v2 hlks)
          have hna := add_edge_nodes_of_present a ((assocLookup im p).getD p) nid
            ((a.edgeValue p old).getD 0)
            (by show (assocLookup im p).getD p ∈ a.nodes.map Prod.fst; rw [ha.1]; exact hms)
            (by show nid ∈ a.nodes.map Prod.fst; rw [ha.1]; exact hnid2)
          exact ⟨by rw [hna]; exact ha.1, edgesClosed_add_edge a _ _ _ ha.2⟩
        · rw [if_neg hcnd]; exact ha
      set h2 : HariGraph := (h1.predecessors old).foldl (fun hh p =>
        if (assocLookup im p).getD p ≠ nid then
          hh.add_edge ((assocLookup im p).getD p) nid ((hh.edgeValue p old).getD 0)
        else hh) h1 with hh2def
      have hred : reassignEdges h im ((old, nid) :: rest)
          = reassignEdges (h2.remove_node old) im rest := rfl
      obtain ⟨nd0, hnd0, hL0⟩ := hitems (old, nid) (List.mem_cons_self _ _)
      have hmem2 : (old, nd0) ∈ h2.nodes := by
        rw [hpred.1]
        exact lookupNode_some_mem _ _ _ hnd0
      have hkeys2 : (h2.nodes.map Prod.fst).Nodup := by
        rw [hpred.1]; exact hkeys
      have hrm := labelMS_remove_present h2 old nd0 hkeys2 hmem2
      have hms_eq : labelMS h2 = labelMS h := by
        unfold labelMS
        rw [hpred.1]
      have hclr : EdgesClosed (h2.remove_node old) := edgesClosed_remove_node h2 old hpred.2
      have hkeysr : ((h2.remove_node old).nodes.map Prod.fst).Nodup :=
        hkeys2.sublist ((List.filter_sublist _).map Prod.fst)
      have hvalsr : ∀ q ∈ im, q.2 ∈ (h2.remove_node old).nodeIds := by
        intro q hq
        have hq2 : q.2 ∈ h2.nodeIds := by
          show q.2 ∈ h2.nodes.map Prod.fst
          rw [hpred.1]
          exact hvals q hq
        exact mem_nodeIds_remove_node h2 old q.2 hq2
          (hdisj q hq (old, nid) (List.mem_cons_self _ _))
      have hdisjr : ∀ q ∈ im, ∀ r ∈ rest, q.2 ≠ r.1 :=
        fun q hq r hr => hdisj q hq r (List.mem_cons_of_mem _ hr)
      have hinddr : (rest.map Prod.fst).Nodup := by
        rw [List.map_cons] at hindd
        exact hindd.of_cons
      have hsubmr : ∀ r ∈ rest, r ∈ im := fun r hr => hsubm r (List.mem_cons_of_mem _ hr)
      have hitemsr : ∀ r ∈ rest, ∃ nd, lookupNode (h2.remove_node old).nodes r.1 = some nd
          ∧ ((labelD r.1 nd : List ℤ) : Multiset ℤ) = L r.1 := by
        intro r hr
        obtain ⟨nd, hnd, hLr⟩ := hitems r (List.mem_cons_of_mem _ hr)
        refine ⟨nd, ?_, hLr⟩
        have hr1old : r.1 ≠ old := by
          rw [List.map_cons] at hindd
          have hold_not := (List.nodup_cons.mp hindd).1
          intro hc
          exact hold_not (List.mem_map.mpr ⟨r, hr, hc⟩)
        show lookupNode (h2.nodes.filter (fun p => decide (p.1 ≠ old))) r.1 = some nd
        rw [lookupNode_filter_ne h2.nodes old r.1 hr1old, hpred.1]
        exact hnd
      have hihr := ih (h2.remove_node old) hclr hkeysr hvalsr hdisjr hinddr hsubmr hitemsr
      rw [hred, List.map_cons, List.sum_cons]
      dsimp only
      have hswap : labelMS (reassignEdges (h2.remove_node old) im rest)
            + (L old + (rest.map (fun r => L r.1)).sum)
          = (labelMS (reassignEdges (h2.remove_node old) im rest)
            + (rest.map (fun r => L r.1)).sum) + L old := by abel
      rw [hswap, hihr, ← hL0, hrm, hms_eq]

/-- The list form of `merge_clusters` conserves the label multiset on a
well-formed graph: the created cluster nodes carry exactly the labels of
their constituents, which are then removed. -/
theorem labelMS_merge_clusters_list (g g' : HariGraph) (cs : List (List ℤ))
    (hnkeys : (g.nodes.map Prod.fst).Nodup)
    (hclosed : EdgesClosed g)
    (hok : g.merge_clusters (.clist cs) = .ok g') :
    labelMS g' = labelMS g := by
  have hred : g.merge_clusters (.clist cs)
      = (match listIdMapping g cs (g.maxNodeId + 1) [] with
        | .error _ => .error (.assertionError, g)
        | .ok im =>
            match createClusterNodes im g cs with
            | .error e => .error e
            | .ok h => .ok (reassignEdges h im im)) := rfl
  rw [hred] at hok
  cases him : listIdMapping g cs (g.maxNodeId + 1) [] with
  | error e => rw [him] at hok; cases hok
  | ok im =>
      rw [him] at hok
      have hok2 : (match createClusterNodes im g cs with
          | Except.error e => (Except.error e : Except (MergeError × HariGraph) HariGraph)
          | Except.ok h => Except.ok (reassignEdges h im im)) = Except.ok g' := hok
      cases hcc : createClusterNodes im g cs with
      | error e => rw [hcc] at hok2; cases hok2
      | ok h =>
          rw [hcc] at hok2
          injection hok2 with hh
          have him_eq : im = clustersMap cs (g.maxNodeId + 1) := by
            have h5 := listIdMapping_ok_eq g cs (g.maxNodeId + 1) [] im him
            simpa using h5
          obtain ⟨hmem, hndflat, _, hdom⟩ :=
            listIdMapping_ok_valid g cs (g.maxNodeId + 1) [] im him
          have hdom2 : im.map Prod.fst = cs.flatten := by simpa using hdom
          have hlk : ∀ (t : ℕ) (c : List ℤ), cs.get? t = some c → ∀ c0 cr, c = c0 :: cr →
              assocLookup im c0 = some ((g.maxNodeId + 1) + t) := by
            intro t c hc c0 cr hform
            rw [him_eq]
            refine clustersMap_lookup cs hndflat (g.maxNodeId + 1) t c hc c0 ?_
            rw [hform]
            exact List.mem_cons_self _ _
          obtain ⟨ext2, hn2, hk2, hms2⟩ := createClusterNodes_labelMS g im cs
            (g.maxNodeId + 1) [] g h hcc (by simp) (by omega) (by simp) hlk hmem
          have hext2keys : ext2.map Prod.fst
              = (List.range cs.length).map (fun t : ℕ => g.maxNodeId + 1 + (t : ℤ)) := by
            simpa using hk2
          have hkeysh : (h.nodes.map Prod.fst).Nodup := by
            rw [hn2, List.map_append]
            refine List.Nodup.append hnkeys ?_ ?_
            · rw [hext2keys]
              refine List.Nodup.map ?_ (List.nodup_range _)
              intro a b hab
              simp only [] at hab
              omega
            · intro x hx1 hx2
              have hle := mem_le_maxNodeId g x hx1
              rw [hext2keys] at hx2
              obtain ⟨t, ht, hte⟩ := List.mem_map.mp hx2
              omega
          set Lg : ℤ → Multiset ℤ :=
            fun x => ((labelD x ((g.getNode x).getD autoNode) : List ℤ) : Multiset ℤ) with hLg
          have hvalsh : ∀ q ∈ im, q.2 ∈ h.nodeIds := by
            intro q hq
            obtain ⟨t, ht, hte⟩ := clustersMap_snd_mem cs (g.maxNodeId + 1) q (him_eq ▸ hq)
            show q.2 ∈ h.nodes.map Prod.fst
            rw [hn2, List.map_append]
            refine List.mem_append_right _ ?_
            rw [hext2keys]
            refine List.mem_map.mpr ⟨t, List.mem_range.mpr ht, ?_⟩
            rw [hte]
          have hdisjh : ∀ q ∈ im, ∀ r ∈ im, q.2 ≠ r.1 := by
            intro q hq r hr
            obtain ⟨t, ht, hte⟩ := clustersMap_snd_mem cs (g.maxNodeId + 1) q (him_eq ▸ hq)
            have hr1 : r.1 ∈ cs.flatten := by
              rw [← hdom2]
              exact List.mem_map.mpr ⟨r, hr, rfl⟩
            obtain ⟨c, hcm, hxc⟩ := List.mem_flatten.mp hr1
            have hle := mem_le_maxNodeId g r.1 (hmem c hcm r.1 hxc)
            intro hcon
            rw [hcon] at hte
            omega
          have hinddh : (im.map Prod.fst).Nodup := by
            rw [hdom2]; exact hndflat
          have hitemsh : ∀ r ∈ im, ∃ nd, lookupNode h.nodes r.1 = some nd
              ∧ ((labelD r.1 nd : List ℤ) : Multiset ℤ) = Lg r.1 := by
            intro r hr
            have hr1 : r.1 ∈ cs.flatten := by
              rw [← hdom2]
              exact List.mem_map.mpr ⟨r, hr, rfl⟩
            obtain ⟨c, hcm, hxc⟩ := List.mem_flatten.mp hr1
            have hr1g : r.1 ∈ g.nodeIds := hmem c hcm r.1 hxc
            obtain ⟨nd, hnd⟩ := Option.isSome_iff_exists.mp
              ((lookupNode_isSome_iff g.nodes r.1).mpr hr1g)
            refine ⟨nd, ?_, ?_⟩
            · rw [hn2]
              exact lookupNode_append_some g.nodes ext2 r.1 nd hnd
            · rw [hLg]
              dsimp only
              rw [show g.getNode r.1 = some nd from hnd, Option.getD_some]
          have hclh : EdgesClosed h := by
            intro e he
            have heg : e ∈ g.edges := by
              rw [← createClusterNodes_edges im cs g h hcc]
              exact he
            obtain ⟨h1m, h2m⟩ := hclosed e heg
            constructor
            · show e.1 ∈ h.nodes.map Prod.fst
              rw [hn2, List.map_append]
              exact List.mem_append_left _ h1m
            · show e.2.1 ∈ h.nodes.map Prod.fst
              rw [hn2, List.map_append]
              exact List.mem_append_left _ h2m
          have hre := reassignEdges_labelMS im Lg im h hclh hkeysh hvalsh hdisjh hinddh
            (fun r hr => hr) hitemsh
          have hsum : (im.map (fun r => Lg r.1)).sum = (cs.map (clusterLabelsG g)).sum := by
            rw [show im.map (fun r => Lg r.1) = (im.map Prod.fst).map Lg from by
              rw [List.map_map]; rfl]
            rw [hdom2, flatten_map_sum Lg cs]
            rfl
          rw [← hh]
          have hre2 := hre
          rw [hsum, hms2] at hre2
          exact add_right_cancel hre2

/-- A single label-conservative merge operation conserves the label
multiset. -/
theorem labelOp_labelMS : ∀ (g g' : HariGraph), LabelOp g g' → labelMS g' = labelMS g
  | g, _, LabelOp.pair _ i j hnk hek hcl hi hj hij =>
      labelMS_merge_nodes g i j hnk hek hcl hi hj hij
  | g, g', LabelOp.clusters _ _ cs hnk hcl hok =>
      labelMS_merge_clusters_list g g' cs hnk hcl hok

/-- Claim C6 (amended): `merge_nodes` on well-formed graphs and the
list form of `merge_clusters` are label-conservative — after any
sequence of such operations the multiset union of all node labels is
exactly what it was before the sequence, so a label partition of the
original identifiers remains a partition of the same set; the dict form
of `merge_clusters` is excluded, since it can overwrite an existing
untouched node and lose its label. -/
theorem merge_sequence_label_conservation (g g' : HariGraph)
    (hchain : Relation.ReflTransGen LabelOp g g') :
    labelMS g' = labelMS g := by
  induction hchain with
  | refl => rfl
  | tail hc hstep ih => rw [labelOp_labelMS _ _ hstep, ih]

/-- Witness for claim C6 (amended): a concrete pairwise merge on the
three-node overlap example conserves the label multiset. -/
theorem merge_sequence_label_conservation_witness :
    labelMS (overlapExample.merge_nodes 0 1) = labelMS overlapExample :=
  merge_sequence_label_conservation overlapExample (overlapExample.merge_nodes 0 1)
    (Relation.ReflTransGen.single
      (LabelOp.pair overlapExample 0 1 (by decide) (by decide) (by decide) (by decide)
        (by decide) (by decide)))

end HariPlotter
